import Mathlib

/-!
# The interactive shell of `project1/project1.c`

A shallow embedding of the shell's global state (`interrupted`, `history`,
`hist_count`, `foreground_pgid`), of its history buffer, of its interrupt
handler, of its in-place string handling and of the way `process_command`
and `execute_pipeline` drive the operating system.

Conventions of the embedding:

* a C string is the list of its characters before the terminating NUL;
* a character buffer is a `List Char`; a pointer into it is an index; a read
  at or past the end of the list gives NUL (the terminator of the last
  string of the buffer);
* everything the shell or one of its children asks of the operating system
  is appended to a log of `Event`s; what the operating system answers
  (`fork`, `pipe`, `open`, `execvp`, the arrival of SIGINT) comes from a
  `World`;
* `hist_count` is a C `int`: it is an integer here, and the increment of
  line 44 reduces its result into the range of `int` (`wrap_int`).

The file-system checker of `project2/project 2.c` is embedded in the
namespace `Fsck`, after the definitions of the shell.
-/

namespace Shell

/-! ## Constants -/

def MAX_PIPES : Nat := 10
def HISTORY_SIZE : Nat := 100
def MAX_ARGS : Nat := 64

/-- The characters of a C string, terminator excluded. -/
abbrev CStr := List Char

/-! ## File descriptors -/

/-- What an open file descriptor refers to. -/
inductive FdObj where
  | inherited (n : Nat)
  | pipe_read (k : Nat)
  | pipe_write (k : Nat)
  | file (path : CStr)
  deriving DecidableEq

/-- A descriptor table: slot `fd` holds what descriptor `fd` refers to, or
`none` when it is closed. -/
abbrev FdTable := List (Option FdObj)

/-- The three flag sets `open` is called with: `append` stands for
`O_WRONLY|O_CREAT|O_APPEND` (line 174), `trunc` for
`O_WRONLY|O_CREAT|O_TRUNC` (line 207) and `rdonly` for `O_RDONLY`
(line 240). -/
inductive OpenMode where
  | append
  | trunc
  | rdonly
  deriving DecidableEq

/-! ## Events -/

/-- One step of a forked child, between `fork` and the end of the code the
shell wrote for it: `setpgid_self` is `setpgid(0, 0)`; `open_ok` is a call of
`open` that returns `fd`, `open_failed` one that returns `-1`; `stderr` is
the `fprintf(stderr, ...)` of line 85; `execvp file argv` is the call
`execvp(args[0], args)` with `args[0]` (NULL when `none`) and the vector up
to and including its NULL; `exit` is `exit(status)`. -/
inductive ChildOp where
  | setpgid_self
  | open_ok (path : CStr) (mode : OpenMode) (fd : Nat)
  | open_failed (path : CStr) (mode : OpenMode)
  | dup2 (oldfd newfd : Nat)
  | close (fd : Nat)
  | stderr (msg : CStr)
  | perror (what : CStr)
  | execvp (file : Option CStr) (argv : List (Option CStr))
  | exit (status : Nat)
  deriving DecidableEq

/-- A forked child: what it does and the descriptor table it ends with (the
table the replaced program starts from when `execvp` succeeds). -/
structure Child where
  ops : List ChildOp
  fdt : FdTable
  deriving DecidableEq

/-- What the shell process itself does: `kill_group g` is
`kill(-g, SIGKILL)`; `write_stdout` is `write(STDOUT_FILENO, ...)`;
`printf_history i t` is the `printf` of `show_history` for the index `i` and
the slot content `t`; `pipe_ok k r w` is the `k`-th call of `pipe`, giving
the read end `r` and the write end `w`; `fork_ok pid child` is a successful
`fork`, with what the child does; `sigttou_ignore` and `sigttou_default` are
`signal(SIGTTOU, SIG_IGN)` and `signal(SIGTTOU, SIG_DFL)`; `tcsetpgrp g` is
`tcsetpgrp(STDIN_FILENO, g)` and `tcsetpgrp_shell` is
`tcsetpgrp(STDIN_FILENO, getpgrp())`; `waitpid pid` is
`waitpid(pid, NULL, 0)`. -/
inductive Event where
  | kill_group (pgid : Int)
  | write_stdout (text : CStr)
  | printf_history (index : Nat) (text : Option CStr)
  | pipe_ok (k : Nat) (rfd wfd : Nat)
  | pipe_failed
  | fork_ok (pid : Int) (child : Child)
  | fork_failed
  | setpgid (pid pgid : Int)
  | sigttou_ignore
  | sigttou_default
  | tcsetpgrp (pgid : Int)
  | tcsetpgrp_shell
  | waitpid (pid : Int)
  | close (fd : Nat)
  | perror (what : CStr)
  deriving DecidableEq

/-! ## The state of the shell process -/

/-- The globals of the program, the descriptor table of the shell process,
the log of what it did, and how many times it asked the world for each kind
of answer. -/
structure Sh where
  interrupted : Int
  history : List (Option CStr)
  hist_count : Int
  foreground_pgid : Int
  fdt : FdTable
  log : List Event
  nfork : Nat
  npipe : Nat
  npoint : Nat
  deriving DecidableEq

/-- The state at program start: zero-initialised globals, the three standard
descriptors open. -/
def Sh.init : Sh where
  interrupted := 0
  history := List.replicate HISTORY_SIZE none
  hist_count := 0
  foreground_pgid := 0
  fdt := [some (.inherited 0), some (.inherited 1), some (.inherited 2)]
  log := []
  nfork := 0
  npipe := 0
  npoint := 0

def Sh.emit (s : Sh) (e : Event) : Sh := { s with log := s.log ++ [e] }

/-- A step the C semantics gives no meaning to. -/
inductive Fault where
  | out_of_bounds (index : Nat)
  deriving DecidableEq

/-! ## `handle_sigint` (lines 27-34) -/

def handle_sigint (s : Sh) : Sh :=
  let s := if 0 < s.foreground_pgid then
      { (s.emit (.kill_group s.foreground_pgid)) with foreground_pgid := 0 }
    else s
  let s := { s with interrupted := 1 }
  s.emit (.write_stdout ['\n'])

/-! ## The history buffer (lines 36-45 and 108-113) -/

/-- The call `memmove(history, history+1, (HISTORY_SIZE-1)*sizeof(char*))`:
slots `0 .. HISTORY_SIZE-2` receive slots `1 .. HISTORY_SIZE-1`, and the
last slot keeps its value. -/
def memmove_down (h : List (Option CStr)) : List (Option CStr) :=
  (h.drop 1).take (HISTORY_SIZE - 1) ++ h.drop (HISTORY_SIZE - 1)

/-- The largest value of the C type `int`. -/
def INT_MAX : Int := 2147483647

/-- The value an `int` holds after the result `x` of an arithmetic step was
stored in it: `x` reduced modulo `2^32` into the range from `-2^31` to
`INT_MAX`. -/
def wrap_int (x : Int) : Int := (x + 2147483648) % 4294967296 - 2147483648

/-- The function `add_to_history` (lines 36-45). When `hist_count` is
negative, which it is once its increment has passed `INT_MAX`, the test of
line 37 holds and the write of line 38 goes to an address before the array:
the array keeps its content. -/
def add_to_history (s : Sh) (command : CStr) : Sh :=
  if s.hist_count < HISTORY_SIZE then
    { s with
      history :=
        if 0 ≤ s.hist_count then s.history.set s.hist_count.toNat (some command)
        else s.history
      hist_count := wrap_int (s.hist_count + 1) }
  else
    { s with
      history := (memmove_down s.history).set (HISTORY_SIZE - 1) (some command)
      hist_count := wrap_int (s.hist_count + 1) }

/-- The loop of `show_history`, started at index `i` with `fuel` iterations
left to run. A read of `history[i]` with `i` outside the array is a fault. -/
def show_history_loop : Nat → Nat → Sh → Except Fault Sh
  | 0, _, s => .ok s
  | fuel + 1, i, s =>
    if (i : Int) < s.hist_count then
      match s.history[i]? with
      | none => .error (.out_of_bounds i)
      | some text => show_history_loop fuel (i + 1) (s.emit (.printf_history (i + 1) text))
    else .ok s

def show_history (s : Sh) : Except Fault Sh :=
  let start : Int :=
    if s.hist_count > HISTORY_SIZE then s.hist_count - HISTORY_SIZE else 0
  show_history_loop (s.hist_count - start).toNat start.toNat s

/-- The state after the lines `ls` have been recorded, oldest first, starting
from the initial state. -/
def record_all (ls : List CStr) : Sh := ls.foldl add_to_history Sh.init

/-- The lines `show_history` printed, with the index printed before each. -/
def printed (log : List Event) : List (Nat × Option CStr) :=
  log.filterMap fun e =>
    match e with
    | .printf_history i t => some (i, t)
    | _ => none

/-! ## Characters, buffers and the C string functions the shell calls -/

def NUL : Char := Char.ofNat 0

/-- The function `isspace` of the C locale: space, `\t`, `\n`, `\v`, `\f`, `\r`. -/
def isspace (c : Char) : Bool :=
  c == ' ' || c == '\t' || c == '\n' || c == Char.ofNat 11 || c == Char.ofNat 12 || c == '\r'

/-- A region of memory holding characters. -/
abbrev Buf := List Char

/-- The read `*p`. -/
def peek (b : Buf) (p : Nat) : Char := b.getD p NUL

/-- The write `*p = '\0'`. -/
def poke (b : Buf) (p : Nat) : Buf := b.set p NUL

/-- The C string that starts at `p`. -/
def cstr (b : Buf) (p : Nat) : CStr := (b.drop p).takeWhile (fun c => c != NUL)

def strlen (b : Buf) (p : Nat) : Nat := (cstr b p).length

/-- The call `strspn(p, accept)`. -/
def strspn (b : Buf) (p : Nat) (accept : List Char) : Nat :=
  ((cstr b p).takeWhile (fun c => accept.contains c)).length

/-- The call `strcspn(p, reject)`. -/
def strcspn (b : Buf) (p : Nat) (reject : List Char) : Nat :=
  ((cstr b p).takeWhile (fun c => !reject.contains c)).length

/-- The call `strchr(s, c)`: the offset of the first `c` in `s`. -/
def strchr : CStr → Char → Option Nat
  | [], _ => none
  | x :: xs, c => if x = c then some 0 else (strchr xs c).map (· + 1)

/-- The call `strstr(hay, needle)`: the offset of the first occurrence. -/
def strstr : CStr → CStr → Option Nat
  | [], needle => if needle = [] then some 0 else none
  | x :: xs, needle =>
    if needle.isPrefixOf (x :: xs) then some 0 else (strstr xs needle).map (· + 1)

/-- What a call of `strtok_r` (or of `strtok`, whose saved pointer is a
static variable) leaves behind: the buffer, the token returned (`none` for
NULL) and the saved pointer. -/
structure Tok where
  buf : Buf
  token : Option Nat
  save : Nat
  deriving DecidableEq

/-- The library function `strtok_r`, scanning from `s` (the string on a first
call, the saved pointer on a later one): skip the delimiters, return NULL at
the end of the string, else overwrite the delimiter that ends the token with
NUL and save the address after it. -/
def strtok_r (b : Buf) (s : Nat) (delim : List Char) : Tok :=
  let s := s + strspn b s delim
  if peek b s = NUL then ⟨b, none, s⟩
  else
    let e := s + strcspn b s delim
    if peek b e = NUL then ⟨b, some s, e⟩
    else ⟨poke b e, some s, e + 1⟩

/-- The loop `while (isspace(*p)) p++`. -/
def skip_space (b : Buf) (p : Nat) : Nat :=
  p + ((b.drop p).takeWhile isspace).length

/-! ## `split_args` (lines 47-55) -/

/-- The loop of `split_args`; `args.length` is the counter `i`. Every
iteration increments `i` and the loop stops at `MAX_ARGS-1`, so `MAX_ARGS-1`
steps run it to its end. -/
def split_args_loop : Nat → Tok → List Nat → Buf × List Nat
  | 0, t, args => (t.buf, args)
  | fuel + 1, t, args =>
    match t.token with
    | some token =>
      if args.length < MAX_ARGS - 1 then
        split_args_loop fuel (strtok_r t.buf t.save [' ', '\t']) (args ++ [token])
      else (t.buf, args)
    | none => (t.buf, args)

/-- The vector `args` that `split_args(cmd, args)` fills, as `execvp` reads
it: the strings the stored pointers address, then the NULL stored last. -/
def split_args (b : Buf) (cmd : Nat) : List (Option CStr) :=
  let r := split_args_loop (MAX_ARGS - 1) (strtok_r b cmd [' ', '\t']) []
  r.2.map (fun p => some (cstr r.1 p)) ++ [none]

/-! ## The operator scan of `process_command` (lines 115-263) -/

/-- The loop `while (end > token && isspace(*end)) end--`, on `e1 = end + 1`
(so that `end = token - 1`, the value for an empty token, needs no negative
number). -/
def trim_end : Nat → Buf → Nat → Nat → Nat
  | 0, _, _, e1 => e1
  | fuel + 1, b, token, e1 =>
    if token + 1 < e1 && isspace (peek b (e1 - 1)) then trim_end fuel b token (e1 - 1)
    else e1

/-- The loop over the `|`-separated tokens (lines 132-142); `cmds.length` is
the counter `i`. -/
def pipe_loop : Nat → Tok → List Nat → Buf × List Nat
  | 0, t, cmds => (t.buf, cmds)
  | fuel + 1, t, cmds =>
    match t.token with
    | some token =>
      if cmds.length < MAX_PIPES then
        let token := skip_space t.buf token
        let e1 := trim_end (strlen t.buf token) t.buf token (token + strlen t.buf token)
        let b := poke t.buf e1
        let cmds := if peek b token ≠ NUL then cmds ++ [token] else cmds
        pipe_loop fuel (strtok_r b t.save ['|']) cmds
      else (t.buf, cmds)
    | none => (t.buf, cmds)

/-- Lines 130-142: the buffer and the array `cmds` after the tokenising loop.
Every iteration consumes at least one character of the string, so `strlen`
steps run the loop to its end. -/
def pipe_scan (b : Buf) (command : Nat) : Buf × List Nat :=
  pipe_loop (strlen b command) (strtok_r b command ['|']) []

/-- What `process_command` decides to do with a statement; the numbers are
pointers into the buffer returned with the decision. -/
inductive Decision where
  | exit_builtin
  | history_builtin
  | empty
  | pipeline (cmds : List Nat)
  | and_list (first_cmd second_cmd : Nat)
  | redirect (mode : OpenMode) (command file : Nat)
  | plain (command : Nat)
  deriving DecidableEq

/-- The parsing half of `process_command`: every test and every write to the
statement buffer, in the order of the source, up to the point where a
process is created or `process_command` calls itself. -/
def dispatch (b : Buf) (command : Nat) : Buf × Decision :=
  let command := skip_space b command
  if cstr b command = "exit".toList then (b, .exit_builtin)
  else if cstr b command = "history".toList then (b, .history_builtin)
  else if peek b command = NUL then (b, .empty)
  else
    let scan := if (strchr (cstr b command) '|').isSome then pipe_scan b command else (b, [])
    if 1 < scan.2.length then (scan.1, .pipeline scan.2)
    else
      let b := scan.1
      match strstr (cstr b command) "&&".toList with
      | some k =>
        let and_pos := command + k
        let b := poke b and_pos
        (b, .and_list command (skip_space b (and_pos + 2)))
      | none =>
        match strstr (cstr b command) ">>".toList with
        | some k =>
          let append_pos := command + k
          let b := poke b append_pos
          (b, .redirect .append command (skip_space b (append_pos + 2)))
        | none =>
          match strchr (cstr b command) '>' with
          | some k =>
            let output_pos := command + k
            let b := poke b output_pos
            (b, .redirect .trunc command (skip_space b (output_pos + 1)))
          | none =>
            match strchr (cstr b command) '<' with
            | some k =>
              let input_pos := command + k
              let b := poke b input_pos
              (b, .redirect .rdonly command (skip_space b (input_pos + 1)))
            | none => (b, .plain command)

/-! ## The operating system, as far as the shell sees it -/

/-- The answers of the operating system. `fork k` answers the `k`-th call of
`fork`: `0` when the call fails (the shell then reads `-1`), else the pid of
the new child. `pipe_ok k` tells whether the `k`-th call of `pipe` succeeds.
`sigint k` is the number of SIGINT signals delivered to the shell at the
`k`-th point where the model lets signals in. `open_ok` and `exec_ok` tell
whether a child can open a path and replace its program. -/
structure World where
  fork : Nat → Nat
  pipe_ok : Nat → Bool
  sigint : Nat → Nat
  open_ok : CStr → Bool
  exec_ok : CStr → Bool

/-- A point of the main flow where pending SIGINT signals are handled: the
handler installed by `main` runs once for each. -/
def poll (w : World) (s : Sh) : Sh :=
  handle_sigint^[w.sigint s.npoint] { s with npoint := s.npoint + 1 }

def fd_get (t : FdTable) (fd : Nat) : Option FdObj := t.getD fd none

def fd_put (t : FdTable) (fd : Nat) (v : Option FdObj) : FdTable :=
  if fd < t.length then t.set fd v else t ++ List.replicate (fd - t.length) none ++ [v]

/-- The descriptor a call that allocates one returns: the lowest closed one. -/
def lowest_free (t : FdTable) : Nat := t.findIdx Option.isNone

def sys_close (t : FdTable) (fd : Nat) : FdTable :=
  match fd_get t fd with
  | none => t
  | some _ => fd_put t fd none

def sys_dup2 (t : FdTable) (oldfd newfd : Nat) : FdTable :=
  match fd_get t oldfd with
  | none => t
  | some o => fd_put t newfd (some o)

/-- The table after a successful `pipe`, with the read and the write end. -/
def sys_pipe (t : FdTable) (k : Nat) : FdTable × Nat × Nat :=
  let r := lowest_free t
  let t := fd_put t r (some (.pipe_read k))
  let w := lowest_free t
  (fd_put t w (some (.pipe_write k)), r, w)

/-- The effect of one step of a child on its descriptor table. -/
def child_step (t : FdTable) : ChildOp → FdTable
  | .open_ok path _ fd => fd_put t fd (some (.file path))
  | .dup2 oldfd newfd => sys_dup2 t oldfd newfd
  | .close fd => sys_close t fd
  | _ => t

def EXIT_FAILURE : Nat := 1

/-- The tail shared by every child: `execvp(args[0], args)`, and when that
returns, `perror("execvp"); exit(EXIT_FAILURE)`. A NULL file name makes the
call fail. -/
def exec_tail (w : World) (args : List (Option CStr)) : List ChildOp :=
  let file := args.headD none
  let ok := match file with
    | some f => w.exec_ok f
    | none => false
  ChildOp.execvp file args :: (if ok then [] else [.perror "execvp".toList, .exit EXIT_FAILURE])

/-- A child made of the steps `ops`, started with the table `t`. -/
def Child.run (t : FdTable) (ops : List ChildOp) : Child := ⟨ops, ops.foldl child_step t⟩

/-- The child of the plain path (lines 265-271). -/
def plain_child (w : World) (t : FdTable) (b : Buf) (command : Nat) : Child :=
  Child.run t (ChildOp.setpgid_self :: exec_tail w (split_args b command))

/-- The child of the three redirection paths (lines 172-185, 205-218,
238-251): they differ in the flags of `open` and in the descriptor replaced. -/
def redirect_child (w : World) (t : FdTable) (b : Buf) (mode : OpenMode)
    (command file : Nat) : Child :=
  let path := cstr b file
  let target := if mode = .rdonly then 0 else 1
  Child.run t (ChildOp.setpgid_self ::
    (if w.open_ok path then
      let fd := lowest_free t
      [ChildOp.open_ok path mode fd, .dup2 fd target, .close fd]
        ++ exec_tail w (split_args b command)
    else [ChildOp.open_failed path mode, .perror "open".toList, .exit EXIT_FAILURE]))

/-- The child of stage `i` of a pipeline (lines 70-90). -/
def stage_child (w : World) (t : FdTable) (b : Buf) (commands : List Nat) (num_cmds : Nat)
    (pipefd : List Nat) (i : Nat) : Child :=
  let args := split_args b (commands.getD i 0)
  Child.run t (ChildOp.setpgid_self ::
    ((if 0 < i then
        [ChildOp.dup2 (pipefd.getD (2 * (i - 1)) 0) 0, .close (pipefd.getD (2 * (i - 1)) 0)]
      else [])
    ++ (if i < num_cmds - 1 then
        [ChildOp.dup2 (pipefd.getD (2 * i + 1) 0) 1, .close (pipefd.getD (2 * i + 1) 0)]
      else [])
    ++ (List.range (2 * (num_cmds - 1))).map (fun j => ChildOp.close (pipefd.getD j 0))
    ++ (if args.headD none = none then
        [ChildOp.stderr "Empty command\n".toList, .exit EXIT_FAILURE]
      else exec_tail w args)))

/-- Why the shell stops running the code of `process_command`: a call of
`exit`, a step without meaning in C, or the fuel of the model running out. -/
inductive Stop where
  | exited (s : Sh) (status : Nat)
  | fault (s : Sh) (f : Fault)
  | out_of_fuel
  deriving DecidableEq

/-- The call `fork()` seen from the parent, which gets the pid or `-1`. -/
def do_fork (w : World) (s : Sh) (child : Child) : Sh × Int :=
  let r := w.fork s.nfork
  let s := { s with nfork := s.nfork + 1 }
  if r = 0 then (s.emit .fork_failed, -1) else (s.emit (.fork_ok r child), r)

/-! ## `execute_pipeline` (lines 57-106) -/

/-- The loop of lines 61-66, from index `i`, with `fuel` iterations to run;
`pipefd` is the array of `2 * MAX_PIPES` descriptors. -/
def make_pipes (w : World) : Nat → Nat → Sh → List Nat → Except Stop (Sh × List Nat)
  | 0, _, s, pipefd => .ok (s, pipefd)
  | fuel + 1, i, s, pipefd =>
    let s := poll w s
    if 2 * i + 1 < pipefd.length then
      if w.pipe_ok s.npipe then
        let r := sys_pipe s.fdt s.npipe
        let s := { s with fdt := r.1, npipe := s.npipe + 1 }.emit (.pipe_ok s.npipe r.2.1 r.2.2)
        make_pipes w fuel (i + 1) s ((pipefd.set (2 * i) r.2.1).set (2 * i + 1) r.2.2)
      else
        .error (.exited ((s.emit .pipe_failed).emit (.perror "pipe".toList)) EXIT_FAILURE)
    else .error (.fault s (.out_of_bounds (2 * i + 1)))

/-- The loop of lines 68-97, from index `i`; `pids` is the array of
`MAX_PIPES` process ids. -/
def spawn_stages (w : World) (b : Buf) (commands : List Nat) (num_cmds : Nat)
    (pipefd : List Nat) : Nat → Nat → Sh → List Int → Except Stop (Sh × List Int)
  | 0, _, s, pids => .ok (s, pids)
  | fuel + 1, i, s, pids =>
    let s := poll w s
    if i < pids.length then
      let r := do_fork w s (stage_child w s.fdt b commands num_cmds pipefd i)
      let s := r.1
      let pids := pids.set i r.2
      if r.2 < 0 then
        .error (.exited (s.emit (.perror "fork".toList)) EXIT_FAILURE)
      else
        let s := poll w s
        let s := s.emit (.setpgid r.2 (pids.getD 0 0))
        spawn_stages w b commands num_cmds pipefd fuel (i + 1) s pids
    else .error (.fault s (.out_of_bounds i))

/-- The loop of lines 99-101. -/
def close_pipes (w : World) (pipefd : List Nat) : Nat → Nat → Sh → Sh
  | 0, _, s => s
  | fuel + 1, j, s =>
    let s := poll w s
    let fd := pipefd.getD j 0
    close_pipes w pipefd fuel (j + 1) ({ s with fdt := sys_close s.fdt fd }.emit (.close fd))

/-- The loop of lines 103-105. The point after each `waitpid` stands for the
time the shell is blocked in that call. -/
def wait_stages (w : World) (pids : List Int) : Nat → Nat → Sh → Sh
  | 0, _, s => s
  | fuel + 1, i, s =>
    let s := poll w s
    let s := s.emit (.waitpid (pids.getD i 0))
    wait_stages w pids fuel (i + 1) (poll w s)

def execute_pipeline (w : World) (s : Sh) (b : Buf) (commands : List Nat) (num_cmds : Nat) :
    Except Stop Sh := do
  let (s, pipefd) ← make_pipes w (num_cmds - 1) 0 s (List.replicate (2 * MAX_PIPES) 0)
  let (s, pids) ← spawn_stages w b commands num_cmds pipefd num_cmds 0 s
    (List.replicate MAX_PIPES 0)
  let s := close_pipes w pipefd (2 * (num_cmds - 1)) 0 s
  pure (wait_stages w pids num_cmds 0 s)

/-! ## `process_command` (lines 115-281) -/

/-- The parent side of the plain path and of the three redirection paths
(lines 187-193, 220-226, 253-259, 273-279), which is the same code four
times. The point after `waitpid` stands for the time the shell is blocked in
that call. -/
def foreground_wait (w : World) (s : Sh) (pid : Int) : Sh :=
  let s := poll w s
  let s := { s with foreground_pgid := pid }
  let s := poll w s
  let s := s.emit .sigttou_ignore
  let s := poll w s
  let s := s.emit (.tcsetpgrp pid)
  let s := poll w s
  let s := s.emit (.waitpid pid)
  let s := poll w s
  let s := s.emit .tcsetpgrp_shell
  let s := poll w s
  let s := s.emit .sigttou_default
  let s := poll w s
  let s := { s with foreground_pgid := 0 }
  poll w s

/-- The function `process_command`, on the statement at `command` in the
buffer `b`. The recursion through `&&` is bounded by `fuel`. -/
def process_command (w : World) : Nat → Sh → Buf → Nat → Except Stop (Sh × Buf)
  | 0, _, _, _ => .error .out_of_fuel
  | fuel + 1, s, b, command =>
    let s := poll w s
    match dispatch b command with
    | (_, .exit_builtin) => .error (.exited s 0)
    | (b, .history_builtin) =>
      match show_history s with
      | .ok s => .ok (s, b)
      | .error f => .error (.fault s f)
    | (b, .empty) => .ok (s, b)
    | (b, .pipeline cmds) =>
      match execute_pipeline w s b cmds cmds.length with
      | .ok s => .ok (s, b)
      | .error e => .error e
    | (b, .and_list first_cmd second_cmd) =>
      match process_command w fuel s b first_cmd with
      | .ok (s, b) =>
        let s := poll w s
        if s.foreground_pgid = 0 then process_command w fuel s b second_cmd
        else .ok (s, b)
      | .error e => .error e
    | (b, .redirect mode cmd file) =>
      let r := do_fork w s (redirect_child w s.fdt b mode cmd file)
      .ok (foreground_wait w r.1 r.2, b)
    | (b, .plain cmd) =>
      let r := do_fork w s (plain_child w s.fdt b cmd)
      .ok (foreground_wait w r.1 r.2, b)

/-! ## Reference functions for the statements about the tokenisers -/

/-- The maximal runs of characters of `s` that are not delimiters, in order
of appearance. -/
def tokens (d : Char → Bool) (s : CStr) : List CStr :=
  (s.splitOnP d).filter (fun t => t ≠ [])

/-- The string `s` without its leading and trailing `isspace` characters. -/
def trim (s : CStr) : CStr := (s.dropWhile isspace).rdropWhile isspace

/-- The delimiters of `split_args`: the characters of the string `" \t"`. -/
def arg_delim (c : Char) : Bool := [' ', '\t'].contains c

/-- The delimiter of the pipeline scan: the character of the string `"|"`. -/
def pipe_delim (c : Char) : Bool := ['|'].contains c

/-- The non-empty trimmed parts of a statement split on `|`. -/
def pipe_parts (s : CStr) : List CStr :=
  ((tokens pipe_delim s).map trim).filter (fun t => t ≠ [])

/-- The state a call of `strtok_r` leaves, when the tokens still to come
(the one just returned included) are `toks`. -/
def TokState (d : Char → Bool) (t : Tok) : List CStr → Prop
  | [] => t.token = none
  | tk :: tks => ∃ p, t.token = some p ∧ cstr t.buf p = tk ∧ tk ≠ []
      ∧ p + tk.length ≤ t.save ∧ tokens d (cstr t.buf t.save) = tks

/-! ## Reading the log -/

/-- Whether an event is one of the two that `handle_sigint` produces. -/
def Event.from_handler : Event → Bool
  | .kill_group _ => true
  | .write_stdout _ => true
  | _ => false

/-- The steps of the main flow: the log without what the handler did. -/
def main_flow (log : List Event) : List Event := log.filter (fun e => !e.from_handler)

/-- The table `t` when the `k` pipes numbered from `np` have been created
from the table `t0` and their descriptors stored in `pipefd`. -/
structure Piped (t0 : FdTable) (np k : Nat) (t : FdTable) (pipefd : List Nat) : Prop where
  size : pipefd.length = 2 * MAX_PIPES
  read_end : ∀ i, i < k → fd_get t (pipefd.getD (2 * i) 0) = some (.pipe_read (np + i))
  write_end : ∀ i, i < k → fd_get t (pipefd.getD (2 * i + 1) 0) = some (.pipe_write (np + i))
  fresh : ∀ j, j < 2 * k → fd_get t0 (pipefd.getD j 0) = none
  frame : ∀ fd, (∀ j, j < 2 * k → fd ≠ pipefd.getD j 0) → fd_get t fd = fd_get t0 fd

/-- The events of the loop that creates the pipes `i, ..., i + fuel - 1`. -/
def pipe_events (np : Nat) (pipefd : List Nat) (i fuel : Nat) : List Event :=
  (List.range' i fuel).map
    (fun k => Event.pipe_ok (np + k) (pipefd.getD (2 * k) 0) (pipefd.getD (2 * k + 1) 0))

/-- The events of the loop that spawns the stages `i, ..., i + fuel - 1`:
for each, the `fork` and the `setpgid` into the group of the first stage. -/
def spawn_events (w : World) (nf : Nat) (child : Nat → Child) (i fuel : Nat) : List Event :=
  (List.range' i fuel).flatMap
    (fun k => [Event.fork_ok (w.fork (nf + k)) (child k),
      Event.setpgid (w.fork (nf + k)) (w.fork nf)])

/-- A world in which every call succeeds and no signal arrives; the children
get the pids 100, 101, ... -/
def World.calm : World where
  fork := fun k => 100 + k
  pipe_ok := fun _ => true
  sigint := fun _ => 0
  open_ok := fun _ => true
  exec_ok := fun _ => true

/-- The world `World.calm` with one SIGINT delivered at point `k`. -/
def World.interrupt_at (k : Nat) : World :=
  { World.calm with sigint := fun j => if j = k then 1 else 0 }

/-- The world `World.calm` with every `fork` failing. -/
def World.no_fork : World := { World.calm with fork := fun _ => 0 }

/-- The log of a run that returned. -/
def returned_log (r : Except Stop (Sh × Buf)) : Option (List Event) :=
  match r with
  | .ok (s, _) => some s.log
  | .error _ => none

/-! ## The read loop of `main` (lines 294-321) -/

/-- The loop of lines 313-316, which stores the `;`-separated tokens of the
line; `commands.length` is `cmd_count`. Every iteration increments
`cmd_count` and the loop stops at 99, so 99 steps run it to its end. -/
def semi_loop : Nat → Tok → List Nat → Buf × List Nat
  | 0, t, commands => (t.buf, commands)
  | fuel + 1, t, commands =>
    match t.token with
    | some token =>
      if commands.length < 99 then
        semi_loop fuel (strtok_r t.buf t.save [';']) (commands ++ [token])
      else (t.buf, commands)
    | none => (t.buf, commands)

/-- The loop of lines 318-320: `process_command` on each stored statement, in
order; `fuel` bounds the recursion of each call. -/
def run_commands (w : World) (fuel : Nat) : List Nat → Sh → Buf → Except Stop (Sh × Buf)
  | [], s, b => .ok (s, b)
  | command :: rest, s, b =>
    match process_command w fuel s b command with
    | .ok (s, b) => run_commands w fuel rest s b
    | .error e => .error e

/-- Lines 309-320 for a line that `fgets` stored in `input`: the newline is
overwritten with NUL, the line is recorded in the history, split on `;`, and
each statement is handed to `process_command`. -/
def run_line (w : World) (fuel : Nat) (s : Sh) (input : Buf) : Except Stop (Sh × Buf) :=
  let input := poke input (strcspn input 0 ['\n'])
  let s := add_to_history s (cstr input 0)
  let r := semi_loop 99 (strtok_r input 0 [';']) []
  run_commands w fuel r.2 s r.1

/-- The states of the shell at the steps of the read loop of `main`, in the
world `w`: the state at program start; the state after the handler ran for a
SIGINT that arrived between two steps; after line 299 reset `interrupted`;
after line 310 recorded a line; and after a call of `process_command` made in
such a state returned. -/
inductive ReadLoop (w : World) : Sh → Prop
  | start : ReadLoop w Sh.init
  | signal (s : Sh) : ReadLoop w s → ReadLoop w (handle_sigint s)
  | reset (s : Sh) : ReadLoop w s → ReadLoop w { s with interrupted := 0 }
  | record (s : Sh) (line : CStr) : ReadLoop w s → ReadLoop w (add_to_history s line)
  | returned (s : Sh) (fuel : Nat) (b : Buf) (command : Nat) (s1 : Sh) (b1 : Buf) :
      ReadLoop w s → process_command w fuel s b command = .ok (s1, b1) → ReadLoop w s1

/-! ## The operator tests after the pipeline scan -/

/-- The tests of lines 150-263 and the plain path of line 265, on the
statement at `command` as the lines before left it: the part of `dispatch`
that follows the pipeline scan. -/
def operator_chain (b : Buf) (command : Nat) : Buf × Decision :=
  match strstr (cstr b command) "&&".toList with
  | some k =>
    let and_pos := command + k
    let b := poke b and_pos
    (b, .and_list command (skip_space b (and_pos + 2)))
  | none =>
    match strstr (cstr b command) ">>".toList with
    | some k =>
      let append_pos := command + k
      let b := poke b append_pos
      (b, .redirect .append command (skip_space b (append_pos + 2)))
    | none =>
      match strchr (cstr b command) '>' with
      | some k =>
        let output_pos := command + k
        let b := poke b output_pos
        (b, .redirect .trunc command (skip_space b (output_pos + 1)))
      | none =>
        match strchr (cstr b command) '<' with
        | some k =>
          let input_pos := command + k
          let b := poke b input_pos
          (b, .redirect .rdonly command (skip_space b (input_pos + 1)))
        | none => (b, .plain command)

/-- The world `World.calm` without the program `file`: a child that calls
`execvp` on it gets an error and ends with status `EXIT_FAILURE`. -/
def World.without_program (file : CStr) : World :=
  { World.calm with exec_ok := fun f => !(f == file) }

/-! ## Files, as `open` and `write` treat them

What follows is not code of the shell: it states what the calls `open` and
`write` of a child do to the regular files of the system, so that the effect
of running a statement twice can be expressed. -/

/-- The regular files: the content at each path that names one. -/
abbrev Files := CStr → Option (List Char)

/-- The files after the file at `path` received the content `data`. -/
def Files.store (fs : Files) (path : CStr) (data : List Char) : Files :=
  fun p => if p = path then some data else fs p

/-- The files after a successful `open(path, flags, 0644)`: with
`O_WRONLY | O_CREAT | O_APPEND` a missing file is created empty and an
existing one keeps its content; with `O_WRONLY | O_CREAT | O_TRUNC` the file
is created or emptied; with `O_RDONLY` nothing changes. -/
def Files.opened (fs : Files) (path : CStr) : OpenMode → Files
  | .append => fs.store path ((fs path).getD [])
  | .trunc => fs.store path []
  | .rdonly => fs

/-- The files after a whole child process: each `open` of the child acts as
above, and `out`, all that the process wrote to descriptor 1, is at the end
of the file that descriptor 1 stands for, when it stands for one. (With
`O_APPEND` every write goes to the end of the file; with `O_TRUNC` the
writes start at offset 0 of the emptied file.) -/
def Child.files (c : Child) (fs : Files) (out : List Char) : Files :=
  let fs := c.ops.foldl (fun fs op =>
    match op with
    | .open_ok path mode _ => Files.opened fs path mode
    | _ => fs) fs
  match fd_get c.fdt 1 with
  | some (.file path) => Files.store fs path ((fs path).getD [] ++ out)
  | _ => fs

/-- The delimiter of the statement split of `main`: the character of the
string `";"`. -/
def semi_delim (c : Char) : Bool := [';'].contains c

/-- The characters the operators of the shell are made of. -/
def operator_char (c : Char) : Bool := c == '|' || c == '&' || c == '>' || c == '<'

/-- The state at program start of a shell that was started with its
standard output closed: descriptor 1 is free. -/
def Sh.stdout_closed : Sh :=
  { Sh.init with fdt := [some (.inherited 0), none, some (.inherited 2)] }

end Shell

/-! # The file-system checker of `project2/project 2.c`

The globals `superblock`, `inode_table`, `inode_bitmap` and `data_bitmap`
are the fields of one state; every `printf` appends its format and its
arguments to `out`. Values of type `uint32_t`, `uint16_t` and `uint8_t` are
natural numbers; the one place where the code can overflow a machine
integer, the `uint8_t` counters of `check_duplicate_blocks`, reduces modulo
256. The transfer of the image from and to the file `vsfs.img` is not part of
the model. -/

namespace Fsck

def BLOCK_SIZE : Nat := 4096
def NUM_BLOCKS : Nat := 64
def INODE_SIZE : Nat := 256
def NUM_INODES : Nat := 80
def MAGIC_NUMBER : Nat := 0xD34D
def DATA_BLOCKS_START : Nat := 8

structure Superblock where
  magic : Nat
  block_size : Nat
  num_blocks : Nat
  inode_bitmap_block : Nat
  data_bitmap_block : Nat
  inode_table_block : Nat
  first_data_block : Nat
  inode_size : Nat
  inode_count : Nat
  reserved : List Nat
  deriving DecidableEq

structure Inode where
  mode : Nat
  uid : Nat
  gid : Nat
  size : Nat
  access_time : Nat
  creation_time : Nat
  modification_time : Nat
  deletion_time : Nat
  num_links : Nat
  num_data_blocks : Nat
  direct : List Nat
  single_indirect : Nat
  double_indirect : Nat
  triple_indirect : Nat
  reserved : List Nat
  deriving DecidableEq

/-- An inode of zero bytes: what a read outside the table gives in the model
(the loops of the program never make one). -/
def Inode.zero : Inode :=
  ⟨0, 0, 0, 0, 0, 0, 0, 0, 0, 0, [], 0, 0, 0, []⟩

/-- The globals of the program, the local counter `errors` of the check in
progress, and what was printed: each `printf` as its format and arguments. -/
structure Fs where
  superblock : Superblock
  inode_table : List Inode
  inode_bitmap : List Nat
  data_bitmap : List Nat
  errors : Nat
  out : List (String × List Nat)
  deriving DecidableEq

def Fs.printf (fs : Fs) (format : String) (args : List Nat) : Fs :=
  { fs with out := fs.out ++ [(format, args)] }

/-- The read `inode_table[i]`. -/
def Fs.inode (fs : Fs) (i : Nat) : Inode := fs.inode_table.getD i Inode.zero

/-- The read `inode_table[i].direct[j]`. -/
def Fs.direct (fs : Fs) (i j : Nat) : Nat := (fs.inode i).direct.getD j 0

/-- The write `inode_table[i].direct[j] = v`. -/
def Fs.set_direct (fs : Fs) (i j v : Nat) : Fs :=
  { fs with inode_table :=
      fs.inode_table.set i { fs.inode i with direct := (fs.inode i).direct.set j v } }

/-- The value `(byte >> (7 - bit_idx)) & 1`. -/
def bit_of (byte bit_idx : Nat) : Nat := (byte >>> (7 - bit_idx)) &&& 1

/-- The byte after `byte &= ~(1 << (7 - bit_idx))`, stored in a `uint8_t`. -/
def clear_bit (byte bit_idx : Nat) : Nat := byte &&& (255 ^^^ (1 <<< (7 - bit_idx)))

/-- The byte after `byte |= (1 << (7 - bit_idx))`, stored in a `uint8_t`. -/
def set_bit (byte bit_idx : Nat) : Nat := (byte ||| (1 <<< (7 - bit_idx))) % 256

/-! ## `check_superblock` (lines 94-127) -/

def check_superblock (fix : Bool) (fs : Fs) : Fs :=
  let fs := fs.printf "Checking Superblock...\n" []
  let fs :=
    if fs.superblock.magic ≠ MAGIC_NUMBER then
      let fs := fs.printf "Error: Invalid magic number (0x%04X)\n" [fs.superblock.magic]
      if fix then
        let fs := { fs with superblock := { fs.superblock with magic := MAGIC_NUMBER } }
        fs.printf "-> Fixed magic number to 0x%X\n" [MAGIC_NUMBER]
      else fs
    else fs.printf "Superblock magic number valid (0x%04X)\n" [fs.superblock.magic]
  let fs :=
    if fs.superblock.block_size ≠ BLOCK_SIZE then
      let fs := fs.printf "Error: Invalid block size (%d)\n" [fs.superblock.block_size]
      if fix then
        let fs := { fs with superblock := { fs.superblock with block_size := BLOCK_SIZE } }
        fs.printf "-> Fixed block size to %d\n" [BLOCK_SIZE]
      else fs
    else fs.printf "Block size valid (%d bytes)\n" [BLOCK_SIZE]
  if fs.superblock.num_blocks ≠ NUM_BLOCKS then
    let fs := fs.printf "Error: Total blocks mismatch. Expected %d, found %d\n"
      [NUM_BLOCKS, fs.superblock.num_blocks]
    if fix then
      let fs := { fs with superblock := { fs.superblock with num_blocks := NUM_BLOCKS } }
      fs.printf "-> Fixed total blocks to %d\n" [NUM_BLOCKS]
    else fs
  else fs.printf "Total blocks valid (%d)\n" [NUM_BLOCKS]

/-! ## `check_inode_bitmap` (lines 129-160) -/

/-- The body of the loop of `check_inode_bitmap` for inode `i`. -/
def inode_bitmap_step (fix : Bool) (fs : Fs) (i : Nat) : Fs :=
  let byte_idx := i / 8
  let bit_idx := i % 8
  let is_used := bit_of (fs.inode_bitmap.getD byte_idx 0) bit_idx
  if is_used ≠ 0 then
    if (fs.inode i).num_links = 0 ∨ (fs.inode i).deletion_time ≠ 0 then
      let fs := fs.printf "Error: Inode %d marked used but invalid\n" [i]
      if fix then
        let fs := { fs with inode_bitmap :=
          fs.inode_bitmap.set byte_idx (clear_bit (fs.inode_bitmap.getD byte_idx 0) bit_idx) }
        let fs := fs.printf "-> Fixed invalid inode %d\n" [i]
        { fs with errors := fs.errors + 1 }
      else fs
    else fs
  else
    if (fs.inode i).num_links > 0 ∧ (fs.inode i).deletion_time = 0 then
      let fs := fs.printf "Error: Valid inode %d not marked in bitmap\n" [i]
      if fix then
        let fs := { fs with inode_bitmap :=
          fs.inode_bitmap.set byte_idx (set_bit (fs.inode_bitmap.getD byte_idx 0) bit_idx) }
        let fs := fs.printf "-> Fixed missing inode %d\n" [i]
        { fs with errors := fs.errors + 1 }
      else fs
    else fs

def check_inode_bitmap (fix : Bool) (fs : Fs) : Fs :=
  let fs := fs.printf "Checking Inode Bitmap...\n" []
  let fs := { fs with errors := 0 }
  let fs := (List.range NUM_INODES).foldl (inode_bitmap_step fix) fs
  if fs.errors = 0 then fs.printf "Inode bitmap consistency check passed.\n" [] else fs

/-! ## `check_data_bitmap` (lines 162-201) -/

/-- The flag `referenced` that the two search loops of lines 172-181 compute
for `block`: whether some `inode_table[i].direct[j]` equals it. -/
def referenced (fs : Fs) (block : Nat) : Bool :=
  (List.range NUM_INODES).any fun i => (List.range 4).any fun j => fs.direct i j == block

/-- The body of the loop of `check_data_bitmap` for `block`. -/
def data_bitmap_step (fix : Bool) (fs : Fs) (block : Nat) : Fs :=
  let idx := block - DATA_BLOCKS_START
  let byte_idx := idx / 8
  let bit_idx := idx % 8
  let is_used := bit_of (fs.data_bitmap.getD byte_idx 0) bit_idx
  let referenced := referenced fs block
  if is_used ≠ 0 ∧ !referenced then
    let fs := fs.printf "Error: Block %d marked used but unreferenced\n" [block]
    if fix then
      let fs := { fs with data_bitmap :=
        fs.data_bitmap.set byte_idx (clear_bit (fs.data_bitmap.getD byte_idx 0) bit_idx) }
      let fs := fs.printf "-> Fixed unreferenced block %d\n" [block]
      { fs with errors := fs.errors + 1 }
    else fs
  else if is_used = 0 ∧ referenced then
    let fs := fs.printf "Error: Block %d referenced but not marked\n" [block]
    if fix then
      let fs := { fs with data_bitmap :=
        fs.data_bitmap.set byte_idx (set_bit (fs.data_bitmap.getD byte_idx 0) bit_idx) }
      let fs := fs.printf "-> Fixed missing block %d\n" [block]
      { fs with errors := fs.errors + 1 }
    else fs
  else fs

def check_data_bitmap (fix : Bool) (fs : Fs) : Fs :=
  let fs := fs.printf "Checking Data Bitmap...\n" []
  let fs := { fs with errors := 0 }
  let fs := (List.range' DATA_BLOCKS_START (NUM_BLOCKS - DATA_BLOCKS_START)).foldl
    (data_bitmap_step fix) fs
  if fs.errors = 0 then fs.printf "Data bitmap consistency check passed.\n" [] else fs

/-! ## `check_duplicate_blocks` (lines 203-225) -/

/-- The state of the loops of `check_duplicate_blocks`: the globals and the
local array `block_ref` of `NUM_BLOCKS` counters of type `uint8_t`. -/
structure DupState where
  fs : Fs
  block_ref : List Nat
  deriving DecidableEq

/-- The body of the inner loop of `check_duplicate_blocks` for the slot
`direct[j]` of inode `i`. The test `block_ref[block]++` reads the counter,
then stores the counter plus one in a `uint8_t`. -/
def duplicate_step (fix : Bool) (i : Nat) (st : DupState) (j : Nat) : DupState :=
  let block := st.fs.direct i j
  if DATA_BLOCKS_START ≤ block ∧ block < NUM_BLOCKS then
    let old := st.block_ref.getD block 0
    let st := { st with block_ref := st.block_ref.set block ((old + 1) % 256) }
    if old ≠ 0 then
      let fs := st.fs.printf "Error: Block %d referenced by multiple inodes\n" [block]
      if fix then
        let fs := fs.set_direct i j 0
        let fs := fs.printf "-> Fixed duplicate block %d in inode %d\n" [block, i]
        { st with fs := { fs with errors := fs.errors + 1 } }
      else { st with fs := fs }
    else st
  else st

def check_duplicate_blocks (fix : Bool) (fs : Fs) : Fs :=
  let fs := fs.printf "Checking for duplicate blocks...\n" []
  let fs := { fs with errors := 0 }
  let st := (List.range NUM_INODES).foldl
    (fun st i => (List.range 4).foldl (duplicate_step fix i) st)
    (DupState.mk fs (List.replicate NUM_BLOCKS 0))
  if st.fs.errors = 0 then st.fs.printf "Duplicate block check passed.\n" [] else st.fs

/-! ## `check_bad_blocks` (lines 227-246) -/

/-- The body of the inner loop of `check_bad_blocks` for the slot `direct[j]`
of inode `i`. -/
def bad_block_step (fix : Bool) (i : Nat) (fs : Fs) (j : Nat) : Fs :=
  let block := fs.direct i j
  if block ≠ 0 ∧ (block < DATA_BLOCKS_START ∨ block ≥ NUM_BLOCKS) then
    let fs := fs.printf "Error: Bad block %d in inode %d\n" [block, i]
    if fix then
      let fs := fs.set_direct i j 0
      let fs := fs.printf "-> Fixed bad block %d in inode %d\n" [block, i]
      { fs with errors := fs.errors + 1 }
    else fs
  else fs

def check_bad_blocks (fix : Bool) (fs : Fs) : Fs :=
  let fs := fs.printf "Checking for bad blocks...\n" []
  let fs := { fs with errors := 0 }
  let fs := (List.range NUM_INODES).foldl
    (fun fs i => (List.range 4).foldl (bad_block_step fix i) fs) fs
  if fs.errors = 0 then fs.printf "Bad block check passed.\n" [] else fs

/-! ## The five checks of `main` (lines 256-260) -/

def main_checks (fs : Fs) : Fs :=
  check_bad_blocks true (check_duplicate_blocks true (check_data_bitmap true
    (check_inode_bitmap true (check_superblock true fs))))

/-! ## Reading a state -/

/-- Whether the data bitmap marks `block` as used: the test `is_used` of
`check_data_bitmap`. -/
def data_used (fs : Fs) (block : Nat) : Bool :=
  bit_of (fs.data_bitmap.getD ((block - DATA_BLOCKS_START) / 8) 0)
    ((block - DATA_BLOCKS_START) % 8) != 0

/-- A state of the right shape: `NUM_INODES` inodes with four direct
pointers each, bitmaps of `NUM_INODES / 8` and
`(NUM_BLOCKS - DATA_BLOCKS_START) / 8` bytes, every byte below 256. -/
structure Fs.wf (fs : Fs) : Prop where
  inodes : fs.inode_table.length = NUM_INODES
  directs : ∀ ino ∈ fs.inode_table, ino.direct.length = 4
  inode_bytes : fs.inode_bitmap.length = NUM_INODES / 8
  data_bytes : fs.data_bitmap.length = (NUM_BLOCKS - DATA_BLOCKS_START) / 8
  bytes : ∀ x ∈ fs.inode_bitmap ++ fs.data_bitmap, x < 256

/-- Two states that differ at most in the values of direct pointers, in
`errors` and in `out`. -/
structure SameBut (fs fs' : Fs) : Prop where
  superblock : fs'.superblock = fs.superblock
  inode_bitmap : fs'.inode_bitmap = fs.inode_bitmap
  data_bitmap : fs'.data_bitmap = fs.data_bitmap
  length : fs'.inode_table.length = fs.inode_table.length
  fields : ∀ i, { fs'.inode i with direct := [] } = { fs.inode i with direct := [] }
  directs : ∀ i, (fs'.inode i).direct.length = (fs.inode i).direct.length

/-- What the loops of `check_duplicate_blocks` keep true once the first `n`
slots in scan order were visited; slot `j` of inode `i` is number
`4 * i + j`. Slots not yet visited hold their first value, every slot holds
its first value or 0, the counter of a block that no visited slot named is
0, and a visited slot that was the first to name its value holds it. -/
structure DupInv (orig : Fs) (st : DupState) (n : Nat) : Prop where
  same : SameBut orig st.fs
  ahead : ∀ i j, j < 4 → n ≤ 4 * i + j → st.fs.direct i j = orig.direct i j
  kept_or_zero : ∀ i j, st.fs.direct i j = orig.direct i j ∨ st.fs.direct i j = 0
  fresh : ∀ b, (∀ i j, j < 4 → 4 * i + j < n → orig.direct i j ≠ b) →
    st.block_ref.getD b 0 = 0
  first : ∀ i j, j < 4 → 4 * i + j < n →
    (∀ i' j', j' < 4 → 4 * i' + j' < 4 * i + j → orig.direct i' j' ≠ orig.direct i j) →
    st.fs.direct i j = orig.direct i j

/-- The repair of one direct pointer by `check_bad_blocks`. -/
def bad_block_fix (block : Nat) : Nat :=
  if block ≠ 0 ∧ (block < DATA_BLOCKS_START ∨ block ≥ NUM_BLOCKS) then 0 else block

/-- An inode with four direct pointers equal to `v` and zero elsewhere. -/
def Inode.pointing (v : Nat) : Inode := { Inode.zero with direct := [v, v, v, v] }

/-- A state whose `NUM_INODES` inodes all are `ino`, with zero bitmaps. -/
def Fs.uniform (ino : Inode) : Fs where
  superblock := ⟨MAGIC_NUMBER, BLOCK_SIZE, NUM_BLOCKS, 1, 2, 3, 8, INODE_SIZE, NUM_INODES, []⟩
  inode_table := List.replicate NUM_INODES ino
  inode_bitmap := List.replicate (NUM_INODES / 8) 0
  data_bitmap := List.replicate ((NUM_BLOCKS - DATA_BLOCKS_START) / 8) 0
  errors := 0
  out := []

end Fsck

/-! # Theorems -/

namespace Shell

/-! ## The history buffer -/

theorem record_all_snoc (ls : List CStr) (x : CStr) :
    record_all (ls ++ [x]) = add_to_history (record_all ls) x := by
  simp [record_all, List.foldl_append]

theorem set_length_append {α : Type} (l r : List α) (v w : α) :
    (l ++ w :: r).set l.length v = l ++ v :: r := by
  induction l with
  | nil => rfl
  | cons a l ih => simp [ih]

theorem memmove_down_set {h : List (Option CStr)} (hl : h.length = HISTORY_SIZE) (v : Option CStr) :
    (memmove_down h).set (HISTORY_SIZE - 1) v = h.drop 1 ++ [v] := by
  unfold memmove_down
  have h1 : ((h.drop 1).take (HISTORY_SIZE - 1)) = h.drop 1 := by
    apply List.take_of_length_le; simp [hl]
  rw [h1]
  have h2 : (h.drop 1).length = HISTORY_SIZE - 1 := by simp [hl]
  obtain ⟨w, hw⟩ : ∃ w, h.drop (HISTORY_SIZE - 1) = [w] := by
    have : (h.drop (HISTORY_SIZE - 1)).length = 1 := by simp [hl, HISTORY_SIZE]
    match hd : h.drop (HISTORY_SIZE - 1), this with
    | [w], _ => exact ⟨w, rfl⟩
  rw [hw, ← h2]
  exact set_length_append _ _ _ _

/-- A value inside the range of `int` is stored as it is. -/
theorem wrap_int_of_range (x : Int) (h0 : -2147483648 ≤ x) (h1 : x ≤ 2147483647) :
    wrap_int x = x := by
  unfold wrap_int
  omega

/-- The increment of `INT_MAX` gives the least value of `int`. -/
theorem wrap_int_overflow : wrap_int (INT_MAX + 1) = -2147483648 := by
  decide

/-- The step of `add_to_history` while the counter has its true value. -/
theorem add_to_history_counted (s : Sh) (x : CStr) (n : Nat) (hc : s.hist_count = n) :
    add_to_history s x =
      { s with
        history := if n < HISTORY_SIZE then s.history.set n (some x)
          else (memmove_down s.history).set (HISTORY_SIZE - 1) (some x)
        hist_count := wrap_int (n + 1) } := by
  unfold add_to_history
  rw [hc]
  by_cases hlt : n < HISTORY_SIZE
  · have h1 : (n : Int) < (HISTORY_SIZE : Int) := by exact_mod_cast hlt
    have h2 : (0 : Int) ≤ (n : Int) := Int.natCast_nonneg n
    simp only [h1, h2, hlt, if_true, Int.toNat_ofNat]
  · have h1 : ¬ (n : Int) < (HISTORY_SIZE : Int) := by exact_mod_cast hlt
    simp only [h1, hlt, if_false]

/-- The contents of the array and of the counter after a recording sequence
of at most `2^31` lines: up to there every call saw a counter that had not
overflowed. -/
theorem record_all_state (ls : List CStr) (hb : ls.length ≤ 2147483648) :
    (record_all ls).history =
        (ls.drop (ls.length - HISTORY_SIZE)).map some
          ++ List.replicate (HISTORY_SIZE - ls.length) none
      ∧ (record_all ls).hist_count = wrap_int ls.length := by
  induction ls using List.reverseRecOn with
  | nil => exact ⟨by simp [record_all, Sh.init], by decide⟩
  | append_singleton ls x ih =>
    have hlen : (ls ++ [x]).length = ls.length + 1 := by simp
    rw [hlen] at hb
    obtain ⟨ihh, ihc⟩ := ih (by omega)
    rw [wrap_int_of_range _ (by omega) (by omega)] at ihc
    rw [record_all_snoc, add_to_history_counted _ x ls.length ihc, hlen]
    refine ⟨?_, by simp only [Nat.cast_add, Nat.cast_one]⟩
    simp only []
    by_cases hlt : ls.length < HISTORY_SIZE
    · rw [if_pos hlt, ihh]
      have e1 : ls.length - HISTORY_SIZE = 0 := by omega
      have e2 : ls.length + 1 - HISTORY_SIZE = 0 := by omega
      rw [e1, e2]
      simp only [List.drop_zero, List.map_append, List.map_cons, List.map_nil]
      obtain ⟨k, hk⟩ : ∃ k, HISTORY_SIZE - ls.length = k + 1 :=
        ⟨HISTORY_SIZE - ls.length - 1, by omega⟩
      have hk2 : HISTORY_SIZE - (ls.length + 1) = k := by omega
      rw [hk, hk2, List.replicate_succ]
      have := set_length_append (ls.map some) (List.replicate k none) (some x) none
      simp
    · rw [if_neg hlt]
      have hl : (record_all ls).history.length = HISTORY_SIZE := by
        rw [ihh]; simp; omega
      rw [memmove_down_set hl, ihh]
      have e1 : HISTORY_SIZE - ls.length = 0 := by omega
      have e2 : HISTORY_SIZE - (ls.length + 1) = 0 := by omega
      rw [e1, e2]
      simp only [List.replicate_zero, List.append_nil]
      rw [← List.map_drop, List.drop_drop]
      have e3 : ls.length - HISTORY_SIZE + 1 = ls.length + 1 - HISTORY_SIZE := by omega
      rw [e3]
      have e4 : (ls ++ [x]).drop (ls.length + 1 - HISTORY_SIZE)
          = ls.drop (ls.length + 1 - HISTORY_SIZE) ++ [x] := by
        have hH : HISTORY_SIZE = 100 := rfl
        have e5 : ls.length + 1 - HISTORY_SIZE ≤ ls.length := by omega
        exact List.drop_append_of_le_length e5
      rw [e4]; simp

/-- The counter after at most `INT_MAX` lines is the number of lines. -/
theorem record_all_count (ls : List CStr) (hb : ls.length ≤ 2147483647) :
    (record_all ls).hist_count = ls.length := by
  rw [(record_all_state ls (by omega)).2, wrap_int_of_range _ (by omega) (by omega)]

theorem add_to_history_length (s : Sh) (x : CStr) (h : s.history.length = HISTORY_SIZE) :
    (add_to_history s x).history.length = HISTORY_SIZE := by
  unfold add_to_history
  split
  · simp only []
    split
    · rw [List.length_set]; exact h
    · exact h
  · simp only []
    rw [memmove_down_set h]
    simp [h, HISTORY_SIZE]

/-- The array keeps its `HISTORY_SIZE` slots, whatever is recorded. -/
theorem record_all_history_length (ls : List CStr) :
    (record_all ls).history.length = HISTORY_SIZE := by
  induction ls using List.reverseRecOn with
  | nil => simp [record_all, Sh.init]
  | append_singleton ls x ih =>
    rw [record_all_snoc]
    exact add_to_history_length _ x ih

theorem show_history_loop_fault (fuel : Nat) :
    ∀ (i : Nat) (s : Sh), s.history.length = HISTORY_SIZE → i ≤ HISTORY_SIZE →
      HISTORY_SIZE < i + fuel → ((i + fuel : Nat) : Int) ≤ s.hist_count →
      show_history_loop fuel i s = .error (.out_of_bounds HISTORY_SIZE) := by
  induction fuel with
  | zero => intro i s _ h1 h2 _; omega
  | succ fuel ih =>
    intro i s hl h1 h2 h3
    have hi : (i : Int) < s.hist_count := by omega
    rw [show_history_loop, if_pos hi]
    rcases Nat.lt_or_ge i HISTORY_SIZE with h | h
    · have hsome : s.history[i]? = some (s.history[i]) := List.getElem?_eq_getElem (by omega)
      rw [hsome]
      exact ih (i + 1) _ hl h (by omega)
        (by
          have : ((i + 1 + fuel : Nat) : Int) ≤ s.hist_count := by omega
          simpa [Sh.emit] using this)
    · have hi2 : i = HISTORY_SIZE := by omega
      have hnone : s.history[i]? = none := List.getElem?_eq_none (by omega)
      rw [hnone, hi2]

/-- Once more than `HISTORY_SIZE` lines have been recorded, `show_history`
reads `history[i]` with `i` outside the array. -/
theorem show_history_overflow (ls : List CStr) (h : HISTORY_SIZE < ls.length)
    (hb : ls.length ≤ 2147483647) :
    show_history (record_all ls)
      = .error (.out_of_bounds (max HISTORY_SIZE (ls.length - HISTORY_SIZE))) := by
  have hH : HISTORY_SIZE = 100 := rfl
  have hc := record_all_count ls hb
  have hl := record_all_history_length ls
  unfold show_history
  have hgt : (ls.length : Int) > (HISTORY_SIZE : Int) := by omega
  simp only [hc, hgt, if_true]
  have e1 : ((ls.length : Int) - ((ls.length : Int) - (HISTORY_SIZE : Int))).toNat = 99 + 1 := by
    omega
  have e2 : ((ls.length : Int) - (HISTORY_SIZE : Int)).toNat = ls.length - HISTORY_SIZE := by
    omega
  rw [e1, e2]
  rcases Nat.lt_or_ge HISTORY_SIZE (ls.length - HISTORY_SIZE) with hbig | hsmall
  · rw [show_history_loop, if_pos (by rw [hc]; omega)]
    have hnone : (record_all ls).history[ls.length - HISTORY_SIZE]? = none :=
      List.getElem?_eq_none (by omega)
    rw [hnone, max_eq_right (by omega)]
  · rw [max_eq_left hsmall]
    exact show_history_loop_fault _ _ _ hl hsmall (by omega) (by rw [hc]; omega)

theorem show_history_loop_ok (fuel : Nat) :
    ∀ (i : Nat) (s : Sh), ((i + fuel : Nat) : Int) = s.hist_count →
      s.hist_count ≤ (s.history.length : Int) →
      show_history_loop fuel i s
        = .ok { s with log := (s.log ++ List.map
                  (fun k => Event.printf_history (k + 1) (s.history.getD k none))
                  (List.range' i fuel)) } := by
  induction fuel with
  | zero => intro i s h1 _; simp [show_history_loop]
  | succ fuel ih =>
    intro i s h1 h2
    have hi : (i : Int) < s.hist_count := by omega
    rw [show_history_loop, if_pos hi]
    have hsome : s.history[i]? = some (s.history[i]) := List.getElem?_eq_getElem (by omega)
    rw [hsome]
    simp only []
    rw [ih (i + 1) _
      (by
        have : ((i + 1 + fuel : Nat) : Int) = s.hist_count := by omega
        simpa [Sh.emit] using this)
      (by simpa [Sh.emit] using h2)]
    simp [Sh.emit, List.range'_succ, List.getD_eq_getElem?_getD, hsome]

/-- While at most `HISTORY_SIZE` lines have been recorded, `show_history`
prints every one of them, oldest first, numbered from 1. -/
theorem show_history_small (ls : List CStr) (h : ls.length ≤ HISTORY_SIZE) :
    ∃ s, show_history (record_all ls) = .ok s
      ∧ printed s.log = (List.range ls.length).map (fun k => (k + 1, ls[k]?)) := by
  have hH : HISTORY_SIZE = 100 := rfl
  have hc := record_all_count ls (by omega)
  have hh := (record_all_state ls (by omega)).1
  have hl := record_all_history_length ls
  have hres : show_history (record_all ls) = .ok { record_all ls with
      log := ((record_all ls).log ++ List.map
        (fun k => Event.printf_history (k + 1) ((record_all ls).history.getD k none))
        (List.range' 0 ls.length)) } := by
    have hle : ¬ (ls.length : Int) > (HISTORY_SIZE : Int) := by omega
    unfold show_history
    simp only [hc, hle, if_false, Int.sub_zero, Int.toNat_ofNat, Int.toNat_zero]
    rw [show_history_loop_ok _ 0 (record_all ls) (by rw [hc]; omega) (by rw [hc, hl]; omega)]
    simp only [hc]
  refine ⟨_, hres, ?_⟩
  · have e0 : ls.length - HISTORY_SIZE = 0 := by omega
    have elog : (record_all ls).log = [] := by
      have : ∀ (l : List CStr) (s : Sh), (l.foldl add_to_history s).log = s.log := by
        intro l
        induction l with
        | nil => intro s; rfl
        | cons a l ih => intro s; rw [List.foldl_cons, ih]; unfold add_to_history; split <;> rfl
      exact this ls Sh.init
    simp only [elog, List.nil_append, printed, List.filterMap_map, List.range_eq_range']
    have hfun : ((fun e => match e with
          | Event.printf_history i t => some (i, t)
          | _ => none) ∘
        fun k => Event.printf_history (k + 1) ((record_all ls).history.getD k none))
        = some ∘ (fun k => (k + 1, (record_all ls).history.getD k none)) := by
      funext k; rfl
    rw [hfun, List.filterMap_eq_map]
    apply List.map_congr_left
    intro k hk
    have hk2 : k < ls.length := by simpa using hk
    simp only [hh, e0, List.drop_zero, List.getD_eq_getElem?_getD]
    rw [List.getElem?_append_left (by simpa using hk2)]
    simp [List.getElem?_map, List.getElem?_eq_getElem hk2]

/-! ## Buffers: reads, writes and C strings -/

theorem cstr_unfold (b : Buf) (p : Nat) :
    cstr b p = if peek b p = NUL then [] else peek b p :: cstr b (p + 1) := by
  unfold cstr peek
  rcases hd : b.drop p with _ | ⟨c, rest⟩
  · have hp : b.length ≤ p := List.drop_eq_nil_iff.mp hd
    have : b.drop (p + 1) = [] := List.drop_eq_nil_iff.mpr (by omega)
    simp [List.getD_eq_getElem?_getD, List.getElem?_eq_none hp]
  · have hlt : p < b.length := by
      by_contra hge
      rw [List.drop_eq_nil_iff.mpr (by omega)] at hd
      cases hd
    have hc : b[p] = c := by
      have := List.drop_eq_getElem_cons hlt
      rw [hd] at this
      exact (List.cons.inj this).1.symm
    have hrest : b.drop (p + 1) = rest := by
      have := List.drop_eq_getElem_cons hlt
      rw [hd] at this
      exact (List.cons.inj this).2.symm
    rw [hrest]
    simp only [List.getD_eq_getElem?_getD, List.getElem?_eq_getElem hlt, Option.getD_some, hc,
      List.takeWhile_cons]
    by_cases h0 : c = NUL <;> simp [h0]

theorem nul_not_mem_cstr (b : Buf) (p : Nat) : NUL ∉ cstr b p := by
  intro h
  have := List.mem_takeWhile_imp h
  simp at this

theorem peek_poke (b : Buf) (e j : Nat) :
    peek (poke b e) j = if j = e then NUL else peek b j := by
  unfold peek poke
  simp only [List.getD_eq_getElem?_getD, List.getElem?_set]
  by_cases h : e = j
  · subst h
    by_cases hl : e < b.length
    · simp [hl]
    · simp [hl, List.getElem?_eq_none (Nat.le_of_not_lt hl)]
  · have : ¬ j = e := fun h2 => h h2.symm
    simp [h, this]

/-- Two buffers that agree from `p` up to the end of the string at `p` hold
the same string there. -/
theorem cstr_congr (s : CStr) : ∀ (b c : Buf) (p : Nat), cstr b p = s →
    (∀ j, j ≤ s.length → peek c (p + j) = peek b (p + j)) → cstr c p = s := by
  induction s with
  | nil =>
    intro b c p hb hagree
    rw [cstr_unfold] at hb ⊢
    have h0 := hagree 0 (Nat.le_refl _)
    simp only [Nat.add_zero] at h0
    rw [h0]
    by_cases hn : peek b p = NUL
    · simp [hn]
    · simp [hn] at hb
  | cons x xs ih =>
    intro b c p hb hagree
    rw [cstr_unfold] at hb ⊢
    have h0 := hagree 0 (Nat.zero_le _)
    simp only [Nat.add_zero] at h0
    rw [h0]
    by_cases hn : peek b p = NUL
    · simp [hn] at hb
    · simp only [hn, if_false] at hb ⊢
      obtain ⟨hx, hxs⟩ := List.cons.inj hb
      rw [hx]
      congr 1
      apply ih b c (p + 1) hxs
      intro j hj
      have := hagree (j + 1) (by simpa using hj)
      simpa [Nat.add_assoc, Nat.add_comm 1 j] using this

theorem peek_cstr_end (b : Buf) (p : Nat) : peek b (p + strlen b p) = NUL := by
  unfold strlen
  generalize hs : cstr b p = s
  induction s generalizing p with
  | nil =>
    rw [cstr_unfold] at hs
    by_cases hn : peek b p = NUL
    · simpa using hn
    · simp [hn] at hs
  | cons x xs ih =>
    rw [cstr_unfold] at hs
    by_cases hn : peek b p = NUL
    · simp [hn] at hs
    · simp only [hn, if_false] at hs
      have := ih (p + 1) (List.cons.inj hs).2
      simpa [Nat.add_assoc, Nat.add_comm 1] using this

theorem cstr_add (b : Buf) (p j : Nat) (h : j ≤ strlen b p) :
    cstr b (p + j) = (cstr b p).drop j := by
  induction j generalizing p with
  | zero => simp
  | succ j ih =>
    unfold strlen at h
    rw [cstr_unfold b p] at h ⊢
    by_cases hn : peek b p = NUL
    · simp [hn] at h
    · simp only [hn, if_false, List.length_cons] at h
      simp only [hn, if_false, List.drop_succ_cons]
      have := ih (p + 1) (by unfold strlen; omega)
      rw [← this]
      congr 1
      omega

/-- A NUL written at or after the end of the string at `p` leaves it as it is. -/
theorem cstr_poke_ge (b : Buf) (p e : Nat) (h : p + strlen b p ≤ e) :
    cstr (poke b e) p = cstr b p := by
  apply cstr_congr (cstr b p) b _ p rfl
  intro j hj
  rw [peek_poke]
  by_cases he : p + j = e
  · have : j = strlen b p := by unfold strlen at h ⊢; omega
    rw [if_pos he, this, peek_cstr_end]
  · rw [if_neg he]

/-- A NUL written before `p` leaves the string at `p` as it is. -/
theorem cstr_poke_lt (b : Buf) (p e : Nat) (h : e < p) :
    cstr (poke b e) p = cstr b p := by
  apply cstr_congr (cstr b p) b _ p rfl
  intro j _
  rw [peek_poke, if_neg (by omega)]

/-- A NUL written inside the string at `p` cuts it there. -/
theorem cstr_poke_cut (b : Buf) (p j : Nat) :
    cstr (poke b (p + j)) p = (cstr b p).take j := by
  induction j generalizing p with
  | zero =>
    rw [cstr_unfold, peek_poke]
    simp
  | succ j ih =>
    have hne : ¬ p = p + (j + 1) := by omega
    rw [cstr_unfold, peek_poke, if_neg hne, cstr_unfold b p]
    by_cases hn : peek b p = NUL
    · simp [hn]
    · simp only [hn, if_false, List.take_succ_cons]
      have := ih (p + 1)
      rw [show p + 1 + j = p + (j + 1) by omega] at this
      rw [this]

theorem poke_of_nul (b : Buf) (e : Nat) (h : peek b e = NUL) : poke b e = b := by
  unfold poke
  unfold peek at h
  by_cases hl : e < b.length
  · rw [List.getD_eq_getElem?_getD, List.getElem?_eq_getElem hl] at h
    simp only [Option.getD_some] at h
    apply List.ext_getElem?
    intro j
    rw [List.getElem?_set]
    by_cases hj : e = j
    · subst hj
      simp [hl, List.getElem?_eq_getElem hl, h]
    · simp [hj]
  · exact List.set_eq_of_length_le (Nat.le_of_not_lt hl)

/-! ## `strtok_r` yields the maximal runs of non-delimiters -/

theorem drop_length_takeWhile {α : Type} (p : α → Bool) (l : List α) :
    l.drop (l.takeWhile p).length = l.dropWhile p := by
  induction l with
  | nil => rfl
  | cons x xs ih =>
    by_cases h : p x <;> simp [List.takeWhile_cons, List.dropWhile_cons, h, ih]

theorem take_length_takeWhile {α : Type} (p : α → Bool) (l : List α) :
    l.take (l.takeWhile p).length = l.takeWhile p := by
  induction l with
  | nil => rfl
  | cons x xs ih =>
    by_cases h : p x <;> simp [List.takeWhile_cons, h, ih]

theorem length_takeWhile_le {α : Type} (p : α → Bool) (l : List α) :
    (l.takeWhile p).length ≤ l.length := by
  induction l with
  | nil => simp
  | cons x xs ih =>
    by_cases h : p x <;> simp [List.takeWhile_cons, h]
    omega

theorem head_dropWhile {α : Type} (p : α → Bool) (l : List α) (x : α) (r : List α)
    (h : l.dropWhile p = x :: r) : p x = false := by
  induction l with
  | nil => simp at h
  | cons y ys ih =>
    by_cases hy : p y
    · simp only [List.dropWhile_cons, hy, if_true] at h
      exact ih h
    · simp only [List.dropWhile_cons, hy] at h
      obtain ⟨rfl, _⟩ := List.cons.inj h
      simpa using hy

theorem tokens_dropWhile (d : Char → Bool) (s : CStr) :
    tokens d s = tokens d (s.dropWhile d) := by
  induction s with
  | nil => rfl
  | cons x xs ih =>
    by_cases h : d x
    · have e1 : tokens d (x :: xs) = tokens d xs := by
        simp [tokens, List.splitOnP_cons, h]
      rw [e1, ih]
      simp [List.dropWhile_cons, h]
    · simp [List.dropWhile_cons, h]

theorem tokens_nil (d : Char → Bool) : tokens d [] = [] := by
  simp [tokens, List.splitOnP_nil]

theorem tokens_of_dropWhile_nil (d : Char → Bool) (s : CStr) (h : s.dropWhile d = []) :
    tokens d s = [] := by
  rw [tokens_dropWhile, h, tokens_nil]

/-- The first token and the string the next scan starts from. -/
theorem tokens_of_dropWhile_ne_nil (d : Char → Bool) (s : CStr) (h : s.dropWhile d ≠ []) :
    tokens d s = (s.dropWhile d).takeWhile (fun c => !d c)
      :: tokens d (((s.dropWhile d).dropWhile (fun c => !d c)).drop 1) := by
  rw [tokens_dropWhile]
  generalize hs1 : s.dropWhile d = s1 at h ⊢
  obtain ⟨x, r, hxr⟩ : ∃ x r, s1 = x :: r := by
    cases s1 with
    | nil => exact absurd rfl h
    | cons x r => exact ⟨x, r, rfl⟩
  have hx : d x = false := head_dropWhile d s x r (by rw [hs1, hxr])
  have hrun : s1.takeWhile (fun c => !d c) ≠ [] := by
    rw [hxr]; simp [List.takeWhile_cons, hx]
  have hnot : ∀ c ∈ s1.takeWhile (fun c => !d c), ¬ d c = true := by
    intro c hc
    have := List.mem_takeWhile_imp hc
    simpa using this
  have hsplit := List.takeWhile_append_dropWhile (fun c => !d c) s1
  rcases hrest : s1.dropWhile (fun c => !d c) with _ | ⟨sep, rest⟩
  · rw [hrest, List.append_nil] at hsplit
    have e1 : tokens d s1 = [s1] := by
      unfold tokens
      rw [List.splitOnP_eq_single d s1 (by rw [← hsplit]; exact hnot)]
      have : s1 ≠ [] := by rw [hxr]; simp
      simp [this]
    rw [e1, hsplit]
    simp [tokens_nil]
  · have hsep : d sep = true := by
      have := head_dropWhile (fun c => !d c) s1 sep rest hrest
      simpa using this
    rw [hrest] at hsplit
    have e1 : tokens d s1 = s1.takeWhile (fun c => !d c) :: tokens d rest := by
      unfold tokens
      conv_lhs => rw [← hsplit]
      rw [List.splitOnP_first d _ hnot sep hsep rest]
      simp [hrun]
    rw [e1]
    simp

theorem length_tokens_le_aux (d : Char → Bool) (n : Nat) :
    ∀ s : CStr, s.length = n → (tokens d s).length ≤ s.length := by
  induction n using Nat.strong_induction_on with
  | _ n ih =>
    intro s hn
    by_cases h : s.dropWhile d = []
    · rw [tokens_of_dropWhile_nil d s h]; simp
    · rw [tokens_of_dropWhile_ne_nil d s h]
      have h1 : (s.dropWhile d).length ≤ s.length := by
        have := congrArg List.length (List.takeWhile_append_dropWhile d s)
        simp only [List.length_append] at this
        omega
      have h2 : ((s.dropWhile d).takeWhile (fun c => !d c)).length
          + ((s.dropWhile d).dropWhile (fun c => !d c)).length = (s.dropWhile d).length := by
        have := congrArg List.length
          (List.takeWhile_append_dropWhile (fun c => !d c) (s.dropWhile d))
        rw [List.length_append] at this
        exact this
      have h3 : 0 < ((s.dropWhile d).takeWhile (fun c => !d c)).length := by
        rcases hx : s.dropWhile d with _ | ⟨x, r⟩
        · exact absurd hx h
        · have := head_dropWhile d s x r hx
          simp [List.takeWhile_cons, this]
      have h4 := ih ((((s.dropWhile d).dropWhile (fun c => !d c)).drop 1).length)
        (by simp only [List.length_drop]; omega) _ rfl
      simp only [List.length_cons, List.length_drop] at h4 ⊢
      omega

theorem length_tokens_le (d : Char → Bool) (s : CStr) : (tokens d s).length ≤ s.length :=
  length_tokens_le_aux d s.length s rfl

theorem cstr_eq_nil_iff (b : Buf) (p : Nat) : cstr b p = [] ↔ peek b p = NUL := by
  rw [cstr_unfold]
  by_cases h : peek b p = NUL <;> simp [h]

theorem strtok_r_state (b : Buf) (s : Nat) (delim : List Char) :
    TokState (fun c => delim.contains c) (strtok_r b s delim)
        (tokens (fun c => delim.contains c) (cstr b s))
      ∧ ∃ e, s ≤ e ∧ (strtok_r b s delim).buf = poke b e ∧ s ≤ (strtok_r b s delim).save := by
  set d : Char → Bool := fun c => delim.contains c with hd
  have hk : strspn b s delim ≤ strlen b s := length_takeWhile_le _ _
  have hp : cstr b (s + strspn b s delim) = (cstr b s).dropWhile d := by
    rw [cstr_add b s _ hk]
    exact drop_length_takeWhile d (cstr b s)
  unfold strtok_r
  simp only []
  by_cases h0 : peek b (s + strspn b s delim) = NUL
  · rw [if_pos h0]
    have hnil : (cstr b s).dropWhile d = [] := by
      rw [← hp]; exact (cstr_eq_nil_iff _ _).mpr h0
    rw [tokens_of_dropWhile_nil d _ hnil]
    exact ⟨rfl, s + strspn b s delim, Nat.le_add_right _ _, (poke_of_nul b _ h0).symm,
      Nat.le_add_right _ _⟩
  · rw [if_neg h0]
    have hne : (cstr b s).dropWhile d ≠ [] := by
      rw [← hp]; exact fun h => h0 ((cstr_eq_nil_iff _ _).mp h)
    rw [tokens_of_dropWhile_ne_nil d _ hne, ← hp]
    set p := s + strspn b s delim with hpdef
    have hm : strcspn b p delim ≤ strlen b p := length_takeWhile_le _ _
    have hm2 : strcspn b p delim = ((cstr b p).takeWhile (fun c => !d c)).length := rfl
    have he : cstr b (p + strcspn b p delim) = (cstr b p).dropWhile (fun c => !d c) := by
      rw [cstr_add b p _ hm]
      exact drop_length_takeWhile _ (cstr b p)
    have hrun : (cstr b p).takeWhile (fun c => !d c) ≠ [] := by
      rcases hx : cstr b p with _ | ⟨x, r⟩
      · exact absurd ((cstr_eq_nil_iff _ _).mp hx) h0
      · have := head_dropWhile d (cstr b s) x r (by rw [← hp, hx])
        simp [List.takeWhile_cons, this]
    by_cases h1 : peek b (p + strcspn b p delim) = NUL
    · rw [if_pos h1]
      have hnil : (cstr b p).dropWhile (fun c => !d c) = [] := by
        rw [← he]; exact (cstr_eq_nil_iff _ _).mpr h1
      refine ⟨⟨p, rfl, ?_, hrun, ?_, ?_⟩, p + strcspn b p delim, by omega,
        (poke_of_nul b _ h1).symm, by simp only []; omega⟩
      · have := List.takeWhile_append_dropWhile (fun c => !d c) (cstr b p)
        rw [hnil, List.append_nil] at this
        exact this.symm
      · simp only []; rw [hm2]
      · simp only []
        rw [he, hnil]
        rfl
    · rw [if_neg h1]
      have hne2 : (cstr b p).dropWhile (fun c => !d c) ≠ [] := by
        rw [← he]; exact fun h => h1 ((cstr_eq_nil_iff _ _).mp h)
      refine ⟨⟨p, rfl, ?_, hrun, ?_, ?_⟩, p + strcspn b p delim, by omega, rfl,
        by simp only []; omega⟩
      · simp only []
        rw [cstr_poke_cut, hm2]
        exact take_length_takeWhile _ _
      · simp only []; rw [hm2]; omega
      · simp only []
        rw [cstr_poke_lt _ _ _ (Nat.lt_succ_self _)]
        have hlt : strcspn b p delim + 1 ≤ strlen b p := by
          have h5 := congrArg List.length
            (List.takeWhile_append_dropWhile (fun c => !d c) (cstr b p))
          simp only [List.length_append] at h5
          have h6 : 0 < ((cstr b p).dropWhile (fun c => !d c)).length :=
            List.length_pos.mpr hne2
          unfold strlen
          omega
        rw [show (p + strcspn b p delim).succ = p + (strcspn b p delim + 1) by omega,
          cstr_add b p _ hlt, hm2, ← drop_length_takeWhile, List.drop_drop]

/-! ## `split_args` -/

theorem frame_after_strtok (b : Buf) (s : Nat) (delim : List Char) (q : Nat)
    (hq : q + strlen b q ≤ s) :
    cstr (strtok_r b s delim).buf q = cstr b q := by
  obtain ⟨_, e, he, hbuf, _⟩ := strtok_r_state b s delim
  rw [hbuf]
  exact cstr_poke_ge b q e (by omega)

theorem split_args_loop_spec (fuel : Nat) :
    ∀ (t : Tok) (args : List Nat) (toks : List CStr),
      TokState arg_delim t toks →
      (∀ q ∈ args, q + strlen t.buf q ≤ t.save) →
      (split_args_loop fuel t args).2.map (cstr (split_args_loop fuel t args).1)
        = args.map (cstr t.buf) ++ toks.take (min fuel (MAX_ARGS - 1 - args.length)) := by
  induction fuel with
  | zero => intro t args toks _ _; simp [split_args_loop]
  | succ fuel ih =>
    intro t args toks hst hframe
    cases toks with
    | nil =>
      have hnone : t.token = none := hst
      simp [split_args_loop, hnone]
    | cons tk tks =>
      obtain ⟨p, hp, hcs, _, hlen, hrest⟩ := hst
      unfold split_args_loop
      rw [hp]
      simp only []
      by_cases hlt : args.length < MAX_ARGS - 1
      · rw [if_pos hlt]
        have hst2 : TokState arg_delim (strtok_r t.buf t.save [' ', '\t'])
            (tokens arg_delim (cstr t.buf t.save)) := (strtok_r_state t.buf t.save [' ', '\t']).1
        rw [hrest] at hst2
        obtain ⟨_, e, he, hbuf, hsave⟩ := strtok_r_state t.buf t.save [' ', '\t']
        have hframe2 : ∀ q ∈ args ++ [p],
            q + strlen (strtok_r t.buf t.save [' ', '\t']).buf q
              ≤ (strtok_r t.buf t.save [' ', '\t']).save := by
          intro q hq
          have hq0 : q + strlen t.buf q ≤ t.save := by
            rcases List.mem_append.mp hq with h | h
            · exact hframe q h
            · rw [List.mem_singleton.mp h]; unfold strlen; rw [hcs]; exact hlen
          have : cstr (strtok_r t.buf t.save [' ', '\t']).buf q = cstr t.buf q :=
            frame_after_strtok _ _ _ _ hq0
          unfold strlen at hq0 ⊢
          rw [this]; omega
        rw [ih _ _ tks hst2 hframe2]
        have hmap : (args ++ [p]).map (cstr (strtok_r t.buf t.save [' ', '\t']).buf)
            = args.map (cstr t.buf) ++ [tk] := by
          rw [List.map_append, List.map_singleton]
          congr 1
          · apply List.map_congr_left
            intro q hq
            exact frame_after_strtok _ _ _ _ (hframe q hq)
          · rw [frame_after_strtok _ _ _ _ (by unfold strlen; rw [hcs]; exact hlen), hcs]
        rw [hmap, List.append_assoc, List.singleton_append]
        congr 1
        have e1 : min (fuel + 1) (MAX_ARGS - 1 - args.length)
            = min fuel (MAX_ARGS - 1 - (args ++ [p]).length) + 1 := by
          simp only [List.length_append, List.length_singleton]; omega
        rw [e1, List.take_succ_cons]
      · rw [if_neg hlt]
        have : MAX_ARGS - 1 - args.length = 0 := by omega
        simp [this]

/-- The vector `split_args` builds: the first `MAX_ARGS - 1` runs of
characters other than space and tab, then NULL. -/
theorem split_args_eq (b : Buf) (cmd : Nat) :
    split_args b cmd
      = ((tokens arg_delim (cstr b cmd)).take (MAX_ARGS - 1)).map some ++ [none] := by
  unfold split_args
  simp only []
  have hst : TokState arg_delim (strtok_r b cmd [' ', '\t'])
      (tokens arg_delim (cstr b cmd)) := (strtok_r_state b cmd [' ', '\t']).1
  have := split_args_loop_spec (MAX_ARGS - 1) (strtok_r b cmd [' ', '\t']) []
    (tokens arg_delim (cstr b cmd)) hst (by simp)
  rw [show (fun p => some (cstr (split_args_loop (MAX_ARGS - 1)
        (strtok_r b cmd [' ', '\t']) []).1 p))
      = some ∘ cstr (split_args_loop (MAX_ARGS - 1) (strtok_r b cmd [' ', '\t']) []).1
      from rfl, ← List.map_map, this]
  simp

theorem tokens_props_aux (d : Char → Bool) (n : Nat) :
    ∀ s : CStr, s.length = n →
      (∀ t ∈ tokens d s, t ≠ [] ∧ ∀ c ∈ t, d c = false)
        ∧ (tokens d s).flatten = s.filter (fun c => !d c) := by
  induction n using Nat.strong_induction_on with
  | _ n ih =>
    intro s hn
    have hfilt1 : (s.takeWhile d).filter (fun c => !d c) = [] := by
      rw [List.filter_eq_nil_iff]
      intro c hc
      have := List.mem_takeWhile_imp hc
      simpa using this
    have hs : s = s.takeWhile d ++ s.dropWhile d := (List.takeWhile_append_dropWhile d s).symm
    by_cases h : s.dropWhile d = []
    · rw [tokens_of_dropWhile_nil d s h]
      refine ⟨by simp, ?_⟩
      rw [hs, h, List.append_nil, hfilt1]
      rfl
    · rw [tokens_of_dropWhile_ne_nil d s h]
      set s1 := s.dropWhile d with hs1
      set run := s1.takeWhile (fun c => !d c) with hrun
      set s2 := s1.dropWhile (fun c => !d c) with hs2
      have hsplit : s1 = run ++ s2 := (List.takeWhile_append_dropWhile _ s1).symm
      have hrun_ne : run ≠ [] := by
        rcases hx : s1 with _ | ⟨x, r⟩
        · exact absurd hx h
        · have := head_dropWhile d s x r (by rw [← hs1, hx])
          rw [hrun, hx]
          simp [List.takeWhile_cons, this]
      have hrun_d : ∀ c ∈ run, d c = false := by
        intro c hc
        have := List.mem_takeWhile_imp hc
        simpa using this
      have hlen : (s2.drop 1).length < n := by
        have l1 := congrArg List.length hs
        have l2 := congrArg List.length hsplit
        have l3 : 0 < run.length := List.length_pos.mpr hrun_ne
        simp only [List.length_append] at l1 l2
        simp only [List.length_drop]
        omega
      obtain ⟨ih1, ih2⟩ := ih _ hlen (s2.drop 1) rfl
      refine ⟨?_, ?_⟩
      · intro t ht
        rcases List.mem_cons.mp ht with rfl | ht
        · exact ⟨hrun_ne, hrun_d⟩
        · exact ih1 t ht
      · rw [List.flatten_cons, ih2]
        have hfrun : run.filter (fun c => !d c) = run := by
          rw [List.filter_eq_self]
          intro c hc
          simp [hrun_d c hc]
        have hfs2 : s2.filter (fun c => !d c) = (s2.drop 1).filter (fun c => !d c) := by
          rcases hx : s2 with _ | ⟨sep, rest⟩
          · rfl
          · have := head_dropWhile (fun c => !d c) s1 sep rest (by rw [← hs2, hx])
            simp only [Bool.not_eq_false_eq_eq_true, Bool.not_eq_eq_eq_not, Bool.not_false] at this
            simp [List.filter_cons, this]
        have hfs : s.filter (fun c => !d c) = s1.filter (fun c => !d c) := by
          conv_lhs => rw [hs, List.filter_append, hfilt1, List.nil_append]
        have hfs1 : s1.filter (fun c => !d c) = run ++ (s2.drop 1).filter (fun c => !d c) := by
          conv_lhs => rw [hsplit, List.filter_append, hfrun, hfs2]
        rw [hfs, hfs1]

theorem tokens_props (d : Char → Bool) (s : CStr) :
    (∀ t ∈ tokens d s, t ≠ [] ∧ ∀ c ∈ t, d c = false)
      ∧ (tokens d s).flatten = s.filter (fun c => !d c) :=
  tokens_props_aux d s.length s rfl

/-! ## The pipeline scan of `process_command` -/

theorem takeWhile_takeWhile_of_imp {α : Type} (p q : α → Bool) (h : ∀ x, p x = true → q x = true)
    (l : List α) : (l.takeWhile q).takeWhile p = l.takeWhile p := by
  induction l with
  | nil => rfl
  | cons x xs ih =>
    by_cases hq : q x
    · by_cases hp : p x <;> simp [List.takeWhile_cons, hq, hp, ih]
    · have hp : p x = false := by
        by_contra hp
        exact hq (h x (by simpa using hp))
      simp [List.takeWhile_cons, hq, hp]

theorem isspace_ne_nul (c : Char) (h : isspace c = true) : (c != NUL) = true := by
  have : c ≠ NUL := by
    rintro rfl
    revert h
    decide
  simpa using this

theorem skip_space_eq (b : Buf) (p : Nat) :
    skip_space b p = p + ((cstr b p).takeWhile isspace).length := by
  unfold skip_space cstr
  rw [takeWhile_takeWhile_of_imp isspace (fun c => c != NUL) isspace_ne_nul]

theorem cstr_skip_space (b : Buf) (p : Nat) :
    cstr b (skip_space b p) = (cstr b p).dropWhile isspace := by
  rw [skip_space_eq, cstr_add b p _ (length_takeWhile_le _ _), drop_length_takeWhile]

theorem peek_of_cstr (b : Buf) (p j : Nat) (h : j < strlen b p) :
    some (peek b (p + j)) = (cstr b p)[j]? := by
  have hadd := cstr_add b p j (Nat.le_of_lt h)
  rw [cstr_unfold] at hadd
  by_cases hn : peek b (p + j) = NUL
  · rw [if_pos hn] at hadd
    have := congrArg List.length hadd
    unfold strlen at h
    simp only [List.length_nil, List.length_drop] at this
    omega
  · rw [if_neg hn] at hadd
    have h2 : ((cstr b p).drop j)[0]? = some (peek b (p + j)) := by rw [← hadd]; simp
    rw [List.getElem?_drop] at h2
    simpa using h2.symm

/-- The loop that steps `end` back over trailing whitespace stops after the
last character that is not whitespace, when the string starts with one. -/
theorem trim_end_eq (b : Buf) (token : Nat) (u : CStr) (hu : cstr b token = u)
    (hhead : ∀ x r, u = x :: r → isspace x = false) (fuel : Nat) :
    ∀ m, m ≤ u.length → m ≤ fuel →
      trim_end fuel b token (token + m) = token + ((u.take m).rdropWhile isspace).length := by
  induction fuel with
  | zero =>
    intro m _ hm
    have : m = 0 := by omega
    subst this
    simp [trim_end]
  | succ fuel ih =>
    intro m hml hmf
    unfold trim_end
    by_cases hc : (decide (token + 1 < token + m) && isspace (peek b (token + m - 1))) = true
    · rw [if_pos hc]
      simp only [Bool.and_eq_true, decide_eq_true_eq] at hc
      obtain ⟨hm2, hsp⟩ := hc
      have hm1 : m - 1 < u.length := by omega
      have hpk := peek_of_cstr b token (m - 1) (by unfold strlen; rw [hu]; exact hm1)
      rw [hu, show token + (m - 1) = token + m - 1 by omega] at hpk
      have hstep := ih (m - 1) (by omega) (by omega)
      rw [show token + m - 1 = token + (m - 1) by omega, hstep]
      congr 2
      have htake : u.take m = u.take (m - 1) ++ [peek b (token + m - 1)] := by
        have := List.take_succ (l := u) (n := m - 1)
        rw [show m - 1 + 1 = m by omega, ← hpk] at this
        simpa using this
      rw [htake, List.rdropWhile_concat_pos _ _ _ hsp]
    · rw [if_neg hc]
      congr 1
      rcases Nat.lt_or_ge m 2 with hsmall | hbig
      · rcases Nat.eq_zero_or_pos m with h0 | hpos
        · subst h0; simp
        · have h1 : m = 1 := by omega
          subst h1
          rcases hx : u with _ | ⟨x, r⟩
          · rw [hx] at hml; simp at hml
          · have := hhead x r hx
            simp [List.rdropWhile_concat_neg, List.rdropWhile, this]
      · have hm1 : m - 1 < u.length := by omega
        have hpk := peek_of_cstr b token (m - 1) (by unfold strlen; rw [hu]; exact hm1)
        rw [hu, show token + (m - 1) = token + m - 1 by omega] at hpk
        have hns : ¬ isspace (peek b (token + m - 1)) = true := by
          intro hsp
          apply hc
          simp only [Bool.and_eq_true, decide_eq_true_eq]
          exact ⟨by omega, hsp⟩
        have htake : u.take m = u.take (m - 1) ++ [peek b (token + m - 1)] := by
          have := List.take_succ (l := u) (n := m - 1)
          rw [show m - 1 + 1 = m by omega, ← hpk] at this
          simpa using this
        rw [htake, List.rdropWhile_concat_neg _ _ _ hns]
        simp
        omega

/-- One turn of the trimming code of the pipeline scan (lines 133-136) on
the token at `p`: where the trimmed token starts and ends, and what it is. -/
theorem trim_step (b : Buf) (p : Nat) :
    let token := skip_space b p
    let e1 := trim_end (strlen b token) b token (token + strlen b token)
    p ≤ token ∧ e1 ≤ p + strlen b p
      ∧ cstr (poke b e1) token = trim (cstr b p)
      ∧ e1 = token + (trim (cstr b p)).length := by
  intro token e1
  have hu : cstr b token = (cstr b p).dropWhile isspace := cstr_skip_space b p
  have hhead : ∀ x r, (cstr b p).dropWhile isspace = x :: r → isspace x = false :=
    fun x r h => head_dropWhile isspace _ x r h
  have he1 : e1 = token + (((cstr b p).dropWhile isspace).rdropWhile isspace).length := by
    have := trim_end_eq b token _ hu hhead (strlen b token)
      ((cstr b p).dropWhile isspace).length (Nat.le_refl _)
      (by unfold strlen; rw [hu])
    have hlen : strlen b token = ((cstr b p).dropWhile isspace).length := by
      unfold strlen; rw [hu]
    show trim_end (strlen b token) b token (token + strlen b token) = _
    rw [hlen] at this ⊢
    rw [this, List.take_length]
  have htok : token = p + ((cstr b p).takeWhile isspace).length := skip_space_eq b p
  have hsum : ((cstr b p).takeWhile isspace).length + ((cstr b p).dropWhile isspace).length
      = strlen b p := by
    have := congrArg List.length (List.takeWhile_append_dropWhile isspace (cstr b p))
    rw [List.length_append] at this
    exact this
  have hpre : (((cstr b p).dropWhile isspace).rdropWhile isspace).length
      ≤ ((cstr b p).dropWhile isspace).length :=
    (List.rdropWhile_prefix isspace _).length_le
  refine ⟨by omega, by omega, ?_, he1⟩
  rw [he1, cstr_poke_cut, hu]
  unfold trim
  exact (List.prefix_iff_eq_take.mp (List.rdropWhile_prefix isspace _)).symm

/-- A NUL written inside or at the end of the string at `p` leaves every
string that starts after the end of that string as it is. -/
theorem cstr_poke_before (b : Buf) (p e q : Nat) (he : e ≤ p + strlen b p)
    (hq : p + strlen b p ≤ q) : cstr (poke b e) q = cstr b q := by
  rcases Nat.lt_or_ge e q with h | h
  · exact cstr_poke_lt b q e h
  · have : e = p + strlen b p := by omega
    rw [poke_of_nul b e (by rw [this]; exact peek_cstr_end b p)]

theorem pipe_loop_spec (fuel : Nat) :
    ∀ (t : Tok) (cmds : List Nat) (toks : List CStr),
      TokState pipe_delim t toks → toks.length ≤ fuel →
      (∀ q ∈ cmds, q + strlen t.buf q ≤ t.save
        ∧ ∀ p, t.token = some p → q + strlen t.buf q ≤ p) →
      (pipe_loop fuel t cmds).2.map (cstr (pipe_loop fuel t cmds).1)
        = cmds.map (cstr t.buf)
          ++ (((toks.map trim).filter (fun x => x ≠ [])).take (MAX_PIPES - cmds.length)) := by
  induction fuel with
  | zero =>
    intro t cmds toks _ hlen _
    have : toks = [] := List.length_eq_zero.mp (Nat.le_zero.mp hlen)
    subst this
    simp [pipe_loop]
  | succ fuel ih =>
    intro t cmds toks hst hfuel hframe
    cases toks with
    | nil =>
      have hnone : t.token = none := hst
      simp [pipe_loop, hnone]
    | cons tk tks =>
      obtain ⟨p, hp, hcs, _, hlen, hrest⟩ := hst
      unfold pipe_loop
      rw [hp]
      simp only []
      by_cases hlt : cmds.length < MAX_PIPES
      · rw [if_pos hlt]
        obtain ⟨h1, h2, h3, h4⟩ := trim_step t.buf p
        set token := skip_space t.buf p with htoken
        set e1 := trim_end (strlen t.buf token) t.buf token (token + strlen t.buf token)
          with he1
        set b1 := poke t.buf e1 with hb1
        have hstrlen : strlen t.buf p = tk.length := by unfold strlen; rw [hcs]
        rw [hcs] at h3 h4
        -- the strings that start at or after the saved pointer are untouched
        have hsave : cstr b1 t.save = cstr t.buf t.save :=
          cstr_poke_before t.buf p e1 t.save h2 (by omega)
        have hst2 : TokState pipe_delim (strtok_r b1 t.save ['|'])
            (tokens pipe_delim (cstr b1 t.save)) := (strtok_r_state b1 t.save ['|']).1
        rw [hsave, hrest] at hst2
        obtain ⟨hsub, e, he, hbuf, hsv⟩ := strtok_r_state b1 t.save ['|']
        -- the strings of the commands stored so far are untouched
        have hold : ∀ q ∈ cmds, cstr (strtok_r b1 t.save ['|']).buf q = cstr t.buf q := by
          intro q hq
          obtain ⟨hq1, hq2⟩ := hframe q hq
          have hq3 := hq2 p hp
          have e2 : cstr b1 q = cstr t.buf q := cstr_poke_ge t.buf q e1 (by omega)
          rw [hbuf, cstr_poke_ge b1 q e (by unfold strlen at hq1 ⊢; rw [e2]; omega), e2]
        have hnew : cstr (strtok_r b1 t.save ['|']).buf token = trim tk := by
          rw [hbuf, cstr_poke_ge b1 token e (by unfold strlen; rw [h3]; omega), h3]
        have hptr : ∀ p2, (strtok_r b1 t.save ['|']).token = some p2 → t.save ≤ p2 := by
          intro p2 hp2
          unfold strtok_r at hp2
          simp only [] at hp2
          split at hp2
          · cases hp2
          · split at hp2 <;> (cases hp2; omega)
        have hpeek : (peek b1 token ≠ NUL) ↔ trim tk ≠ [] := by
          rw [← h3, Ne, Ne, cstr_eq_nil_iff]
        by_cases hblank : trim tk = []
        · have hpk : ¬ peek b1 token ≠ NUL := fun h => (hpeek.mp h) hblank
          rw [if_neg hpk]
          rw [ih _ cmds tks hst2 (by simpa using hfuel) (by
            intro q hq
            obtain ⟨hq1, hq2⟩ := hframe q hq
            have := hold q hq
            unfold strlen at hq1 hq2 ⊢
            rw [this]
            exact ⟨by omega, fun p2 hp2 => by have := hptr p2 hp2; omega⟩)]
          rw [List.map_congr_left hold]
          simp [List.filter_cons, hblank]
        · have hpk : peek b1 token ≠ NUL := hpeek.mpr hblank
          rw [if_pos hpk]
          rw [ih _ (cmds ++ [token]) tks hst2 (by simpa using hfuel) (by
            intro q hq
            have hq0 : cstr (strtok_r b1 t.save ['|']).buf q = cstr t.buf q
                ∨ (q = token) := by
              rcases List.mem_append.mp hq with h | h
              · exact Or.inl (hold q h)
              · exact Or.inr (List.mem_singleton.mp h)
            rcases hq0 with h | h
            · rcases List.mem_append.mp hq with h5 | h5
              · obtain ⟨hq1, hq2⟩ := hframe q h5
                unfold strlen at hq1 hq2 ⊢
                rw [h]
                exact ⟨by omega, fun p2 hp2 => by have := hptr p2 hp2; omega⟩
              · have h6 := List.mem_singleton.mp h5
                subst h6
                unfold strlen
                rw [hnew]
                exact ⟨by omega, fun p2 hp2 => by have := hptr p2 hp2; omega⟩
            · subst h
              unfold strlen
              rw [hnew]
              exact ⟨by omega, fun p2 hp2 => by have := hptr p2 hp2; omega⟩)]
          rw [List.map_append, List.map_congr_left hold, List.map_singleton, hnew]
          have e3 : MAX_PIPES - cmds.length = (MAX_PIPES - (cmds ++ [token]).length) + 1 := by
            simp only [List.length_append, List.length_singleton]; omega
          rw [e3]
          simp [List.filter_cons, hblank]
      · rw [if_neg hlt]
        have : MAX_PIPES - cmds.length = 0 := by omega
        simp [this]

/-- The array `cmds` after the scan: the first `MAX_PIPES` non-empty trimmed
parts of the statement. -/
theorem pipe_scan_spec (b : Buf) (command : Nat) :
    (pipe_scan b command).2.map (cstr (pipe_scan b command).1)
      = (pipe_parts (cstr b command)).take MAX_PIPES := by
  unfold pipe_scan
  have hst : TokState pipe_delim (strtok_r b command ['|'])
      (tokens pipe_delim (cstr b command)) := (strtok_r_state b command ['|']).1
  have := pipe_loop_spec (strlen b command) (strtok_r b command ['|']) [] _ hst
    (length_tokens_le _ _) (by simp)
  rw [this]
  simp [pipe_parts]

/-! ## The operator priority of `process_command` -/

theorem strchr_isSome_iff (s : CStr) (c : Char) : (strchr s c).isSome = true ↔ c ∈ s := by
  induction s with
  | nil => simp [strchr]
  | cons x xs ih =>
    unfold strchr
    by_cases h : x = c
    · simp [h]
    · have h2 : ¬ c = x := fun e => h e.symm
      simp [h, h2, ih]

theorem strchr_eq_none_iff (s : CStr) (c : Char) : strchr s c = none ↔ c ∉ s := by
  rw [← strchr_isSome_iff]
  cases strchr s c <;> simp

/-- The offset `strchr` returns is the first position of the character. -/
theorem strchr_some (s : CStr) (c : Char) : ∀ k, strchr s c = some k →
    k < s.length ∧ s[k]? = some c ∧ c ∉ s.take k := by
  induction s with
  | nil => intro k h; simp [strchr] at h
  | cons x xs ih =>
    intro k h
    unfold strchr at h
    by_cases hx : x = c
    · rw [if_pos hx] at h
      cases h
      simp [hx]
    · rw [if_neg hx] at h
      rcases hr : strchr xs c with _ | j
      · rw [hr] at h; cases h
      · rw [hr] at h
        cases h
        obtain ⟨h1, h2, h3⟩ := ih j hr
        have hx2 : ¬ c = x := fun e => hx e.symm
        refine ⟨by simpa using h1, by simpa using h2, ?_⟩
        simp [List.take_succ_cons, hx2, h3]

/-- The offset `strstr` returns is the first position where the needle occurs. -/
theorem strstr_some (s n : CStr) : ∀ k, strstr s n = some k →
    k + n.length ≤ s.length ∧ n.isPrefixOf (s.drop k) = true
      ∧ ∀ j, j < k → n.isPrefixOf (s.drop j) = false := by
  induction s with
  | nil =>
    intro k h
    unfold strstr at h
    by_cases hn : n = []
    · rw [if_pos hn] at h; cases h; subst hn; simp
    · rw [if_neg hn] at h; cases h
  | cons x xs ih =>
    intro k h
    unfold strstr at h
    by_cases hp : n.isPrefixOf (x :: xs) = true
    · rw [if_pos hp] at h
      cases h
      refine ⟨?_, by simpa using hp, by intro j hj; omega⟩
      have := (List.isPrefixOf_iff_prefix.mp hp).length_le
      simpa using this
    · rw [if_neg hp] at h
      rcases hr : strstr xs n with _ | j
      · rw [hr] at h; cases h
      · rw [hr] at h
        cases h
        obtain ⟨h1, h2, h3⟩ := ih j hr
        refine ⟨by simp only [List.length_cons]; omega, by simpa using h2, ?_⟩
        intro i hi
        simp only [] at hi
        cases i with
        | zero =>
          rw [List.drop_zero]
          exact Bool.eq_false_iff.mpr hp
        | succ i => simpa using h3 i (by omega)

/-- The operator split shared by the `&&`, `>>`, `>` and `<` branches: a NUL
is written at offset `k` of the statement and the right operand starts after
the `n` characters of the operator and the whitespace that follows them. -/
theorem split_at (b : Buf) (c0 k n : Nat) (hk : k + n ≤ strlen b c0) (hn : 0 < n) :
    cstr (poke b (c0 + k)) c0 = (cstr b c0).take k
      ∧ cstr (poke b (c0 + k)) (skip_space (poke b (c0 + k)) (c0 + k + n))
          = ((cstr b c0).drop (k + n)).dropWhile isspace := by
  refine ⟨cstr_poke_cut b c0 k, ?_⟩
  rw [cstr_skip_space, cstr_poke_lt _ _ _ (by omega), Nat.add_assoc, cstr_add b c0 _ hk]

/-- C1 (amended). The decision of `process_command` on a statement that is
neither empty after its leading whitespace nor a built-in. With a `|` and two
non-empty trimmed parts or more: a pipeline of the first `MAX_PIPES` parts. Without any `|`: the first of `&&`, `>>`, `>`, `<`
that occurs in the statement governs it, the statement is cut at the first
occurrence of that operator, and the right operand starts after the
whitespace that follows the operator; with none of them the statement is a
plain command. -/
theorem dispatch_spec (b : Buf) (command : Nat)
    (hne : cstr b (skip_space b command) ≠ [])
    (hexit : cstr b (skip_space b command) ≠ "exit".toList)
    (hhist : cstr b (skip_space b command) ≠ "history".toList) :
    ('|' ∈ cstr b (skip_space b command) →
      2 ≤ (pipe_parts (cstr b (skip_space b command))).length →
      ∃ cmds, (dispatch b command).2 = .pipeline cmds
        ∧ cmds.map (cstr (dispatch b command).1)
            = (pipe_parts (cstr b (skip_space b command))).take MAX_PIPES)
    ∧ ('|' ∉ cstr b (skip_space b command) →
      match strstr (cstr b (skip_space b command)) "&&".toList,
          strstr (cstr b (skip_space b command)) ">>".toList,
          strchr (cstr b (skip_space b command)) '>',
          strchr (cstr b (skip_space b command)) '<' with
      | some k, _, _, _ =>
        ∃ q, (dispatch b command).2 = .and_list (skip_space b command) q
          ∧ cstr (dispatch b command).1 (skip_space b command)
              = (cstr b (skip_space b command)).take k
          ∧ cstr (dispatch b command).1 q
              = ((cstr b (skip_space b command)).drop (k + 2)).dropWhile isspace
      | none, some k, _, _ =>
        ∃ q, (dispatch b command).2 = .redirect .append (skip_space b command) q
          ∧ cstr (dispatch b command).1 (skip_space b command)
              = (cstr b (skip_space b command)).take k
          ∧ cstr (dispatch b command).1 q
              = ((cstr b (skip_space b command)).drop (k + 2)).dropWhile isspace
      | none, none, some k, _ =>
        ∃ q, (dispatch b command).2 = .redirect .trunc (skip_space b command) q
          ∧ cstr (dispatch b command).1 (skip_space b command)
              = (cstr b (skip_space b command)).take k
          ∧ cstr (dispatch b command).1 q
              = ((cstr b (skip_space b command)).drop (k + 1)).dropWhile isspace
      | none, none, none, some k =>
        ∃ q, (dispatch b command).2 = .redirect .rdonly (skip_space b command) q
          ∧ cstr (dispatch b command).1 (skip_space b command)
              = (cstr b (skip_space b command)).take k
          ∧ cstr (dispatch b command).1 q
              = ((cstr b (skip_space b command)).drop (k + 1)).dropWhile isspace
      | none, none, none, none =>
        dispatch b command = (b, .plain (skip_space b command))) := by
  have hpk : ¬ peek b (skip_space b command) = NUL :=
    fun h => hne ((cstr_eq_nil_iff _ _).mpr h)
  constructor
  · intro hbar hparts
    have hsome : (strchr (cstr b (skip_space b command)) '|').isSome = true :=
      (strchr_isSome_iff _ _).mpr hbar
    have hspec := pipe_scan_spec b (skip_space b command)
    have hlen : 1 < (pipe_scan b (skip_space b command)).2.length := by
      have := congrArg List.length hspec
      rw [List.length_map, List.length_take] at this
      rw [this]
      have : MAX_PIPES = 10 := rfl
      omega
    unfold dispatch
    simp only [hexit, hhist, hpk, hsome, if_true, if_false, hlen]
    exact ⟨_, rfl, hspec⟩
  · intro hbar
    have hnone : (strchr (cstr b (skip_space b command)) '|').isSome = false := by
      rw [(strchr_eq_none_iff _ _).mpr hbar]; rfl
    unfold dispatch
    simp only [hexit, hhist, hpk, hnone, if_false, Bool.false_eq_true, List.length_nil,
      Nat.not_lt_zero]
    rcases h1 : strstr (cstr b (skip_space b command)) "&&".toList with _ | k
    · rcases h2 : strstr (cstr b (skip_space b command)) ">>".toList with _ | k
      · rcases h3 : strchr (cstr b (skip_space b command)) '>' with _ | k
        · rcases h4 : strchr (cstr b (skip_space b command)) '<' with _ | k
          · rfl
          · have hk := (strchr_some _ _ k h4).1
            obtain ⟨e1, e2⟩ := split_at b (skip_space b command) k 1
              (by unfold strlen; omega) (by omega)
            exact ⟨_, rfl, e1, e2⟩
        · have hk := (strchr_some _ _ k h3).1
          obtain ⟨e1, e2⟩ := split_at b (skip_space b command) k 1
            (by unfold strlen; omega) (by omega)
          exact ⟨_, rfl, e1, e2⟩
      · have hk := (strstr_some _ _ k h2).1
        obtain ⟨e1, e2⟩ := split_at b (skip_space b command) k 2
          (by unfold strlen; simpa using hk) (by omega)
        exact ⟨_, rfl, e1, e2⟩
    · have hk := (strstr_some _ _ k h1).1
      obtain ⟨e1, e2⟩ := split_at b (skip_space b command) k 2
        (by unfold strlen; simpa using hk) (by omega)
      exact ⟨_, rfl, e1, e2⟩

/-! ## Descriptor tables -/

theorem fd_get_put (t : FdTable) (fd : Nat) (v : Option FdObj) (j : Nat) :
    fd_get (fd_put t fd v) j = if j = fd then v else fd_get t j := by
  unfold fd_get fd_put
  by_cases hlt : fd < t.length
  · rw [if_pos hlt]
    simp only [List.getD_eq_getElem?_getD, List.getElem?_set]
    by_cases hj : fd = j
    · subst hj; simp [hlt]
    · have : ¬ j = fd := fun e => hj e.symm
      simp [hj, this]
  · rw [if_neg hlt]
    simp only [List.getD_eq_getElem?_getD]
    by_cases hj : j = fd
    · subst hj
      rw [if_pos rfl, List.getElem?_append_right (by simp; omega)]
      have : j - (t ++ List.replicate (j - t.length) none).length = 0 := by
        simp only [List.length_append, List.length_replicate]; omega
      rw [this]
      rfl
    · rw [if_neg hj]
      rcases Nat.lt_or_ge j t.length with h1 | h1
      · rw [List.append_assoc, List.getElem?_append_left h1]
      · rw [List.getElem?_eq_none h1]
        rcases Nat.lt_or_ge j fd with h2 | h2
        · rw [List.getElem?_append_left (by simp; omega),
            List.getElem?_append_right h1,
            List.getElem?_replicate]
          simp
          split <;> rfl
        · rw [List.getElem?_eq_none (by simp; omega)]

theorem lowest_free_spec (t : FdTable) :
    fd_get t (lowest_free t) = none ∧ ∀ j, j < lowest_free t → fd_get t j ≠ none := by
  unfold lowest_free fd_get
  constructor
  · rcases Nat.lt_or_ge (t.findIdx Option.isNone) t.length with h | h
    · have := List.findIdx_getElem (w := h)
      rw [List.getD_eq_getElem?_getD, List.getElem?_eq_getElem h]
      cases hx : t[List.findIdx Option.isNone t] with
      | none => rfl
      | some v => rw [hx] at this; simp at this
    · rw [List.getD_eq_getElem?_getD, List.getElem?_eq_none h]; rfl
  · intro j hj
    have hjl : j < t.length := Nat.lt_of_lt_of_le hj (List.findIdx_le_length _)
    have := List.not_of_lt_findIdx hj
    rw [List.getD_eq_getElem?_getD, List.getElem?_eq_getElem hjl]
    cases hx : t[j] with
    | none => rw [hx] at this; simp at this
    | some v => simp

theorem fd_get_close (t : FdTable) (fd j : Nat) :
    fd_get (sys_close t fd) j = if j = fd then none else fd_get t j := by
  unfold sys_close
  cases h : fd_get t fd with
  | none =>
    by_cases hj : j = fd
    · simp [hj, h]
    · simp [hj]
  | some v => simp only []; rw [fd_get_put]

theorem fd_get_dup2 (t : FdTable) (oldfd newfd j : Nat) (o : FdObj)
    (h : fd_get t oldfd = some o) :
    fd_get (sys_dup2 t oldfd newfd) j = if j = newfd then some o else fd_get t j := by
  unfold sys_dup2
  rw [h]
  simp only []
  rw [fd_get_put]

/-! ## The handler and the main flow -/

theorem handle_sigint_frame (s : Sh) :
    (handle_sigint s).fdt = s.fdt ∧ (handle_sigint s).npipe = s.npipe
      ∧ (handle_sigint s).nfork = s.nfork ∧ (handle_sigint s).npoint = s.npoint
      ∧ (handle_sigint s).history = s.history ∧ (handle_sigint s).hist_count = s.hist_count
      ∧ main_flow (handle_sigint s).log = main_flow s.log := by
  unfold handle_sigint
  by_cases h : 0 < s.foreground_pgid <;>
    simp [h, Sh.emit, main_flow, List.filter_append, Event.from_handler]

theorem handle_sigint_iterate_frame (n : Nat) : ∀ s : Sh,
    (handle_sigint^[n] s).fdt = s.fdt ∧ (handle_sigint^[n] s).npipe = s.npipe
      ∧ (handle_sigint^[n] s).nfork = s.nfork ∧ (handle_sigint^[n] s).npoint = s.npoint
      ∧ (handle_sigint^[n] s).history = s.history
      ∧ (handle_sigint^[n] s).hist_count = s.hist_count
      ∧ main_flow (handle_sigint^[n] s).log = main_flow s.log := by
  induction n with
  | zero => intro s; simp
  | succ n ih =>
    intro s
    rw [Function.iterate_succ_apply]
    obtain ⟨a1, a2, a3, a4, a5, a6, a7⟩ := ih (handle_sigint s)
    obtain ⟨b1, b2, b3, b4, b5, b6, b7⟩ := handle_sigint_frame s
    exact ⟨a1.trans b1, a2.trans b2, a3.trans b3, a4.trans b4, a5.trans b5, a6.trans b6,
      a7.trans b7⟩

/-- A point where signals are let in changes neither the descriptor table,
nor the counters of `fork` and `pipe`, nor the history, nor the steps of the
main flow. -/
theorem poll_frame (w : World) (s : Sh) :
    (poll w s).fdt = s.fdt ∧ (poll w s).npipe = s.npipe ∧ (poll w s).nfork = s.nfork
      ∧ (poll w s).history = s.history ∧ (poll w s).hist_count = s.hist_count
      ∧ main_flow (poll w s).log = main_flow s.log := by
  unfold poll
  obtain ⟨a1, a2, a3, _, a5, a6, a7⟩ :=
    handle_sigint_iterate_frame (w.sigint s.npoint) { s with npoint := s.npoint + 1 }
  exact ⟨a1, a2, a3, a5, a6, a7⟩

theorem main_flow_emit (s : Sh) (e : Event) :
    main_flow (s.emit e).log
      = main_flow s.log ++ (if e.from_handler = true then [] else [e]) := by
  by_cases h : e.from_handler = true <;> simp [Sh.emit, main_flow, List.filter_append, h]

/-! ## The loops of `execute_pipeline` -/

theorem getD_set {α : Type} (l : List α) (a j : Nat) (x d : α) (ha : a < l.length) :
    (l.set a x).getD j d = if j = a then x else l.getD j d := by
  simp only [List.getD_eq_getElem?_getD, List.getElem?_set]
  by_cases h : a = j
  · subst h; simp [ha]
  · have : ¬ j = a := fun e => h e.symm
    simp [h, this]

/-- Creating one more pipe keeps the description of the table. -/
theorem Piped.step {t0 : FdTable} {np k : Nat} {t : FdTable} {pipefd : List Nat}
    (h : Piped t0 np k t pipefd) (hk : 2 * k + 1 < pipefd.length) :
    Piped t0 np (k + 1) (sys_pipe t (np + k)).1
      ((pipefd.set (2 * k) (sys_pipe t (np + k)).2.1).set (2 * k + 1)
        (sys_pipe t (np + k)).2.2) := by
  have hk0 : 2 * k < pipefd.length := by omega
  set r := lowest_free t with hr
  set t1 := fd_put t r (some (.pipe_read (np + k))) with ht1
  set wr := lowest_free t1 with hwr
  have hsp : sys_pipe t (np + k) = (fd_put t1 wr (some (.pipe_write (np + k))), r, wr) := rfl
  rw [hsp]
  simp only []
  have hrfree : fd_get t r = none := (lowest_free_spec t).1
  have hwfree : fd_get t1 wr = none := (lowest_free_spec t1).1
  -- the descriptors stored so far are open, so the new ones differ from them
  have hopen : ∀ j, j < 2 * k → fd_get t (pipefd.getD j 0) ≠ none := by
    intro j hj
    rcases Nat.even_or_odd' j with ⟨i, rfl | rfl⟩
    · rw [h.read_end i (by omega)]; simp
    · rw [h.write_end i (by omega)]; simp
  have hr_ne : ∀ j, j < 2 * k → r ≠ pipefd.getD j 0 :=
    fun j hj e => hopen j hj (e ▸ hrfree)
  have hwr_ne_r : wr ≠ r := by
    intro e
    rw [e, ht1, fd_get_put, if_pos rfl] at hwfree
    cases hwfree
  have hw_free_t : fd_get t wr = none := by
    rw [ht1, fd_get_put, if_neg hwr_ne_r] at hwfree
    exact hwfree
  have hw_ne : ∀ j, j < 2 * k → wr ≠ pipefd.getD j 0 :=
    fun j hj e => hopen j hj (e ▸ hw_free_t)
  have hk1 : 2 * k + 1 < (pipefd.set (2 * k) r).length := by simpa using hk
  have hget : ∀ j, ((pipefd.set (2 * k) r).set (2 * k + 1) wr).getD j 0
      = if j = 2 * k + 1 then wr else if j = 2 * k then r else pipefd.getD j 0 := by
    intro j
    rw [getD_set _ _ _ _ _ hk1, getD_set _ _ _ _ _ hk0]
  have hget_old : ∀ j, j < 2 * k →
      ((pipefd.set (2 * k) r).set (2 * k + 1) wr).getD j 0 = pipefd.getD j 0 := by
    intro j hj
    rw [hget, if_neg (by omega), if_neg (by omega)]
  have hget_r : ((pipefd.set (2 * k) r).set (2 * k + 1) wr).getD (2 * k) 0 = r := by
    rw [hget, if_neg (by omega), if_pos rfl]
  have hget_w : ((pipefd.set (2 * k) r).set (2 * k + 1) wr).getD (2 * k + 1) 0 = wr := by
    rw [hget, if_pos rfl]
  have hfd : ∀ fd, fd_get (fd_put t1 wr (some (.pipe_write (np + k)))) fd
      = if fd = wr then some (.pipe_write (np + k))
        else if fd = r then some (.pipe_read (np + k)) else fd_get t fd := by
    intro fd
    rw [fd_get_put, ht1, fd_get_put]
  refine ⟨by simpa using h.size, ?_, ?_, ?_, ?_⟩
  · intro i hi
    by_cases hik : i = k
    · subst hik
      rw [hget_r, hfd, if_neg hwr_ne_r.symm, if_pos rfl]
    · have hlt : i < k := by omega
      rw [hget_old _ (by omega), hfd,
        if_neg (fun e => hw_ne (2 * i) (by omega) e.symm),
        if_neg (fun e => hr_ne (2 * i) (by omega) e.symm), h.read_end i hlt]
  · intro i hi
    by_cases hik : i = k
    · subst hik
      rw [hget_w, hfd, if_pos rfl]
    · have hlt : i < k := by omega
      rw [hget_old _ (by omega), hfd,
        if_neg (fun e => hw_ne (2 * i + 1) (by omega) e.symm),
        if_neg (fun e => hr_ne (2 * i + 1) (by omega) e.symm), h.write_end i hlt]
  · intro j hj
    by_cases h1 : j = 2 * k + 1
    · rw [h1, hget_w, ← h.frame wr hw_ne]; exact hw_free_t
    · by_cases h2 : j = 2 * k
      · rw [h2, hget_r, ← h.frame r hr_ne]; exact hrfree
      · rw [hget_old _ (by omega)]; exact h.fresh j (by omega)
  · intro fd hfd2
    have e1 : fd ≠ wr := by
      have := hfd2 (2 * k + 1) (by omega)
      rwa [hget_w] at this
    have e2 : fd ≠ r := by
      have := hfd2 (2 * k) (by omega)
      rwa [hget_r] at this
    rw [hfd, if_neg e1, if_neg e2]
    apply h.frame
    intro j hj
    have := hfd2 j (by omega)
    rwa [hget_old _ hj] at this

theorem make_pipes_ok (w : World) (t0 : FdTable) (np : Nat) (fuel : Nat) :
    ∀ (i : Nat) (s : Sh) (pipefd : List Nat),
      Piped t0 np i s.fdt pipefd → s.npipe = np + i →
      (∀ k, i ≤ k → k < i + fuel → w.pipe_ok (np + k) = true) →
      i + fuel ≤ MAX_PIPES →
      ∃ s1 pf, make_pipes w fuel i s pipefd = .ok (s1, pf)
        ∧ Piped t0 np (i + fuel) s1.fdt pf
        ∧ s1.npipe = np + i + fuel ∧ s1.nfork = s.nfork
        ∧ main_flow s1.log = main_flow s.log ++ pipe_events np pf i fuel
        ∧ ∀ j, j < 2 * i → pf.getD j 0 = pipefd.getD j 0 := by
  induction fuel with
  | zero =>
    intro i s pipefd hp hn _ _
    exact ⟨s, pipefd, rfl, hp, by omega, rfl, by simp [pipe_events], fun _ _ => rfl⟩
  | succ fuel ih =>
    intro i s pipefd hp hn hok hbound
    obtain ⟨p1, p2, p3, _, _, p6⟩ := poll_frame w s
    have hsize := hp.size
    have hM : MAX_PIPES = 10 := rfl
    have hidx : 2 * i + 1 < pipefd.length := by omega
    have hpok : w.pipe_ok (poll w s).npipe = true := by
      rw [p2, hn]; exact hok i (Nat.le_refl _) (by omega)
    unfold make_pipes
    simp only [hidx, hpok, if_true]
    have hp1 : Piped t0 np i (poll w s).fdt pipefd := by rw [p1]; exact hp
    have hstep := hp1.step hidx
    rw [← hn, ← p2] at hstep
    obtain ⟨s1, pf, e1, e2, e3, e4, e5, e6⟩ := ih (i + 1)
      ({ poll w s with
          fdt := (sys_pipe (poll w s).fdt (poll w s).npipe).1
          npipe := (poll w s).npipe + 1 }.emit
        (.pipe_ok (poll w s).npipe (sys_pipe (poll w s).fdt (poll w s).npipe).2.1
          (sys_pipe (poll w s).fdt (poll w s).npipe).2.2))
      ((pipefd.set (2 * i) (sys_pipe (poll w s).fdt (poll w s).npipe).2.1).set (2 * i + 1)
        (sys_pipe (poll w s).fdt (poll w s).npipe).2.2)
      hstep (by simp only [Sh.emit]; rw [p2, hn]; omega)
      (fun k hk1 hk2 => hok k (by omega) (by omega)) (by omega)
    refine ⟨s1, pf, e1, ?_, ?_, ?_, ?_, ?_⟩
    · rw [show i + (fuel + 1) = i + 1 + fuel by omega]; exact e2
    · rw [e3]; omega
    · rw [e4]; simp only [Sh.emit]; exact p3
    · rw [e5, main_flow_emit]
      simp only [Event.from_handler, Bool.false_eq_true, if_false]
      rw [p6, List.append_assoc]
      congr 1
      have hk0 : 2 * i < pipefd.length := by omega
      have hk1 : 2 * i + 1 < (pipefd.set (2 * i)
          (sys_pipe (poll w s).fdt (poll w s).npipe).2.1).length := by simpa using hidx
      have g1 := e6 (2 * i) (by omega)
      have g2 := e6 (2 * i + 1) (by omega)
      rw [getD_set _ _ _ _ _ hk1, getD_set _ _ _ _ _ hk0, if_neg (by omega), if_pos rfl] at g1
      rw [getD_set _ _ _ _ _ hk1, if_pos rfl] at g2
      simp only [pipe_events, List.range'_succ, List.map_cons, List.singleton_append]
      rw [g1, g2, p2, hn]
    · intro j hj
      rw [e6 j (by omega)]
      have hk0 : 2 * i < pipefd.length := by omega
      have hk1 : 2 * i + 1 < (pipefd.set (2 * i)
          (sys_pipe (poll w s).fdt (poll w s).npipe).2.1).length := by simpa using hidx
      rw [getD_set _ _ _ _ _ hk1, getD_set _ _ _ _ _ hk0, if_neg (by omega), if_neg (by omega)]

theorem spawn_stages_ok (w : World) (b : Buf) (commands : List Nat) (num_cmds : Nat)
    (pipefd : List Nat) (t : FdTable) (nf : Nat) (fuel : Nat) :
    ∀ (i : Nat) (s : Sh) (pids : List Int),
      pids.length = MAX_PIPES → i + fuel ≤ MAX_PIPES → s.nfork = nf + i → s.fdt = t →
      (∀ k, i ≤ k → k < i + fuel → w.fork (nf + k) ≠ 0) →
      (0 < i → pids.getD 0 0 = (w.fork nf : Int)) →
      ∃ s1 pids1, spawn_stages w b commands num_cmds pipefd fuel i s pids = .ok (s1, pids1)
        ∧ s1.fdt = t ∧ s1.npipe = s.npipe
        ∧ main_flow s1.log = main_flow s.log
            ++ spawn_events w nf (stage_child w t b commands num_cmds pipefd) i fuel
        ∧ pids1.length = MAX_PIPES
        ∧ (∀ k, i ≤ k → k < i + fuel → pids1.getD k 0 = (w.fork (nf + k) : Int))
        ∧ ∀ k, k < i → pids1.getD k 0 = pids.getD k 0 := by
  induction fuel with
  | zero =>
    intro i s pids hl _ _ ht _ _
    exact ⟨s, pids, rfl, ht, rfl, by simp [spawn_events], hl, fun k h1 h2 => by omega,
      fun _ _ => rfl⟩
  | succ fuel ih =>
    intro i s pids hl hbound hnf ht hfork h0
    obtain ⟨p1, p2, p3, _, _, p6⟩ := poll_frame w s
    have hM : MAX_PIPES = 10 := rfl
    have hidx : i < pids.length := by omega
    have hfk : w.fork (poll w s).nfork ≠ 0 := by
      rw [p3, hnf]; exact hfork i (Nat.le_refl _) (by omega)
    unfold spawn_stages
    simp only [hidx, if_true, do_fork, hfk, if_false]
    have hnn : ¬ ((w.fork (poll w s).nfork : Int) < 0) := by omega
    rw [if_neg hnn]
    set s2 := ({ poll w s with nfork := (poll w s).nfork + 1 }.emit
      (.fork_ok (w.fork (poll w s).nfork)
        (stage_child w (poll w s).fdt b commands num_cmds pipefd i))) with hs2
    obtain ⟨q1, q2, q3, _, _, q6⟩ := poll_frame w s2
    have hpid0 : (pids.set i (w.fork (poll w s).nfork : Int)).getD 0 0 = (w.fork nf : Int) := by
      rw [getD_set _ _ _ _ _ hidx]
      by_cases hi : 0 = i
      · rw [if_pos hi, p3, hnf, ← hi]; rfl
      · rw [if_neg hi]; exact h0 (by omega)
    obtain ⟨s1, pids1, e1, e2, e3, e4, e5, e6, e7⟩ := ih (i + 1)
      ((poll w s2).emit (.setpgid (w.fork (poll w s).nfork)
        ((pids.set i (w.fork (poll w s).nfork : Int)).getD 0 0)))
      (pids.set i (w.fork (poll w s).nfork : Int))
      (by simpa using hl) (by omega)
      (by simp only [Sh.emit]; rw [q3, hs2]; simp only [Sh.emit]; rw [p3, hnf]; omega)
      (by simp only [Sh.emit]; rw [q1, hs2]; simp only [Sh.emit]; rw [p1, ht])
      (fun k hk1 hk2 => hfork k (by omega) (by omega))
      (fun _ => hpid0)
    refine ⟨s1, pids1, e1, e2, ?_, ?_, e5, ?_, ?_⟩
    · rw [e3]; simp only [Sh.emit]; rw [q2, hs2]; simp only [Sh.emit]; exact p2
    · rw [e4, main_flow_emit, q6, hs2, main_flow_emit]
      simp only [Event.from_handler, Bool.false_eq_true, if_false]
      rw [p6, hpid0, p3, hnf, p1, ht]
      simp only [spawn_events, List.range'_succ, List.flatMap_cons, List.append_assoc,
        List.cons_append, List.nil_append, List.singleton_append]
    · intro k hk1 hk2
      by_cases hki : k = i
      · rw [hki, e7 i (by omega), getD_set _ _ _ _ _ hidx, if_pos rfl, p3, hnf]
      · exact e6 k (by omega) (by omega)
    · intro k hk
      rw [e7 k (by omega), getD_set _ _ _ _ _ hidx, if_neg (by omega)]

theorem close_pipes_spec (w : World) (pipefd : List Nat) (fuel : Nat) :
    ∀ (j : Nat) (s : Sh),
      (close_pipes w pipefd fuel j s).fdt
          = ((List.range' j fuel).map (fun x => pipefd.getD x 0)).foldl sys_close s.fdt
        ∧ (close_pipes w pipefd fuel j s).npipe = s.npipe
        ∧ (close_pipes w pipefd fuel j s).nfork = s.nfork
        ∧ main_flow (close_pipes w pipefd fuel j s).log = main_flow s.log
            ++ (List.range' j fuel).map (fun x => Event.close (pipefd.getD x 0)) := by
  induction fuel with
  | zero => intro j s; simp [close_pipes]
  | succ fuel ih =>
    intro j s
    obtain ⟨p1, p2, p3, _, _, p6⟩ := poll_frame w s
    unfold close_pipes
    simp only []
    obtain ⟨e1, e2, e3, e4⟩ := ih (j + 1)
      ({ poll w s with fdt := sys_close (poll w s).fdt (pipefd.getD j 0) }.emit
        (.close (pipefd.getD j 0)))
    refine ⟨?_, ?_, ?_, ?_⟩
    · rw [e1]; simp only [Sh.emit, List.range'_succ, List.map_cons, List.foldl_cons]; rw [p1]
    · rw [e2]; simp only [Sh.emit]; exact p2
    · rw [e3]; simp only [Sh.emit]; exact p3
    · rw [e4, main_flow_emit]
      simp only [Event.from_handler, Bool.false_eq_true, if_false]
      rw [p6]
      simp [List.range'_succ]

theorem wait_stages_spec (w : World) (pids : List Int) (fuel : Nat) :
    ∀ (i : Nat) (s : Sh),
      (wait_stages w pids fuel i s).fdt = s.fdt
        ∧ (wait_stages w pids fuel i s).npipe = s.npipe
        ∧ (wait_stages w pids fuel i s).nfork = s.nfork
        ∧ main_flow (wait_stages w pids fuel i s).log = main_flow s.log
            ++ (List.range' i fuel).map (fun k => Event.waitpid (pids.getD k 0)) := by
  induction fuel with
  | zero => intro i s; simp [wait_stages]
  | succ fuel ih =>
    intro i s
    obtain ⟨p1, p2, p3, _, _, p6⟩ := poll_frame w s
    unfold wait_stages
    simp only []
    obtain ⟨q1, q2, q3, _, _, q6⟩ := poll_frame w ((poll w s).emit (.waitpid (pids.getD i 0)))
    obtain ⟨e1, e2, e3, e4⟩ := ih (i + 1) (poll w ((poll w s).emit (.waitpid (pids.getD i 0))))
    refine ⟨?_, ?_, ?_, ?_⟩
    · rw [e1, q1]; simp only [Sh.emit]; exact p1
    · rw [e2, q2]; simp only [Sh.emit]; exact p2
    · rw [e3, q3]; simp only [Sh.emit]; exact p3
    · rw [e4, q6, main_flow_emit, p6]
      simp [List.range'_succ, Event.from_handler]

/-! ## The descriptors of a pipeline stage -/

theorem fd_get_foldl_close (fds : List Nat) : ∀ (t : FdTable) (j : Nat),
    fd_get (fds.foldl sys_close t) j = if j ∈ fds then none else fd_get t j := by
  induction fds with
  | nil => intro t j; simp
  | cons fd fds ih =>
    intro t j
    rw [List.foldl_cons, ih, fd_get_close]
    by_cases h1 : j ∈ fds
    · simp [h1]
    · by_cases h2 : j = fd
      · simp [h2]
      · simp [h1, h2]

theorem foldl_child_close (fds : List Nat) (t : FdTable) :
    (fds.map ChildOp.close).foldl child_step t = fds.foldl sys_close t := by
  rw [List.foldl_map]
  rfl

theorem exec_tail_fdt (w : World) (args : List (Option CStr)) (t : FdTable) :
    (exec_tail w args).foldl child_step t = t := by
  unfold exec_tail
  simp only []
  split <;> rfl

/-- The table after `dup2(o, n); close(o)` when `o` is open. -/
theorem fd_get_dup2_close (t : FdTable) (o n j : Nat) (obj : FdObj)
    (h : fd_get t o = some obj) :
    fd_get (sys_close (sys_dup2 t o n) o) j
      = if j = o then none else if j = n then some obj else fd_get t j := by
  rw [fd_get_close, fd_get_dup2 t o n j obj h]

theorem stage_child_fdt (w : World) (t0 : FdTable) (np n : Nat) (t : FdTable)
    (pipefd : List Nat) (b : Buf) (commands : List Nat) (i : Nat)
    (hp : Piped t0 np (n - 1) t pipefd) (h0 : fd_get t0 0 ≠ none) (h1 : fd_get t0 1 ≠ none)
    (hi : i < n) :
    fd_get (stage_child w t b commands n pipefd i).fdt 0
        = (if 0 < i then some (.pipe_read (np + (i - 1))) else fd_get t0 0)
      ∧ fd_get (stage_child w t b commands n pipefd i).fdt 1
        = (if i < n - 1 then some (.pipe_write (np + i)) else fd_get t0 1)
      ∧ ∀ fd, 2 ≤ fd →
          fd_get (stage_child w t b commands n pipefd i).fdt fd = none
            ∨ fd_get (stage_child w t b commands n pipefd i).fdt fd = fd_get t0 fd := by
  -- the descriptors of the pipes are neither 0 nor 1
  have hne0 : ∀ j, j < 2 * (n - 1) → (0 : Nat) ≠ pipefd.getD j 0 :=
    fun j hj e => h0 (e ▸ hp.fresh j hj)
  have hne1 : ∀ j, j < 2 * (n - 1) → (1 : Nat) ≠ pipefd.getD j 0 :=
    fun j hj e => h1 (e ▸ hp.fresh j hj)
  have hmem : ∀ fd, fd ∈ (List.range (2 * (n - 1))).map (fun j => pipefd.getD j 0)
      ↔ ∃ j, j < 2 * (n - 1) ∧ pipefd.getD j 0 = fd := by
    intro fd; simp
  -- the table after the first two blocks of the child
  set tA := if 0 < i then
      sys_close (sys_dup2 t (pipefd.getD (2 * (i - 1)) 0) 0) (pipefd.getD (2 * (i - 1)) 0)
    else t with htA
  set tB := if i < n - 1 then
      sys_close (sys_dup2 tA (pipefd.getD (2 * i + 1) 0) 1) (pipefd.getD (2 * i + 1) 0)
    else tA with htB
  have hfdt : (stage_child w t b commands n pipefd i).fdt
      = ((List.range (2 * (n - 1))).map (fun j => pipefd.getD j 0)).foldl sys_close tB := by
    unfold stage_child Child.run
    simp only [List.foldl_cons, List.foldl_append, child_step]
    have hD : ∀ t1 : FdTable,
        (if (split_args b (commands.getD i 0)).headD none = none then
            [ChildOp.stderr "Empty command\n".toList, ChildOp.exit EXIT_FAILURE]
          else exec_tail w (split_args b (commands.getD i 0))).foldl child_step t1 = t1 := by
      intro t1
      split
      · rfl
      · exact exec_tail_fdt w _ t1
    rw [hD]
    have hC := foldl_child_close ((List.range (2 * (n - 1))).map (fun j => pipefd.getD j 0))
    rw [List.map_map] at hC
    rw [show (fun j => ChildOp.close (pipefd.getD j 0))
        = ChildOp.close ∘ (fun j => pipefd.getD j 0) from rfl, hC]
    congr 1
    rw [htB, htA]
    by_cases c1 : 0 < i <;> by_cases c2 : i < n - 1 <;> simp [c1, c2, child_step]
  have hA : ∀ fd, fd_get tA fd
      = if 0 < i then
          (if fd = pipefd.getD (2 * (i - 1)) 0 then none
            else if fd = 0 then some (.pipe_read (np + (i - 1))) else fd_get t fd)
        else fd_get t fd := by
    intro fd
    rw [htA]
    by_cases c1 : 0 < i
    · rw [if_pos c1, if_pos c1]
      exact fd_get_dup2_close t _ 0 fd _ (hp.read_end (i - 1) (by omega))
    · rw [if_neg c1, if_neg c1]
  have hB : ∀ fd, fd_get tB fd
      = if i < n - 1 then
          (if fd = pipefd.getD (2 * i + 1) 0 then none
            else if fd = 1 then some (.pipe_write (np + i)) else fd_get tA fd)
        else fd_get tA fd := by
    intro fd
    rw [htB]
    by_cases c2 : i < n - 1
    · rw [if_pos c2, if_pos c2]
      apply fd_get_dup2_close tA _ 1 fd
      rw [hA]
      have hw := hp.write_end i c2
      by_cases c1 : 0 < i
      · rw [if_pos c1]
        have hr := hp.read_end (i - 1) (by omega)
        have hd : pipefd.getD (2 * i + 1) 0 ≠ pipefd.getD (2 * (i - 1)) 0 := by
          intro e
          rw [e, hr] at hw
          cases hw
        rw [if_neg hd, if_neg (fun e => hne0 (2 * i + 1) (by omega) e.symm)]
        exact hw
      · rw [if_neg c1]; exact hw
    · rw [if_neg c2, if_neg c2]
  have hframe : ∀ fd, (¬ ∃ j, j < 2 * (n - 1) ∧ pipefd.getD j 0 = fd) →
      fd_get t fd = fd_get t0 fd := by
    intro fd hfd
    apply hp.frame
    intro j hj e
    exact hfd ⟨j, hj, e.symm⟩
  have hnot0 : ¬ ∃ j, j < 2 * (n - 1) ∧ pipefd.getD j 0 = 0 :=
    fun ⟨j, hj, e⟩ => hne0 j hj e.symm
  have hnot1 : ¬ ∃ j, j < 2 * (n - 1) ∧ pipefd.getD j 0 = 1 :=
    fun ⟨j, hj, e⟩ => hne1 j hj e.symm
  rw [hfdt]
  refine ⟨?_, ?_, ?_⟩
  · rw [fd_get_foldl_close, if_neg (fun h => hnot0 ((hmem 0).mp h)), hB]
    have e1 : fd_get tA 0
        = if 0 < i then some (.pipe_read (np + (i - 1))) else fd_get t0 0 := by
      rw [hA]
      by_cases c1 : 0 < i
      · rw [if_pos c1, if_pos c1, if_neg (hne0 _ (by omega)), if_pos rfl]
      · rw [if_neg c1, if_neg c1, hframe 0 hnot0]
    by_cases c2 : i < n - 1
    · rw [if_pos c2, if_neg (hne0 _ (by omega)), if_neg (by omega), e1]
    · rw [if_neg c2, e1]
  · rw [fd_get_foldl_close, if_neg (fun h => hnot1 ((hmem 1).mp h)), hB]
    by_cases c2 : i < n - 1
    · rw [if_pos c2, if_pos c2, if_neg (hne1 _ (by omega)), if_pos rfl]
    · rw [if_neg c2, if_neg c2, hA]
      by_cases c1 : 0 < i
      · rw [if_pos c1, if_neg (hne1 _ (by omega)), if_neg (by omega), hframe 1 hnot1]
      · rw [if_neg c1, hframe 1 hnot1]
  · intro fd hfd
    rw [fd_get_foldl_close]
    by_cases hm : fd ∈ (List.range (2 * (n - 1))).map (fun j => pipefd.getD j 0)
    · left; rw [if_pos hm]
    · right
      rw [if_neg hm, hB]
      have hnm : ¬ ∃ j, j < 2 * (n - 1) ∧ pipefd.getD j 0 = fd := fun h => hm ((hmem fd).mpr h)
      have e1 : fd_get tA fd = fd_get t0 fd := by
        rw [hA]
        by_cases c1 : 0 < i
        · rw [if_pos c1, if_neg (fun e => hnm ⟨_, by omega, e.symm⟩), if_neg (by omega),
            hframe fd hnm]
        · rw [if_neg c1, hframe fd hnm]
      by_cases c2 : i < n - 1
      · rw [if_pos c2, if_neg (fun e => hnm ⟨_, by omega, e.symm⟩), if_neg (by omega), e1]
      · rw [if_neg c2, e1]

/-- C9 (amended). A pipeline of `n` commands, `2 ≤ n ≤ MAX_PIPES`, when `pipe` and
`fork` succeed and descriptors 0 and 1 of the shell are open:
`execute_pipeline` returns; the main flow creates the `n - 1` pipes, then
forks the `n` stages from left to right (putting each in the group of the
first), then closes the `2 (n - 1)` descriptors of the pipes, then waits for
the stages in order; stage `i` ends with descriptor 0 on the read end of pipe
`i - 1` when `i > 0` (the input of the shell when `i = 0`), descriptor 1 on the
write end of pipe `i` when `i < n - 1` (the output of the shell for the last
stage) and every other descriptor closed or as the shell had it before the
first pipe; when the shell starts to wait (state `s1`) its table is what it
was before the first pipe. -/
theorem execute_pipeline_wiring (w : World) (s : Sh) (b : Buf) (commands : List Nat)
    (hn2 : 2 ≤ commands.length) (hn10 : commands.length ≤ MAX_PIPES)
    (hpipe : ∀ k, k < commands.length - 1 → w.pipe_ok (s.npipe + k) = true)
    (hfork : ∀ k, k < commands.length → w.fork (s.nfork + k) ≠ 0)
    (h0 : fd_get s.fdt 0 ≠ none) (h1 : fd_get s.fdt 1 ≠ none) :
    ∃ (s1 : Sh) (t : FdTable) (pipefd : List Nat) (pids : List Int),
      execute_pipeline w s b commands commands.length
          = .ok (wait_stages w pids commands.length 0 s1)
        ∧ Piped s.fdt s.npipe (commands.length - 1) t pipefd
        ∧ main_flow (wait_stages w pids commands.length 0 s1).log
            = main_flow s.log
              ++ pipe_events s.npipe pipefd 0 (commands.length - 1)
              ++ spawn_events w s.nfork
                  (stage_child w t b commands commands.length pipefd) 0 commands.length
              ++ (List.range (2 * (commands.length - 1))).map
                  (fun j => Event.close (pipefd.getD j 0))
              ++ (List.range commands.length).map
                  (fun i => Event.waitpid (w.fork (s.nfork + i)))
        ∧ (∀ i, i < commands.length →
            fd_get (stage_child w t b commands commands.length pipefd i).fdt 0
                = (if 0 < i then some (.pipe_read (s.npipe + (i - 1))) else fd_get s.fdt 0)
              ∧ fd_get (stage_child w t b commands commands.length pipefd i).fdt 1
                = (if i < commands.length - 1 then some (.pipe_write (s.npipe + i))
                    else fd_get s.fdt 1)
              ∧ ∀ fd, 2 ≤ fd →
                  fd_get (stage_child w t b commands commands.length pipefd i).fdt fd = none
                    ∨ fd_get (stage_child w t b commands commands.length pipefd i).fdt fd
                        = fd_get s.fdt fd)
        ∧ ∀ fd, fd_get s1.fdt fd = fd_get s.fdt fd := by
  have hM : MAX_PIPES = 10 := rfl
  have hinit : Piped s.fdt s.npipe 0 s.fdt (List.replicate (2 * MAX_PIPES) 0) :=
    ⟨by simp, fun i hi => by omega, fun i hi => by omega, fun j hj => by omega,
      fun _ _ => rfl⟩
  obtain ⟨sa, pf, a1, a2, a3, a4, a5, _⟩ := make_pipes_ok w s.fdt s.npipe
    (commands.length - 1) 0 s _ hinit (by omega)
    (fun k _ hk => hpipe k (by omega)) (by omega)
  rw [Nat.zero_add] at a2
  obtain ⟨sb, pids, b1, b2, b3, b4, b5, b6, _⟩ := spawn_stages_ok w b commands
    commands.length pf sa.fdt s.nfork commands.length 0 sa (List.replicate MAX_PIPES 0)
    (by simp) (by omega) (by omega) rfl
    (fun k _ hk => hfork k (by omega)) (fun h => by omega)
  obtain ⟨c1, c2, c3, c4⟩ := close_pipes_spec w pf (2 * (commands.length - 1)) 0 sb
  obtain ⟨d1, d2, d3, d4⟩ := wait_stages_spec w pids commands.length 0
    (close_pipes w pf (2 * (commands.length - 1)) 0 sb)
  refine ⟨close_pipes w pf (2 * (commands.length - 1)) 0 sb, sa.fdt, pf, pids, ?_, a2, ?_,
    ?_, ?_⟩
  · unfold execute_pipeline
    rw [a1]
    simp only [bind, Except.bind]
    rw [b1]
    rfl
  · rw [d4, c4, b4, a5]
    simp only [List.append_assoc, ← List.range_eq_range']
    congr 4
    apply List.map_congr_left
    intro i hi
    rw [b6 i (Nat.zero_le _) (by simpa using hi)]
  · intro i hi
    exact stage_child_fdt w s.fdt s.npipe commands.length sa.fdt pf b commands i a2 h0 h1 hi
  · intro fd
    rw [c1, b2, ← List.range_eq_range', fd_get_foldl_close]
    by_cases hm : fd ∈ (List.range (2 * (commands.length - 1))).map (fun x => pf.getD x 0)
    · rw [if_pos hm]
      obtain ⟨j, hj, e⟩ := List.mem_map.mp hm
      rw [← e]
      exact (a2.fresh j (by simpa using hj)).symm
    · rw [if_neg hm]
      apply a2.frame
      intro j hj e
      exact hm (List.mem_map.mpr ⟨j, by simpa using hj, e.symm⟩)

/-! ## `foreground_pgid` on return from `process_command` -/

theorem handle_sigint_pgid (s : Sh) (h : s.foreground_pgid = 0) :
    (handle_sigint s).foreground_pgid = 0 := by
  simp [handle_sigint, h, Sh.emit]

theorem handle_sigint_iterate_pgid (n : Nat) : ∀ s : Sh, s.foreground_pgid = 0 →
    (handle_sigint^[n] s).foreground_pgid = 0 := by
  induction n with
  | zero => intro s h; exact h
  | succ n ih =>
    intro s h
    rw [Function.iterate_succ_apply]
    exact ih _ (handle_sigint_pgid s h)

theorem poll_pgid (w : World) (s : Sh) (h : s.foreground_pgid = 0) :
    (poll w s).foreground_pgid = 0 :=
  handle_sigint_iterate_pgid _ _ h

theorem show_history_loop_pgid (fuel : Nat) : ∀ (i : Nat) (s s1 : Sh),
    show_history_loop fuel i s = .ok s1 → s1.foreground_pgid = s.foreground_pgid := by
  induction fuel with
  | zero => intro i s s1 h; cases h; rfl
  | succ fuel ih =>
    intro i s s1 h
    unfold show_history_loop at h
    split at h
    · split at h
      · cases h
      · rw [ih _ _ _ h]; rfl
    · cases h; rfl

theorem make_pipes_pgid (w : World) (fuel : Nat) : ∀ (i : Nat) (s : Sh) (pipefd : List Nat)
    (r : Sh × List Nat), s.foreground_pgid = 0 → make_pipes w fuel i s pipefd = .ok r →
    r.1.foreground_pgid = 0 := by
  induction fuel with
  | zero => intro i s pipefd r h0 h; cases h; exact h0
  | succ fuel ih =>
    intro i s pipefd r h0 h
    unfold make_pipes at h
    simp only [] at h
    split at h
    · split at h
      · exact ih _ _ _ r (by simpa [Sh.emit] using poll_pgid w s h0) h
      · cases h
    · cases h

theorem spawn_stages_pgid (w : World) (b : Buf) (commands : List Nat) (num_cmds : Nat)
    (pipefd : List Nat) (fuel : Nat) : ∀ (i : Nat) (s : Sh) (pids : List Int)
    (r : Sh × List Int), s.foreground_pgid = 0 →
    spawn_stages w b commands num_cmds pipefd fuel i s pids = .ok r →
    r.1.foreground_pgid = 0 := by
  induction fuel with
  | zero => intro i s pids r h0 h; cases h; exact h0
  | succ fuel ih =>
    intro i s pids r h0 h
    unfold spawn_stages at h
    simp only [] at h
    split at h
    · split at h
      · cases h
      · refine ih _ _ _ r ?_ h
        simp only [Sh.emit]
        apply poll_pgid
        unfold do_fork
        simp only []
        split <;> simpa [Sh.emit] using poll_pgid w s h0
    · cases h

theorem close_pipes_pgid (w : World) (pipefd : List Nat) (fuel : Nat) : ∀ (j : Nat) (s : Sh),
    s.foreground_pgid = 0 → (close_pipes w pipefd fuel j s).foreground_pgid = 0 := by
  induction fuel with
  | zero => intro j s h; exact h
  | succ fuel ih =>
    intro j s h
    unfold close_pipes
    exact ih _ _ (by simpa [Sh.emit] using poll_pgid w s h)

theorem wait_stages_pgid (w : World) (pids : List Int) (fuel : Nat) : ∀ (i : Nat) (s : Sh),
    s.foreground_pgid = 0 → (wait_stages w pids fuel i s).foreground_pgid = 0 := by
  induction fuel with
  | zero => intro i s h; exact h
  | succ fuel ih =>
    intro i s h
    unfold wait_stages
    exact ih _ _ (poll_pgid w _ (by simpa [Sh.emit] using poll_pgid w s h))

theorem execute_pipeline_pgid (w : World) (s : Sh) (b : Buf) (commands : List Nat) (n : Nat)
    (s1 : Sh) (h0 : s.foreground_pgid = 0) (h : execute_pipeline w s b commands n = .ok s1) :
    s1.foreground_pgid = 0 := by
  unfold execute_pipeline at h
  simp only [bind, Except.bind] at h
  split at h
  · cases h
  · rename_i r1 hr1
    have g1 := make_pipes_pgid w _ _ _ _ r1 h0 hr1
    split at h
    · cases h
    · rename_i r2 hr2
      have g2 := spawn_stages_pgid w b commands n _ _ _ _ _ r2 g1 hr2
      cases h
      exact wait_stages_pgid w _ _ _ _ (close_pipes_pgid w _ _ _ _ g2)

theorem foreground_wait_pgid (w : World) (s : Sh) (pid : Int) :
    (foreground_wait w s pid).foreground_pgid = 0 := by
  unfold foreground_wait
  exact poll_pgid w _ rfl

/-- Whenever a call of `process_command` entered with `foreground_pgid = 0`
returns, `foreground_pgid` is 0 again, whatever signals arrived. -/
theorem process_command_pgid (w : World) (fuel : Nat) : ∀ (s : Sh) (b : Buf) (command : Nat)
    (r : Sh × Buf), s.foreground_pgid = 0 → process_command w fuel s b command = .ok r →
    r.1.foreground_pgid = 0 := by
  induction fuel with
  | zero => intro s b command r _ h; cases h
  | succ fuel ih =>
    intro s b command r h0 h
    have hp := poll_pgid w s h0
    unfold process_command at h
    simp only [] at h
    split at h
    · cases h
    · split at h
      · rename_i s1 hs1
        cases h
        unfold show_history at hs1
        rw [show_history_loop_pgid _ _ _ _ hs1]
        exact hp
      · cases h
    · cases h; exact hp
    · split at h
      · rename_i s1 hs1
        cases h
        exact execute_pipeline_pgid w _ _ _ _ s1 hp hs1
      · cases h
    · split at h
      · rename_i s1 b1 hs1
        have g1 := ih _ _ _ (s1, b1) hp hs1
        simp only [] at g1 h
        split at h
        · exact ih _ _ _ r (poll_pgid w s1 g1) h
        · cases h
          exact poll_pgid w s1 g1
      · cases h
    · cases h
      exact foreground_wait_pgid w _ _
    · cases h
      exact foreground_wait_pgid w _ _

/-- The test of line 159 always passes: when the call for the left operand
of `&&` returns, the right operand is processed, whatever signals arrived
while the left operand ran. -/
theorem and_list_guard_always_passes (w : World) (fuel : Nat) (s : Sh) (b : Buf)
    (command : Nat) (b1 : Buf) (first_cmd second_cmd : Nat) (s1 : Sh) (b2 : Buf)
    (h0 : s.foreground_pgid = 0)
    (hd : dispatch b command = (b1, .and_list first_cmd second_cmd))
    (h1 : process_command w fuel (poll w s) b1 first_cmd = .ok (s1, b2)) :
    process_command w (fuel + 1) s b command
      = process_command w fuel (poll w s1) b2 second_cmd := by
  have g1 := process_command_pgid w fuel _ _ _ (s1, b2) (poll_pgid w s h0) h1
  have g2 := poll_pgid w s1 g1
  conv_lhs => unfold process_command
  simp only [hd, h1, g2, if_true]

/-! ## Runs of `process_command` on single statements -/

/-- C2. The statement `sleep 9 && echo hi`, with one SIGINT delivered while
the shell is blocked in the `waitpid` of `sleep 9` (point 6): the handler
kills the group of `sleep 9`, and `process_command` goes on to run `echo hi`,
because `foreground_pgid` is 0 when line 159 tests it. -/
theorem and_list_runs_right_operand_after_interrupt :
    returned_log (process_command (World.interrupt_at 6) 3 Sh.init
        "sleep 9 && echo hi".toList 0)
      = some [
          .fork_ok 100 ⟨[.setpgid_self,
              .execvp (some "sleep".toList) [some "sleep".toList, some "9".toList, none]],
            Sh.init.fdt⟩,
          .sigttou_ignore, .tcsetpgrp 100, .waitpid 100,
          .kill_group 100, .write_stdout ['\n'],
          .tcsetpgrp_shell, .sigttou_default,
          .fork_ok 101 ⟨[.setpgid_self,
              .execvp (some "echo".toList) [some "echo".toList, some "hi".toList, none]],
            Sh.init.fdt⟩,
          .sigttou_ignore, .tcsetpgrp 101, .waitpid 101,
          .tcsetpgrp_shell, .sigttou_default] := by
  decide

/-- C5. The pipeline `sleep 9 | cat`, with one SIGINT delivered while the
shell is blocked in the `waitpid` of the first stage (point 9):
`execute_pipeline` never assigns `foreground_pgid` and never calls
`tcsetpgrp`, so the handler sends no signal; it only writes the newline. -/
theorem pipeline_interrupt_kills_nothing :
    returned_log (process_command (World.interrupt_at 9) 1 Sh.init
        "sleep 9 | cat".toList 0)
      = some [
          .pipe_ok 0 3 4,
          .fork_ok 100 ⟨[.setpgid_self, .dup2 4 1, .close 4, .close 3, .close 4,
              .execvp (some "sleep".toList) [some "sleep".toList, some "9".toList, none]],
            [some (.inherited 0), some (.pipe_write 0), some (.inherited 2), none, none]⟩,
          .setpgid 100 100,
          .fork_ok 101 ⟨[.setpgid_self, .dup2 3 0, .close 3, .close 3, .close 4,
              .execvp (some "cat".toList) [some "cat".toList, none]],
            [some (.pipe_read 0), some (.inherited 1), some (.inherited 2), none, none]⟩,
          .setpgid 101 100,
          .close 3, .close 4,
          .waitpid 100, .write_stdout ['\n'], .waitpid 101] := by
  decide

/-- C8. The statement `> out.txt`: the command part is empty, and the child
of the redirection path calls `execvp` with a NULL file name (there is no
test of `args[0]` on that path); the diagnostic is the one of `perror`. -/
theorem redirect_of_empty_command_execs_null :
    returned_log (process_command World.calm 1 Sh.init "> out.txt".toList 0)
      = some [
          .fork_ok 100 ⟨[.setpgid_self, .open_ok "out.txt".toList .trunc 3, .dup2 3 1,
              .close 3, .execvp none [none], .perror "execvp".toList, .exit 1],
            [some (.inherited 0), some (.file "out.txt".toList), some (.inherited 2), none]⟩,
          .sigttou_ignore, .tcsetpgrp 100, .waitpid 100,
          .tcsetpgrp_shell, .sigttou_default] := by
  decide

/-- C10. The plain statement `ls` when `fork` fails: `process_command`
returns (the shell goes on), after storing `-1` in `foreground_pgid`, handing
the terminal to group `-1` and waiting on pid `-1`. -/
theorem plain_command_survives_fork_failure :
    returned_log (process_command World.no_fork 1 Sh.init "ls".toList 0)
      = some [.fork_failed, .sigttou_ignore, .tcsetpgrp (-1), .waitpid (-1),
          .tcsetpgrp_shell, .sigttou_default] := by
  decide

/-- Witness of C1: the statement `ls | wc` is run as the pipeline of `ls`
and `wc`. -/
theorem dispatch_spec_witness :
    ∃ cmds, (dispatch "ls | wc".toList 0).2 = .pipeline cmds
      ∧ cmds.map (cstr (dispatch "ls | wc".toList 0).1)
          = (pipe_parts (cstr "ls | wc".toList (skip_space "ls | wc".toList 0))).take MAX_PIPES :=
  (dispatch_spec "ls | wc".toList 0 (by decide) (by decide) (by decide)).1
    (by decide) (by decide)

/-- Counterexample to C1 as stated: the statement `a|b|c|d|e|f|g|h|i|j|k`
splits into eleven non-empty parts, and the pipeline that is run is made of
the first ten only, not of exactly those parts. -/
theorem dispatch_eleven_parts :
    pipe_parts "a|b|c|d|e|f|g|h|i|j|k".toList
        = ["a", "b", "c", "d", "e", "f", "g", "h", "i", "j", "k"].map String.toList
      ∧ (dispatch "a|b|c|d|e|f|g|h|i|j|k".toList 0).2
        = .pipeline [0, 2, 4, 6, 8, 10, 12, 14, 16, 18]
      ∧ [0, 2, 4, 6, 8, 10, 12, 14, 16, 18].map
          (cstr (dispatch "a|b|c|d|e|f|g|h|i|j|k".toList 0).1)
        = ["a", "b", "c", "d", "e", "f", "g", "h", "i", "j"].map String.toList
      ∧ [0, 2, 4, 6, 8, 10, 12, 14, 16, 18].map
          (cstr (dispatch "a|b|c|d|e|f|g|h|i|j|k".toList 0).1)
        ≠ pipe_parts "a|b|c|d|e|f|g|h|i|j|k".toList := by
  decide

/-- C3. After the 101 lines `ls` (100 times) and `history`, `show_history`
starts at index 1 and reads `history[100]`, one slot past the array. -/
theorem show_history_after_101_lines :
    show_history (record_all (List.replicate 100 "ls".toList ++ ["history".toList]))
      = .error (.out_of_bounds 100) := by
  have h := show_history_overflow
    (List.replicate 100 "ls".toList ++ ["history".toList]) (by decide) (by decide)
  rw [h]
  rfl

/-- C6. `handle_sigint` with a foreground group `g > 0`: it sends SIGKILL
to group `g`, sets `foreground_pgid` to 0 and `interrupted` to 1 and writes
one newline; with `foreground_pgid = 0`: it sets `interrupted` to 1 and
writes one newline; nothing else changes in either case. -/
theorem handle_sigint_spec (s : Sh) :
    (0 < s.foreground_pgid →
        handle_sigint s = { s with
          foreground_pgid := 0
          interrupted := 1
          log := s.log ++ [.kill_group s.foreground_pgid, .write_stdout ['\n']] })
      ∧ (s.foreground_pgid = 0 →
        handle_sigint s = { s with
          interrupted := 1
          log := s.log ++ [.write_stdout ['\n']] }) := by
  constructor
  · intro h
    simp [handle_sigint, h, Sh.emit]
  · intro h
    simp [handle_sigint, h, Sh.emit]

/-- Witness of C6: the handler in the initial state with group 42 in the
foreground, and in the initial state itself. -/
theorem handle_sigint_spec_witness :
    handle_sigint { Sh.init with foreground_pgid := 42 }
        = { Sh.init with
            foreground_pgid := 0
            interrupted := 1
            log := [.kill_group 42, .write_stdout ['\n']] }
      ∧ handle_sigint Sh.init
        = { Sh.init with interrupted := 1, log := [.write_stdout ['\n']] } :=
  ⟨(handle_sigint_spec { Sh.init with foreground_pgid := 42 }).1 (by decide),
    (handle_sigint_spec Sh.init).2 rfl⟩

/-- C7 (amended). The vector `split_args` builds is made of the first
`MAX_ARGS - 1` maximal runs of characters other than space and tab, in
order, followed by one NULL; no argument is empty, none holds a space or a
tab, and when the string has at most `MAX_ARGS - 1` runs the arguments
concatenated are the string without its spaces and tabs. -/
theorem split_args_spec (b : Buf) (cmd : Nat) :
    split_args b cmd
        = ((tokens arg_delim (cstr b cmd)).take (MAX_ARGS - 1)).map some ++ [none]
      ∧ (∀ a, a ∈ (tokens arg_delim (cstr b cmd)).take (MAX_ARGS - 1) →
          a ≠ [] ∧ ∀ c ∈ a, c ≠ ' ' ∧ c ≠ '\t')
      ∧ ((tokens arg_delim (cstr b cmd)).length ≤ MAX_ARGS - 1 →
          ((tokens arg_delim (cstr b cmd)).take (MAX_ARGS - 1)).flatten
            = (cstr b cmd).filter (fun c => c ≠ ' ' ∧ c ≠ '\t')) := by
  obtain ⟨p1, p2⟩ := tokens_props arg_delim (cstr b cmd)
  refine ⟨split_args_eq b cmd, ?_, ?_⟩
  · intro a ha
    obtain ⟨h1, h2⟩ := p1 a (List.mem_of_mem_take ha)
    refine ⟨h1, fun c hc => ?_⟩
    have := h2 c hc
    simp only [arg_delim, List.contains_cons, List.contains_nil, Bool.or_false,
      Bool.or_eq_false_iff, beq_eq_false_iff_ne, ne_eq] at this
    exact this
  · intro hlen
    rw [List.take_of_length_le hlen, p2]
    apply List.filter_congr
    intro c _
    simp [arg_delim]

/-- Counterexample to C7 as stated: the only argument of the command string
`a\rb` is `a\rb`, which holds the whitespace character `\r`. -/
theorem split_args_keeps_carriage_return :
    split_args "a\rb".toList 0 = [some "a\rb".toList, none]
      ∧ ¬ (∀ a, some a ∈ split_args "a\rb".toList 0 → ∀ c ∈ a, isspace c = false) := by
  refine ⟨by decide, fun h => ?_⟩
  have := h "a\rb".toList (by decide) '\r' (by decide)
  revert this
  decide

/-- Witness of C9: the pipeline `ls | wc` in the initial state, in a world
where every call succeeds. -/
theorem execute_pipeline_wiring_witness :
    ∃ (s1 : Sh) (t : FdTable) (pipefd : List Nat) (pids : List Int),
      execute_pipeline World.calm Sh.init (dispatch "ls | wc".toList 0).1 [0, 5] 2
          = .ok (wait_stages World.calm pids 2 0 s1)
        ∧ Piped Sh.init.fdt 0 1 t pipefd
        ∧ main_flow (wait_stages World.calm pids 2 0 s1).log
            = main_flow []
              ++ pipe_events 0 pipefd 0 1
              ++ spawn_events World.calm 0
                  (stage_child World.calm t (dispatch "ls | wc".toList 0).1 [0, 5] 2 pipefd) 0 2
              ++ (List.range 2).map (fun j => Event.close (pipefd.getD j 0))
              ++ (List.range 2).map (fun i => Event.waitpid (World.calm.fork (0 + i)))
        ∧ (∀ i, i < 2 →
            fd_get (stage_child World.calm t (dispatch "ls | wc".toList 0).1 [0, 5] 2 pipefd
                i).fdt 0
                = (if 0 < i then some (.pipe_read (0 + (i - 1))) else fd_get Sh.init.fdt 0)
              ∧ fd_get (stage_child World.calm t (dispatch "ls | wc".toList 0).1 [0, 5] 2 pipefd
                  i).fdt 1
                = (if i < 1 then some (.pipe_write (0 + i)) else fd_get Sh.init.fdt 1)
              ∧ ∀ fd, 2 ≤ fd →
                  fd_get (stage_child World.calm t (dispatch "ls | wc".toList 0).1 [0, 5] 2
                      pipefd i).fdt fd = none
                    ∨ fd_get (stage_child World.calm t (dispatch "ls | wc".toList 0).1 [0, 5] 2
                        pipefd i).fdt fd = fd_get Sh.init.fdt fd)
        ∧ ∀ fd, fd_get s1.fdt fd = fd_get Sh.init.fdt fd :=
  execute_pipeline_wiring World.calm Sh.init (dispatch "ls | wc".toList 0).1 [0, 5]
    (by decide) (by decide) (fun _ _ => rfl) (fun k _ => by simp [World.calm])
    (by decide) (by decide)

/-- Counterexample to C9 as stated: the pipeline `ls | wc` in a shell whose
descriptor 1 is closed. `pipe` returns the descriptors 1 and 3; stage 0
makes the write end its descriptor 1 and then closes `pipefd[0]`, which is
descriptor 1: at program replacement the standard output of `ls` is closed,
not the write end of the pipe. -/
theorem pipeline_stage_closes_own_stdout :
    returned_log (process_command World.calm 1 Sh.stdout_closed "ls | wc".toList 0)
      = some [
          .pipe_ok 0 1 3,
          .fork_ok 100 ⟨[.setpgid_self, .dup2 3 1, .close 3, .close 1, .close 3,
              .execvp (some "ls".toList) [some "ls".toList, none]],
            [some (.inherited 0), none, some (.inherited 2), none]⟩,
          .setpgid 100 100,
          .fork_ok 101 ⟨[.setpgid_self, .dup2 1 0, .close 1, .close 1, .close 3,
              .execvp (some "wc".toList) [some "wc".toList, none]],
            [some (.pipe_read 0), none, some (.inherited 2), none]⟩,
          .setpgid 101 100,
          .close 1, .close 3,
          .waitpid 100, .waitpid 101] := by
  decide

/-! ## The built-ins -/

theorem show_history_loop_prints (fuel : Nat) : ∀ (i : Nat) (s s1 : Sh),
    show_history_loop fuel i s = .ok s1 →
    s1.nfork = s.nfork ∧ s1.npipe = s.npipe ∧
    ∃ evs, s1.log = s.log ++ evs ∧ ∀ e ∈ evs, ∃ k t, e = Event.printf_history k t := by
  induction fuel with
  | zero =>
    intro i s s1 h
    cases h
    exact ⟨rfl, rfl, [], by simp, by simp⟩
  | succ fuel ih =>
    intro i s s1 h
    unfold show_history_loop at h
    split at h
    · split at h
      · cases h
      · rename_i text _
        obtain ⟨h1, h2, evs, h3, h4⟩ := ih _ _ _ h
        refine ⟨h1, h2, Event.printf_history (i + 1) text :: evs, ?_, ?_⟩
        · rw [h3]; simp [Sh.emit]
        · intro e he
          rcases List.mem_cons.mp he with rfl | he
          · exact ⟨_, _, rfl⟩
          · exact h4 e he
    · cases h
      exact ⟨rfl, rfl, [], by simp, by simp⟩

/-- What `show_history` does when it returns: it prints, and calls neither
`fork` nor `pipe`. -/
theorem show_history_prints (s s1 : Sh) (h : show_history s = .ok s1) :
    s1.nfork = s.nfork ∧ s1.npipe = s.npipe ∧
    ∃ evs, s1.log = s.log ++ evs ∧ ∀ e ∈ evs, ∃ k t, e = Event.printf_history k t :=
  show_history_loop_prints _ _ _ _ h

/-- The decision is a built-in only by the first two tests of `dispatch`. -/
theorem dispatch_builtin (b : Buf) (command : Nat) :
    ((dispatch b command).2 = .exit_builtin ↔
      cstr b (skip_space b command) = "exit".toList) ∧
    ((dispatch b command).2 = .history_builtin ↔
      cstr b (skip_space b command) = "history".toList) := by
  by_cases hexit : cstr b (skip_space b command) = "exit".toList
  · have hne : cstr b (skip_space b command) ≠ "history".toList := by
      rw [hexit]; decide
    unfold dispatch
    simp only [hexit, if_true, true_iff, iff_true]
    exact ⟨trivial, by decide⟩
  · by_cases hhist : cstr b (skip_space b command) = "history".toList
    · have hx : ¬ ("history".toList = "exit".toList) := by decide
      unfold dispatch
      simp only [hhist, hx, if_true, if_false, iff_true, iff_false]
      exact ⟨by simp, trivial⟩
    · unfold dispatch
      simp only [hexit, hhist, if_false, iff_false]
      constructor <;>
      · (repeat' split) <;> simp

/-- C11 (amended). A statement is the built-in `exit` exactly when the
string left after skipping its leading whitespace equals `exit`, and the
built-in `history` exactly when that string equals `history`; what follows
the word, whitespace included, is compared too. For `exit` the call ends the
shell with status 0. For `history` the call is `show_history` and nothing
else: the statement buffer is left as it is, and a call that returns has only
printed history lines, without any `fork` or `pipe`. -/
theorem builtin_spec (b : Buf) (command : Nat) :
    ((dispatch b command).2 = .exit_builtin ↔
      cstr b (skip_space b command) = "exit".toList) ∧
    ((dispatch b command).2 = .history_builtin ↔
      cstr b (skip_space b command) = "history".toList) ∧
    (cstr b (skip_space b command) = "exit".toList → ∀ (w : World) (fuel : Nat) (s : Sh),
      process_command w (fuel + 1) s b command = .error (.exited (poll w s) 0)) ∧
    (cstr b (skip_space b command) = "history".toList → ∀ (w : World) (fuel : Nat) (s : Sh),
      (process_command w (fuel + 1) s b command =
        match show_history (poll w s) with
        | .ok s1 => .ok (s1, b)
        | .error f => .error (.fault (poll w s) f)) ∧
      ∀ s1 b1, process_command w (fuel + 1) s b command = .ok (s1, b1) →
        b1 = b ∧ s1.nfork = s.nfork ∧ s1.npipe = s.npipe ∧
        ∃ evs, s1.log = (poll w s).log ++ evs ∧
          ∀ e ∈ evs, ∃ k t, e = Event.printf_history k t) := by
  refine ⟨(dispatch_builtin b command).1, (dispatch_builtin b command).2, ?_, ?_⟩
  · intro h w fuel s
    have hd : dispatch b command = (b, .exit_builtin) := by
      unfold dispatch
      simp only [h, if_true]
    unfold process_command
    simp only [hd]
  · intro h w fuel s
    have hx : ¬ ("history".toList = "exit".toList) := by decide
    have hd : dispatch b command = (b, .history_builtin) := by
      unfold dispatch
      simp only [h, hx, if_true, if_false]
    have hrun : process_command w (fuel + 1) s b command =
        match show_history (poll w s) with
        | .ok s1 => .ok (s1, b)
        | .error f => .error (.fault (poll w s) f) := by
      conv_lhs => unfold process_command
      simp only [hd]
    refine ⟨hrun, ?_⟩
    intro s1 b1 hok
    rw [hrun] at hok
    split at hok
    · rename_i s2 hs2
      cases hok
      obtain ⟨h1, h2, h3⟩ := show_history_prints _ _ hs2
      obtain ⟨_, p2, p3, _⟩ := poll_frame w s
      exact ⟨rfl, h1.trans p3, h2.trans p2, h3⟩
    · cases hok

/-- Counterexample to C11 as stated: the statement `exit` followed by one
blank. Without its leading and trailing whitespace it equals `exit`, but
`process_command` takes it for a plain command: a child is created that
calls `execvp` on `exit`, and the call returns to the read loop. -/
theorem exit_with_trailing_blank_is_plain :
    trim "exit ".toList = "exit".toList ∧
    (dispatch "exit ".toList 0).2 = .plain 0 ∧
    returned_log (process_command World.calm 1 Sh.init "exit ".toList 0)
      = some [
          .fork_ok 100 ⟨[.setpgid_self,
              .execvp (some "exit".toList) [some "exit".toList, none]],
            Sh.init.fdt⟩,
          .sigttou_ignore, .tcsetpgrp 100, .waitpid 100,
          .tcsetpgrp_shell, .sigttou_default] := by
  decide

/-! ## The read loop -/

theorem read_loop_pgid (w : World) (s : Sh) (h : ReadLoop w s) : s.foreground_pgid = 0 := by
  induction h with
  | start => rfl
  | signal s _ ih => exact handle_sigint_pgid s ih
  | reset s _ ih => exact ih
  | record s line _ ih =>
    unfold add_to_history
    split <;> exact ih
  | returned s fuel b command s1 b1 _ hret ih =>
    exact process_command_pgid w fuel s b command (s1, b1) ih hret

/-- C15. In every state the read loop of `main` can be in, whatever signals
arrived and whatever the operating system answered, a call of
`process_command` that returns leaves `foreground_pgid` at 0: this holds for
every statement, so for the built-in, empty, pipeline, `&&`, redirection and
plain paths alike. -/
theorem process_command_returns_with_pgid_zero (w : World) (s : Sh) (hs : ReadLoop w s)
    (fuel : Nat) (b : Buf) (command : Nat) (s1 : Sh) (b1 : Buf)
    (hret : process_command w fuel s b command = .ok (s1, b1)) :
    s1.foreground_pgid = 0 :=
  read_loop_pgid w s1 (ReadLoop.returned s fuel b command s1 b1 hs hret)

/-- Witness of C15: the statement `sleep 9 && ls`, run at program start with
one SIGINT delivered while the shell waits for `sleep 9`, returns with
`foreground_pgid = 0`. -/
theorem process_command_returns_with_pgid_zero_witness :
    ∃ r, process_command (World.interrupt_at 6) 3 Sh.init "sleep 9 && ls".toList 0 = .ok r
      ∧ r.1.foreground_pgid = 0 :=
  match h : process_command (World.interrupt_at 6) 3 Sh.init "sleep 9 && ls".toList 0 with
  | .ok (s1, b1) =>
    ⟨(s1, b1), rfl, process_command_returns_with_pgid_zero (World.interrupt_at 6) Sh.init
      ReadLoop.start 3 "sleep 9 && ls".toList 0 s1 b1 h⟩
  | .error e => by
    have h2 : returned_log
        (process_command (World.interrupt_at 6) 3 Sh.init "sleep 9 && ls".toList 0) ≠ none := by
      decide
    rw [h] at h2
    exact absurd rfl h2

/-! ## The number of stages of a pipeline -/

/-- A decision for a pipeline comes from the scan of line 126, with two
stored commands or more. -/
theorem dispatch_pipeline (b : Buf) (command : Nat) (cmds : List Nat)
    (h : (dispatch b command).2 = .pipeline cmds) :
    '|' ∈ cstr b (skip_space b command) ∧ cmds = (pipe_scan b (skip_space b command)).2 ∧
    (dispatch b command).1 = (pipe_scan b (skip_space b command)).1 ∧ 1 < cmds.length := by
  by_cases hexit : cstr b (skip_space b command) = "exit".toList
  · rw [(dispatch_builtin b command).1.mpr hexit] at h
    cases h
  by_cases hhist : cstr b (skip_space b command) = "history".toList
  · rw [(dispatch_builtin b command).2.mpr hhist] at h
    cases h
  by_cases hnul : peek b (skip_space b command) = NUL
  · exfalso
    revert h
    unfold dispatch
    simp only [hexit, hhist, hnul, if_true, if_false]
    intro h
    cases h
  by_cases hbar : (strchr (cstr b (skip_space b command)) '|').isSome = true
  · by_cases hlen : 1 < (pipe_scan b (skip_space b command)).2.length
    · have hd : dispatch b command = ((pipe_scan b (skip_space b command)).1,
          .pipeline (pipe_scan b (skip_space b command)).2) := by
        unfold dispatch
        simp only [hexit, hhist, hnul, hbar, hlen, if_true, if_false]
      rw [hd] at h ⊢
      simp only [Decision.pipeline.injEq] at h
      subst h
      exact ⟨(strchr_isSome_iff _ _).mp hbar, rfl, rfl, hlen⟩
    · exfalso
      revert h
      unfold dispatch
      simp only [hexit, hhist, hnul, hbar, hlen, if_true, if_false]
      (repeat' split) <;> simp
  · exfalso
    revert h
    have hbar2 : (strchr (cstr b (skip_space b command)) '|').isSome = false := by
      simpa using hbar
    unfold dispatch
    simp only [hexit, hhist, hnul, hbar2, Bool.false_eq_true, if_false, List.length_nil,
      Nat.not_lt_zero]
    (repeat' split) <;> simp

theorem make_pipes_no_fault (w : World) (fuel : Nat) : ∀ (i : Nat) (s : Sh) (pipefd : List Nat),
    pipefd.length = 2 * MAX_PIPES → i + fuel ≤ MAX_PIPES →
    (∀ s1 f, make_pipes w fuel i s pipefd ≠ .error (.fault s1 f)) ∧
    ∀ r, make_pipes w fuel i s pipefd = .ok r → r.2.length = 2 * MAX_PIPES := by
  induction fuel with
  | zero =>
    intro i s pipefd hlen _
    exact ⟨fun s1 f h => (by cases h), fun r h => (by cases h; exact hlen)⟩
  | succ fuel ih =>
    intro i s pipefd hlen hi
    unfold make_pipes
    simp only []
    rw [if_pos (by omega)]
    split
    · exact ih _ _ _ (by simp [hlen]) (by omega)
    · exact ⟨fun s1 f h => (by cases h), fun r h => (by cases h)⟩

theorem spawn_stages_no_fault (w : World) (b : Buf) (commands : List Nat) (num_cmds : Nat)
    (pipefd : List Nat) (fuel : Nat) : ∀ (i : Nat) (s : Sh) (pids : List Int),
    pids.length = MAX_PIPES → i + fuel ≤ MAX_PIPES →
    ∀ s1 f, spawn_stages w b commands num_cmds pipefd fuel i s pids ≠ .error (.fault s1 f) := by
  induction fuel with
  | zero =>
    intro i s pids _ _ s1 f h
    cases h
  | succ fuel ih =>
    intro i s pids hlen hi
    unfold spawn_stages
    simp only []
    rw [if_pos (by omega)]
    split
    · intro s1 f h
      cases h
    · exact ih _ _ _ (by simp [hlen]) (by omega)

/-- With at most `MAX_PIPES` stages, no loop of `execute_pipeline` indexes
`pipefd` or `pids` outside the array. -/
theorem execute_pipeline_no_fault (w : World) (s : Sh) (b : Buf) (commands : List Nat)
    (n : Nat) (hn : n ≤ MAX_PIPES) (s1 : Sh) (f : Fault) :
    execute_pipeline w s b commands n ≠ .error (.fault s1 f) := by
  unfold execute_pipeline
  simp only [bind, Except.bind]
  obtain ⟨g1, g2⟩ := make_pipes_no_fault w (n - 1) 0 s (List.replicate (2 * MAX_PIPES) 0)
    (by simp) (by omega)
  split
  · rename_i e he
    intro h
    cases h
    exact g1 _ _ he
  · rename_i r1 hr1
    split
    · rename_i e he
      intro h
      cases h
      exact spawn_stages_no_fault w b commands n _ n 0 _ _ (by simp) (by omega) _ _ he
    · intro h
      cases h

/-- C20. Whenever `process_command` decides for a pipeline, the number of
stages handed to `execute_pipeline` is at least 2 and at most `MAX_PIPES`:
the stages are the first `MAX_PIPES` non-empty trimmed parts of the statement
and later parts are dropped. So `execute_pipeline` never indexes `pipefd` or
`pids` outside their bounds, whatever the operating system answers, and every
index a stage uses is inside `cmds` (`MAX_PIPES + 1` slots), `pids`
(`MAX_PIPES` slots) and `pipefd` (`2 * MAX_PIPES` slots). -/
theorem pipeline_stage_count (b : Buf) (command : Nat) (cmds : List Nat)
    (h : (dispatch b command).2 = .pipeline cmds) :
    2 ≤ cmds.length ∧ cmds.length ≤ MAX_PIPES ∧
    cmds.map (cstr (dispatch b command).1)
      = (pipe_parts (cstr b (skip_space b command))).take MAX_PIPES ∧
    (∀ (w : World) (s s1 : Sh) (f : Fault),
      execute_pipeline w s (dispatch b command).1 cmds cmds.length ≠ .error (.fault s1 f)) ∧
    ∀ i, i < cmds.length →
      i < MAX_PIPES + 1 ∧ i < MAX_PIPES ∧
      (0 < i → 2 * (i - 1) < 2 * MAX_PIPES) ∧
      (i < cmds.length - 1 → 2 * i + 1 < 2 * MAX_PIPES) ∧
      ∀ j, j < 2 * (cmds.length - 1) → j < 2 * MAX_PIPES := by
  obtain ⟨_, hc, hb, hlen⟩ := dispatch_pipeline b command cmds h
  have hspec := pipe_scan_spec b (skip_space b command)
  rw [← hc, ← hb] at hspec
  have hle : cmds.length ≤ MAX_PIPES := by
    have := congrArg List.length hspec
    rw [List.length_map, List.length_take] at this
    omega
  refine ⟨hlen, hle, hspec, fun w s s1 f => execute_pipeline_no_fault w s _ cmds _ hle s1 f, ?_⟩
  intro i hi
  refine ⟨by omega, by omega, fun _ => by omega, fun _ => by omega, fun j hj => by omega⟩

/-- Witness of C20: the statement `ls | wc` is a pipeline of two stages. -/
theorem pipeline_stage_count_witness :
    2 ≤ [0, 5].length ∧ [0, 5].length ≤ MAX_PIPES ∧
    [0, 5].map (cstr (dispatch "ls | wc".toList 0).1)
      = (pipe_parts (cstr "ls | wc".toList (skip_space "ls | wc".toList 0))).take MAX_PIPES :=
  ⟨(pipeline_stage_count "ls | wc".toList 0 [0, 5] (by decide)).1,
    (pipeline_stage_count "ls | wc".toList 0 [0, 5] (by decide)).2.1,
    (pipeline_stage_count "ls | wc".toList 0 [0, 5] (by decide)).2.2.1⟩

/-! ## What a scan leaves of a statement -/

theorem cstr_poke_shorter (b : Buf) (e p : Nat) : cstr (poke b e) p <+: cstr b p := by
  rcases Nat.lt_or_ge e p with h | h
  · rw [cstr_poke_lt b p e h]
  · obtain ⟨j, rfl⟩ : ∃ j, e = p + j := ⟨e - p, by omega⟩
    rw [cstr_poke_cut]
    exact List.take_prefix _ _

theorem cstr_pokes_shorter (es : List Nat) : ∀ (b : Buf) (p : Nat),
    cstr (es.foldl poke b) p <+: cstr b p := by
  induction es with
  | nil => intro b p; exact List.prefix_refl _
  | cons e es ih =>
    intro b p
    rw [List.foldl_cons]
    exact (ih (poke b e) p).trans (cstr_poke_shorter b e p)

theorem strtok_r_pokes (b : Buf) (s : Nat) (delim : List Char) :
    ∃ es : List Nat, (strtok_r b s delim).buf = es.foldl poke b := by
  obtain ⟨_, e, _, hbuf, _⟩ := strtok_r_state b s delim
  exact ⟨[e], hbuf⟩

/-- The pipeline scan changes the buffer only by writing NULs. -/
theorem pipe_loop_pokes (fuel : Nat) : ∀ (t : Tok) (cmds : List Nat),
    ∃ es : List Nat, (pipe_loop fuel t cmds).1 = es.foldl poke t.buf := by
  induction fuel with
  | zero => intro t cmds; exact ⟨[], rfl⟩
  | succ fuel ih =>
    intro t cmds
    unfold pipe_loop
    split
    · rename_i token _
      simp only []
      split
      · obtain ⟨es, hes⟩ := ih
          (strtok_r (poke t.buf (trim_end (strlen t.buf (skip_space t.buf token)) t.buf
            (skip_space t.buf token)
            (skip_space t.buf token + strlen t.buf (skip_space t.buf token)))) t.save ['|'])
          (if peek (poke t.buf (trim_end (strlen t.buf (skip_space t.buf token)) t.buf
            (skip_space t.buf token)
            (skip_space t.buf token + strlen t.buf (skip_space t.buf token))))
            (skip_space t.buf token) ≠ NUL then cmds ++ [skip_space t.buf token] else cmds)
        obtain ⟨es2, hes2⟩ := strtok_r_pokes (poke t.buf
          (trim_end (strlen t.buf (skip_space t.buf token)) t.buf (skip_space t.buf token)
            (skip_space t.buf token + strlen t.buf (skip_space t.buf token)))) t.save ['|']
        refine ⟨(trim_end (strlen t.buf (skip_space t.buf token)) t.buf
          (skip_space t.buf token)
          (skip_space t.buf token + strlen t.buf (skip_space t.buf token))) :: (es2 ++ es), ?_⟩
        rw [hes, hes2, List.foldl_cons, List.foldl_append]
      · exact ⟨[], rfl⟩
    · exact ⟨[], rfl⟩

theorem pipe_scan_shorter (b : Buf) (command p : Nat) :
    cstr (pipe_scan b command).1 p <+: cstr b p := by
  unfold pipe_scan
  obtain ⟨es, hes⟩ := pipe_loop_pokes (strlen b command) (strtok_r b command ['|']) []
  obtain ⟨es2, hes2⟩ := strtok_r_pokes b command ['|']
  rw [hes, hes2, ← List.foldl_append]
  exact cstr_pokes_shorter _ b p

/-! ## `strstr` and infixes -/

theorem strstr_eq_none_iff (s n : CStr) (hn : n ≠ []) : strstr s n = none ↔ ¬ n <:+: s := by
  induction s with
  | nil =>
    unfold strstr
    simp [hn]
  | cons x xs ih =>
    unfold strstr
    by_cases hp : n.isPrefixOf (x :: xs) = true
    · rw [if_pos hp]
      have := List.isPrefixOf_iff_prefix.mp hp
      simp only [reduceCtorEq, false_iff, not_not]
      exact this.isInfix
    · rw [if_neg hp]
      have hp2 : ¬ n <+: x :: xs := fun h => hp (List.isPrefixOf_iff_prefix.mpr h)
      rw [List.infix_cons_iff]
      constructor
      · intro h
        have : strstr xs n = none := by
          cases hs : strstr xs n with
          | none => rfl
          | some k => rw [hs] at h; cases h
        rintro (h1 | h1)
        · exact hp2 h1
        · exact ih.mp this h1
      · intro h
        have : strstr xs n = none := ih.mpr (fun h1 => h (Or.inr h1))
        rw [this]
        rfl

theorem strstr_none_of_shorter (s t n : CStr) (hn : n ≠ []) (hpre : t <+: s)
    (h : strstr s n = none) : strstr t n = none := by
  rw [strstr_eq_none_iff _ _ hn] at h ⊢
  exact fun h1 => h (h1.trans hpre.isInfix)

theorem strchr_none_of_shorter (s t : CStr) (c : Char) (hpre : t <+: s)
    (h : strchr s c = none) : strchr t c = none := by
  rw [strchr_eq_none_iff] at h ⊢
  exact fun h1 => h (hpre.subset h1)

theorem strstr_none_of_not_mem (s : CStr) (c : Char) (h : c ∉ s) :
    strstr s [c, c] = none := by
  rw [strstr_eq_none_iff _ _ (by simp)]
  intro hin
  exact h (hin.subset (by simp))

/-! ## The parent side of a foreground process -/

theorem do_fork_flow (w : World) (s : Sh) (child : Child) :
    (do_fork w s child).1.nfork = s.nfork + 1 ∧
    (do_fork w s child).1.npipe = s.npipe ∧
    (do_fork w s child).1.fdt = s.fdt ∧
    main_flow (do_fork w s child).1.log = main_flow s.log ++
      [if w.fork s.nfork = 0 then Event.fork_failed
        else Event.fork_ok (w.fork s.nfork) child] := by
  unfold do_fork
  simp only []
  split
  · refine ⟨rfl, rfl, rfl, ?_⟩
    rw [main_flow_emit]
    rfl
  · refine ⟨rfl, rfl, rfl, ?_⟩
    rw [main_flow_emit]
    rfl

theorem foreground_wait_flow (w : World) (s : Sh) (pid : Int) :
    (foreground_wait w s pid).nfork = s.nfork ∧
    (foreground_wait w s pid).npipe = s.npipe ∧
    (foreground_wait w s pid).fdt = s.fdt ∧
    main_flow (foreground_wait w s pid).log = main_flow s.log ++
      [.sigttou_ignore, .tcsetpgrp pid, .waitpid pid, .tcsetpgrp_shell, .sigttou_default] := by
  have hp : ∀ x : Sh, (poll w x).nfork = x.nfork ∧ (poll w x).npipe = x.npipe ∧
      (poll w x).fdt = x.fdt ∧ main_flow (poll w x).log = main_flow x.log := by
    intro x
    obtain ⟨a1, a2, a3, _, _, a6⟩ := poll_frame w x
    exact ⟨a3, a2, a1, a6⟩
  unfold foreground_wait
  simp only []
  refine ⟨?_, ?_, ?_, ?_⟩
  · simp only [(hp _).1, Sh.emit]
  · simp only [(hp _).2.1, Sh.emit]
  · simp only [(hp _).2.2.1, Sh.emit]
  · simp only [(hp _).2.2.2, main_flow_emit, Event.from_handler, Bool.false_eq_true, if_false,
      List.append_assoc, List.singleton_append, List.cons_append, List.nil_append]

theorem dispatch_of_bar (b : Buf) (command : Nat)
    (hbar : '|' ∈ cstr b (skip_space b command)) :
    dispatch b command =
      if 1 < (pipe_scan b (skip_space b command)).2.length then
        ((pipe_scan b (skip_space b command)).1,
          .pipeline (pipe_scan b (skip_space b command)).2)
      else operator_chain (pipe_scan b (skip_space b command)).1 (skip_space b command) := by
  have hexit : cstr b (skip_space b command) ≠ "exit".toList := by
    intro h; rw [h] at hbar; revert hbar; decide
  have hhist : cstr b (skip_space b command) ≠ "history".toList := by
    intro h; rw [h] at hbar; revert hbar; decide
  have hnul : ¬ peek b (skip_space b command) = NUL := by
    intro h
    rw [(cstr_eq_nil_iff _ _).mpr h] at hbar
    cases hbar
  have hsome : (strchr (cstr b (skip_space b command)) '|').isSome = true :=
    (strchr_isSome_iff _ _).mpr hbar
  unfold dispatch
  simp only [hexit, hhist, hnul, hsome, if_true, if_false]
  split
  · rfl
  · rfl

theorem operator_chain_plain (b : Buf) (command : Nat)
    (h1 : strstr (cstr b command) "&&".toList = none)
    (h2 : '>' ∉ cstr b command) (h3 : '<' ∉ cstr b command) :
    operator_chain b command = (b, .plain command) := by
  have h4 : strstr (cstr b command) ">>".toList = none := strstr_none_of_not_mem _ _ h2
  unfold operator_chain
  simp only [h1, h4, (strchr_eq_none_iff _ _).mpr h2, (strchr_eq_none_iff _ _).mpr h3]

/-- C16 (amended). A statement that contains `|` but gives fewer than two
non-empty trimmed parts is not run as a pipeline: `process_command` goes on
with the tests for `&&`, `>>`, `>` and `<` on what the scan left of the
statement, which is a prefix of it. When the statement holds no `&&`, no `>`
and no `<`, it is run as a single plain command: one call of `fork`, for a
child that executes the words of that prefix, then the wait for it. -/
theorem single_part_falls_through (b : Buf) (command : Nat)
    (hbar : '|' ∈ cstr b (skip_space b command))
    (hparts : (pipe_parts (cstr b (skip_space b command))).length < 2) :
    dispatch b command
      = operator_chain (pipe_scan b (skip_space b command)).1 (skip_space b command) ∧
    cstr (pipe_scan b (skip_space b command)).1 (skip_space b command)
      <+: cstr b (skip_space b command) ∧
    (strstr (cstr b (skip_space b command)) "&&".toList = none →
      '>' ∉ cstr b (skip_space b command) → '<' ∉ cstr b (skip_space b command) →
      dispatch b command
        = ((pipe_scan b (skip_space b command)).1, .plain (skip_space b command)) ∧
      ∀ (w : World) (fuel : Nat) (s : Sh), ∃ s1,
        process_command w (fuel + 1) s b command
          = .ok (s1, (pipe_scan b (skip_space b command)).1) ∧
        s1.nfork = s.nfork + 1 ∧ s1.npipe = s.npipe ∧
        main_flow s1.log = main_flow s.log ++
          [if w.fork s.nfork = 0 then Event.fork_failed
            else Event.fork_ok (w.fork s.nfork)
              (plain_child w s.fdt (pipe_scan b (skip_space b command)).1
                (skip_space b command)),
           .sigttou_ignore,
           .tcsetpgrp (if w.fork s.nfork = 0 then -1 else (w.fork s.nfork : Int)),
           .waitpid (if w.fork s.nfork = 0 then -1 else (w.fork s.nfork : Int)),
           .tcsetpgrp_shell, .sigttou_default]) := by
  have hlen : ¬ 1 < (pipe_scan b (skip_space b command)).2.length := by
    have := congrArg List.length (pipe_scan_spec b (skip_space b command))
    rw [List.length_map, List.length_take] at this
    omega
  have hd := dispatch_of_bar b command hbar
  rw [if_neg hlen] at hd
  have hpre := pipe_scan_shorter b (skip_space b command) (skip_space b command)
  refine ⟨hd, hpre, ?_⟩
  intro h1 h2 h3
  have hplain : dispatch b command
      = ((pipe_scan b (skip_space b command)).1, .plain (skip_space b command)) := by
    rw [hd]
    exact operator_chain_plain _ _ (strstr_none_of_shorter _ _ _ (by decide) hpre h1)
      (fun h => h2 (hpre.subset h)) (fun h => h3 (hpre.subset h))
  refine ⟨hplain, ?_⟩
  intro w fuel s
  obtain ⟨p1, p2, p3, _, _, p6⟩ := poll_frame w s
  obtain ⟨f1, f2, f3, f4⟩ := do_fork_flow w (poll w s)
    (plain_child w (poll w s).fdt (pipe_scan b (skip_space b command)).1 (skip_space b command))
  obtain ⟨g1, g2, _, g4⟩ := foreground_wait_flow w
    (do_fork w (poll w s) (plain_child w (poll w s).fdt
      (pipe_scan b (skip_space b command)).1 (skip_space b command))).1
    (do_fork w (poll w s) (plain_child w (poll w s).fdt
      (pipe_scan b (skip_space b command)).1 (skip_space b command))).2
  refine ⟨foreground_wait w
    (do_fork w (poll w s) (plain_child w (poll w s).fdt
      (pipe_scan b (skip_space b command)).1 (skip_space b command))).1
    (do_fork w (poll w s) (plain_child w (poll w s).fdt
      (pipe_scan b (skip_space b command)).1 (skip_space b command))).2, ?_, ?_, ?_, ?_⟩
  · conv_lhs => unfold process_command
    simp only [hplain]
  · rw [g1, f1, p3]
  · rw [g2, f2, p2]
  · rw [g4, f4, p6, p3, p1]
    have hpid : (do_fork w (poll w s) (plain_child w s.fdt
        (pipe_scan b (skip_space b command)).1 (skip_space b command))).2
        = if w.fork s.nfork = 0 then -1 else (w.fork s.nfork : Int) := by
      unfold do_fork
      simp only [p3]
      split <;> rfl
    rw [hpid]
    simp only [List.append_assoc, List.singleton_append]

/-- Witness of C16 (amended): the statement `ls` followed by a blank and a
`|` is run as the plain command `ls`. -/
theorem single_part_falls_through_witness :
    dispatch "ls |".toList 0 = (['l', 's', NUL, NUL], .plain 0) :=
  ((single_part_falls_through "ls |".toList 0 (by decide) (by decide)).2.2
    (by decide) (by decide) (by decide)).1.trans (by decide)

/-- Counterexample to C16 as stated: the statement `a && b |` contains `|`
and has one non-empty part, but it is not run as one plain command:
`process_command` splits it at `&&` and creates two processes, one for `a`
and one for `b`. -/
theorem single_part_with_and_is_split :
    '|' ∈ "a && b |".toList ∧
    pipe_parts "a && b |".toList = ["a && b".toList] ∧
    (dispatch "a && b |".toList 0).2 = .and_list 0 5 ∧
    returned_log (process_command World.calm 3 Sh.init "a && b |".toList 0)
      = some [
          .fork_ok 100 ⟨[.setpgid_self,
              .execvp (some "a".toList) [some "a".toList, none]], Sh.init.fdt⟩,
          .sigttou_ignore, .tcsetpgrp 100, .waitpid 100,
          .tcsetpgrp_shell, .sigttou_default,
          .fork_ok 101 ⟨[.setpgid_self,
              .execvp (some "b".toList) [some "b".toList, none]], Sh.init.fdt⟩,
          .sigttou_ignore, .tcsetpgrp 101, .waitpid 101,
          .tcsetpgrp_shell, .sigttou_default] := by
  decide

/-! ## Statements without `|` -/

theorem dispatch_no_bar (b : Buf) (command : Nat)
    (hbar : '|' ∉ cstr b (skip_space b command))
    (hne : cstr b (skip_space b command) ≠ [])
    (hexit : cstr b (skip_space b command) ≠ "exit".toList)
    (hhist : cstr b (skip_space b command) ≠ "history".toList) :
    dispatch b command = operator_chain b (skip_space b command) := by
  have hnul : ¬ peek b (skip_space b command) = NUL :=
    fun h => hne ((cstr_eq_nil_iff _ _).mpr h)
  have hnone : (strchr (cstr b (skip_space b command)) '|').isSome = false := by
    rw [(strchr_eq_none_iff _ _).mpr hbar]; rfl
  unfold dispatch
  simp only [hexit, hhist, hnul, hnone, if_false, Bool.false_eq_true, List.length_nil,
    Nat.not_lt_zero]
  rfl

theorem dispatch_no_bar_cases (b : Buf) (command : Nat)
    (hbar : '|' ∉ cstr b (skip_space b command)) :
    dispatch b command = (b, .exit_builtin) ∨ dispatch b command = (b, .history_builtin) ∨
    dispatch b command = (b, .empty) ∨
    dispatch b command = operator_chain b (skip_space b command) := by
  by_cases hexit : cstr b (skip_space b command) = "exit".toList
  · left
    unfold dispatch
    simp only [hexit, if_true]
  by_cases hhist : cstr b (skip_space b command) = "history".toList
  · right; left
    have hx : ¬ ("history".toList = "exit".toList) := by decide
    unfold dispatch
    simp only [hhist, hx, if_true, if_false]
  by_cases hne : cstr b (skip_space b command) = []
  · right; right; left
    unfold dispatch
    simp only [hexit, hhist, (cstr_eq_nil_iff _ _).mp hne, if_true, if_false]
  · right; right; right
    exact dispatch_no_bar b command hbar hne hexit hhist

/-- The decisions of the operator tests: the buffer is the one given, or
the one given with a NUL written inside the statement. -/
theorem operator_chain_cases (b : Buf) (c0 : Nat) :
    (∃ k, strstr (cstr b c0) "&&".toList = some k ∧ k + 2 ≤ strlen b c0 ∧
      operator_chain b c0
        = (poke b (c0 + k), .and_list c0 (skip_space (poke b (c0 + k)) (c0 + k + 2)))) ∨
    (∃ k mode q, k < strlen b c0 ∧
      operator_chain b c0 = (poke b (c0 + k), .redirect mode c0 q)) ∨
    operator_chain b c0 = (b, .plain c0) := by
  unfold operator_chain
  rcases h1 : strstr (cstr b c0) "&&".toList with _ | k
  · rcases h2 : strstr (cstr b c0) ">>".toList with _ | k
    · rcases h3 : strchr (cstr b c0) '>' with _ | k
      · rcases h4 : strchr (cstr b c0) '<' with _ | k
        · exact Or.inr (Or.inr rfl)
        · exact Or.inr (Or.inl ⟨k, _, _, (strchr_some _ _ k h4).1, rfl⟩)
      · exact Or.inr (Or.inl ⟨k, _, _, (strchr_some _ _ k h3).1, rfl⟩)
    · have hk := (strstr_some _ _ k h2).1
      simp only [String.toList, String.length, List.length_cons, List.length_nil] at hk
      exact Or.inr (Or.inl ⟨k, _, _, by unfold strlen; omega, rfl⟩)
  · have hk := (strstr_some _ _ k h1).1
    simp only [String.toList, String.length, List.length_cons, List.length_nil] at hk
    exact Or.inl ⟨k, rfl, by unfold strlen; omega, rfl⟩

theorem skip_space_strlen (b : Buf) (p : Nat) :
    skip_space b p + strlen b (skip_space b p) = p + strlen b p := by
  unfold strlen
  rw [cstr_skip_space, skip_space_eq]
  have := congrArg List.length (List.takeWhile_append_dropWhile isspace (cstr b p))
  rw [List.length_append] at this
  omega

theorem skip_space_ge (b : Buf) (p : Nat) : p ≤ skip_space b p := by
  unfold skip_space
  omega

/-- A call of `process_command` on a statement without `|` leaves alone
every string that starts after the end of the statement. -/
theorem process_command_frame (w : World) (fuel : Nat) : ∀ (s : Sh) (b : Buf) (command : Nat)
    (s1 : Sh) (b1 : Buf), '|' ∉ cstr b command →
    process_command w fuel s b command = .ok (s1, b1) →
    ∀ q, command + strlen b command < q → cstr b1 q = cstr b q := by
  induction fuel with
  | zero => intro s b command s1 b1 _ h; cases h
  | succ fuel ih =>
    intro s b command s1 b1 hbar h q hq
    have hbar0 : '|' ∉ cstr b (skip_space b command) := by
      rw [cstr_skip_space]
      exact fun hm => hbar ((List.dropWhile_suffix _).subset hm)
    have hlen := skip_space_strlen b command
    unfold process_command at h
    simp only [] at h
    rcases dispatch_no_bar_cases b command hbar0 with hd | hd | hd | hd
    · rw [hd] at h; cases h
    · rw [hd] at h
      simp only [] at h
      split at h
      · cases h; rfl
      · cases h
    · rw [hd] at h; cases h; rfl
    · rcases operator_chain_cases b (skip_space b command) with
        ⟨k, hk, hk2, hc⟩ | ⟨k, mode, q2, hk, hc⟩ | hc
      · rw [hd, hc] at h
        simp only [] at h
        obtain ⟨e1, e2⟩ := split_at b (skip_space b command) k 2 hk2 (by omega)
        split at h
        · rename_i s2 b2 hfirst
          have hl1 : strlen (poke b (skip_space b command + k)) (skip_space b command) = k := by
            unfold strlen
            rw [e1, List.length_take]
            unfold strlen at hk2
            omega
          have hf1 := ih _ _ _ _ _ (by
            rw [e1]
            exact fun hm => hbar0 ((List.take_subset _ _) hm)) hfirst
          split at h
          · have hq2 : cstr b2 (skip_space (poke b (skip_space b command + k))
                (skip_space b command + k + 2))
                = ((cstr b (skip_space b command)).drop (k + 2)).dropWhile isspace := by
              rw [hf1 _ (by
                have := skip_space_ge (poke b (skip_space b command + k))
                  (skip_space b command + k + 2)
                omega), e2]
            have hl2 : skip_space (poke b (skip_space b command + k))
                (skip_space b command + k + 2)
                + strlen b2 (skip_space (poke b (skip_space b command + k))
                  (skip_space b command + k + 2))
                = skip_space b command + strlen b (skip_space b command) := by
              have h5 := skip_space_strlen (poke b (skip_space b command + k))
                (skip_space b command + k + 2)
              have h6 : strlen b2 (skip_space (poke b (skip_space b command + k))
                  (skip_space b command + k + 2))
                  = strlen (poke b (skip_space b command + k))
                    (skip_space (poke b (skip_space b command + k))
                      (skip_space b command + k + 2)) := by
                unfold strlen
                rw [hq2, e2]
              have h7 : strlen (poke b (skip_space b command + k))
                  (skip_space b command + k + 2) = strlen b (skip_space b command) - (k + 2) := by
                unfold strlen
                rw [cstr_poke_lt _ _ _ (by omega), Nat.add_assoc,
                  cstr_add b (skip_space b command) _ hk2, List.length_drop]
              omega
            have hf2 := ih _ _ _ _ _ (by
              rw [hq2]
              exact fun hm => hbar0 ((List.drop_subset _ _)
                ((List.dropWhile_suffix _).subset hm))) h
            rw [hf2 q (by omega), hf1 q (by omega), cstr_poke_lt _ _ _ (by omega)]
          · cases h
            rw [hf1 q (by omega), cstr_poke_lt _ _ _ (by omega)]
        · cases h
      · rw [hd, hc] at h
        cases h
        exact cstr_poke_lt _ _ _ (by omega)
      · rw [hd, hc] at h
        cases h
        rfl

/-- A run whose log can be read has returned. -/
theorem ok_of_returned_log (r : Except Stop (Sh × Buf)) (h : returned_log r ≠ none) :
    ∃ x, r = .ok x := by
  cases r with
  | ok x => exact ⟨x, rfl⟩
  | error e => exact absurd rfl h

/-- C12. A statement without `|` in which `&&` occurs, first at offset `k`
of the statement: once the call for the left operand (the text before that
`&&`) has returned, `process_command` goes on with the right operand (the
text after it, leading whitespace skipped), which the run of the left
operand left intact. Nothing but the return of the first call is asked for:
the wait of the left operand is `waitpid(pid, NULL, 0)`, the status of its
process is stored nowhere, and the theorem holds in every world, whether the
child's `execvp` succeeds or the child ends with `EXIT_FAILURE`. -/
theorem and_list_runs_right_operand (w : World) (fuel : Nat) (s : Sh) (b : Buf)
    (command k : Nat) (s1 : Sh) (b2 : Buf)
    (h0 : s.foreground_pgid = 0)
    (hbar : '|' ∉ cstr b (skip_space b command))
    (hand : strstr (cstr b (skip_space b command)) "&&".toList = some k)
    (hleft : process_command w fuel (poll w s) (poke b (skip_space b command + k))
      (skip_space b command) = .ok (s1, b2)) :
    cstr (poke b (skip_space b command + k)) (skip_space b command)
      = (cstr b (skip_space b command)).take k ∧
    cstr b2 (skip_space (poke b (skip_space b command + k)) (skip_space b command + k + 2))
      = ((cstr b (skip_space b command)).drop (k + 2)).dropWhile isspace ∧
    process_command w (fuel + 1) s b command
      = process_command w fuel (poll w s1) b2
          (skip_space (poke b (skip_space b command + k)) (skip_space b command + k + 2)) := by
  have hk := (strstr_some _ _ k hand).1
  simp only [String.toList, String.length, List.length_cons, List.length_nil] at hk
  have hk2 : k + 2 ≤ strlen b (skip_space b command) := by unfold strlen; omega
  have hne : cstr b (skip_space b command) ≠ [] := by
    intro h; rw [h] at hk; simp at hk
  have hexit : cstr b (skip_space b command) ≠ "exit".toList := by
    intro h
    have : strstr "exit".toList "&&".toList = none := by decide
    rw [h, this] at hand
    cases hand
  have hhist : cstr b (skip_space b command) ≠ "history".toList := by
    intro h
    have : strstr "history".toList "&&".toList = none := by decide
    rw [h, this] at hand
    cases hand
  have hd : dispatch b command = (poke b (skip_space b command + k),
      .and_list (skip_space b command)
        (skip_space (poke b (skip_space b command + k)) (skip_space b command + k + 2))) := by
    rw [dispatch_no_bar b command hbar hne hexit hhist]
    unfold operator_chain
    simp only [hand]
  obtain ⟨e1, e2⟩ := split_at b (skip_space b command) k 2 hk2 (by omega)
  refine ⟨e1, ?_, and_list_guard_always_passes w fuel s b command _ _ _ s1 b2 h0 hd hleft⟩
  have hl1 : strlen (poke b (skip_space b command + k)) (skip_space b command) = k := by
    unfold strlen
    rw [e1, List.length_take]
    unfold strlen at hk2
    omega
  rw [process_command_frame w fuel _ _ _ _ _ (by
    rw [e1]
    exact fun hm => hbar ((List.take_subset _ _) hm)) hleft _ (by
      have := skip_space_ge (poke b (skip_space b command + k)) (skip_space b command + k + 2)
      omega), e2]

/-- Witness of C12: the statement `false && echo X` where the child of
`false` ends with the non-zero status `EXIT_FAILURE`: the call for `false`
returns, and `process_command` goes on with the right operand `echo X`, for
which a child is created. -/
theorem and_list_runs_right_operand_witness :
    (∃ r, process_command (World.without_program "false".toList) 2
          (poll (World.without_program "false".toList) Sh.init)
          (poke "false && echo X".toList (skip_space "false && echo X".toList 0 + 6))
          (skip_space "false && echo X".toList 0) = .ok r
      ∧ cstr r.2 (skip_space
            (poke "false && echo X".toList (skip_space "false && echo X".toList 0 + 6))
            (skip_space "false && echo X".toList 0 + 6 + 2))
          = ((cstr "false && echo X".toList (skip_space "false && echo X".toList 0)).drop
              (6 + 2)).dropWhile isspace
      ∧ process_command (World.without_program "false".toList) (2 + 1) Sh.init
          "false && echo X".toList 0
        = process_command (World.without_program "false".toList) 2
          (poll (World.without_program "false".toList) r.1) r.2
          (skip_space
            (poke "false && echo X".toList (skip_space "false && echo X".toList 0 + 6))
            (skip_space "false && echo X".toList 0 + 6 + 2)))
    ∧ ((cstr "false && echo X".toList (skip_space "false && echo X".toList 0)).drop
        (6 + 2)).dropWhile isspace = "echo X".toList
    ∧ returned_log (process_command (World.without_program "false".toList) 3 Sh.init
        "false && echo X".toList 0)
      = some [
          .fork_ok 100 ⟨[.setpgid_self,
              .execvp (some "false".toList) [some "false".toList, none],
              .perror "execvp".toList, .exit 1], Sh.init.fdt⟩,
          .sigttou_ignore, .tcsetpgrp 100, .waitpid 100,
          .tcsetpgrp_shell, .sigttou_default,
          .fork_ok 101 ⟨[.setpgid_self,
              .execvp (some "echo".toList) [some "echo".toList, some "X".toList, none]],
            Sh.init.fdt⟩,
          .sigttou_ignore, .tcsetpgrp 101, .waitpid 101,
          .tcsetpgrp_shell, .sigttou_default] :=
  ⟨(ok_of_returned_log _ (by decide)).elim fun r h =>
      ⟨r, h, (and_list_runs_right_operand (World.without_program "false".toList) 2 Sh.init
        "false && echo X".toList 0 6 r.1 r.2 rfl (by decide) (by decide) h).2⟩,
    by decide, by decide⟩

/-! ## The redirection paths -/

/-- The parent side of the plain and of the redirection paths: one call of
`fork`, then the hand-over of the terminal and the wait. -/
theorem fork_wait_run (w : World) (s : Sh) (child : Child) :
    (foreground_wait w (do_fork w (poll w s) child).1 (do_fork w (poll w s) child).2).nfork
      = s.nfork + 1 ∧
    (foreground_wait w (do_fork w (poll w s) child).1 (do_fork w (poll w s) child).2).npipe
      = s.npipe ∧
    (foreground_wait w (do_fork w (poll w s) child).1 (do_fork w (poll w s) child).2).fdt
      = s.fdt ∧
    main_flow
      (foreground_wait w (do_fork w (poll w s) child).1 (do_fork w (poll w s) child).2).log
      = main_flow s.log ++
        [if w.fork s.nfork = 0 then Event.fork_failed
          else Event.fork_ok (w.fork s.nfork) child,
         .sigttou_ignore,
         .tcsetpgrp (if w.fork s.nfork = 0 then -1 else (w.fork s.nfork : Int)),
         .waitpid (if w.fork s.nfork = 0 then -1 else (w.fork s.nfork : Int)),
         .tcsetpgrp_shell, .sigttou_default] := by
  obtain ⟨p1, p2, p3, _, _, p6⟩ := poll_frame w s
  obtain ⟨f1, f2, f3, f4⟩ := do_fork_flow w (poll w s) child
  obtain ⟨g1, g2, g3, g4⟩ := foreground_wait_flow w (do_fork w (poll w s) child).1
    (do_fork w (poll w s) child).2
  refine ⟨by rw [g1, f1, p3], by rw [g2, f2, p2], by rw [g3, f3, p1], ?_⟩
  rw [g4, f4, p6, p3]
  have hpid : (do_fork w (poll w s) child).2
      = if w.fork s.nfork = 0 then -1 else (w.fork s.nfork : Int) := by
    unfold do_fork
    simp only [p3]
    split <;> rfl
  rw [hpid]
  simp only [List.append_assoc, List.singleton_append]

/-- A statement decided as a redirection: `process_command` creates one
child, on the redirection path, and waits for it. -/
theorem redirect_run (w : World) (fuel : Nat) (s : Sh) (b : Buf) (command : Nat) (b1 : Buf)
    (mode : OpenMode) (cmd file : Nat)
    (hd : dispatch b command = (b1, .redirect mode cmd file)) :
    ∃ s1, process_command w (fuel + 1) s b command = .ok (s1, b1) ∧
      s1.nfork = s.nfork + 1 ∧ s1.npipe = s.npipe ∧ s1.fdt = s.fdt ∧
      main_flow s1.log = main_flow s.log ++
        [if w.fork s.nfork = 0 then Event.fork_failed
          else Event.fork_ok (w.fork s.nfork) (redirect_child w s.fdt b1 mode cmd file),
         .sigttou_ignore,
         .tcsetpgrp (if w.fork s.nfork = 0 then -1 else (w.fork s.nfork : Int)),
         .waitpid (if w.fork s.nfork = 0 then -1 else (w.fork s.nfork : Int)),
         .tcsetpgrp_shell, .sigttou_default] := by
  have hrun := fork_wait_run w s (redirect_child w (poll w s).fdt b1 mode cmd file)
  rw [(poll_frame w s).1] at hrun
  refine ⟨_, ?_, hrun⟩
  conv_lhs => unfold process_command
  simp only [hd, (poll_frame w s).1]

/-- The steps and the standard output of the child of an output redirection
whose `open` succeeds, when descriptor 1 of the shell is open. -/
theorem redirect_child_output (w : World) (t : FdTable) (b : Buf) (mode : OpenMode)
    (command file : Nat) (hmode : mode ≠ .rdonly) (hopen : w.open_ok (cstr b file) = true)
    (hstd : fd_get t 1 ≠ none) :
    (redirect_child w t b mode command file).ops
      = [ChildOp.setpgid_self, .open_ok (cstr b file) mode (lowest_free t),
          .dup2 (lowest_free t) 1, .close (lowest_free t)]
        ++ exec_tail w (split_args b command) ∧
    fd_get (redirect_child w t b mode command file).fdt 1 = some (.file (cstr b file)) := by
  have hne : lowest_free t ≠ 1 := by
    intro h
    have := (lowest_free_spec t).1
    rw [h] at this
    exact hstd this
  unfold redirect_child Child.run
  simp only [hopen, hmode, if_true, if_false]
  refine ⟨rfl, ?_⟩
  simp only [List.foldl_cons, List.cons_append, List.nil_append, child_step]
  rw [exec_tail_fdt]
  rw [fd_get_dup2_close _ _ _ _ (.file (cstr b file)) (by rw [fd_get_put]; simp)]
  rw [if_neg (fun h => hne h.symm), if_pos rfl]

theorem files_store_same (fs : Files) (path : CStr) (data : List Char) :
    Files.store fs path data path = some data := by
  unfold Files.store
  simp

theorem files_exec_tail (w : World) (args : List (Option CStr)) (fs : Files) :
    (exec_tail w args).foldl (fun fs op =>
      match op with
      | .open_ok path mode _ => Files.opened fs path mode
      | _ => fs) fs = fs := by
  unfold exec_tail
  simp only []
  split <;> rfl

/-- The file an output redirection names, after the child has run: with
`>>` the old content then the output, with `>` the output alone. -/
theorem redirect_child_files (w : World) (t : FdTable) (b : Buf) (mode : OpenMode)
    (command file : Nat) (hmode : mode ≠ .rdonly) (hopen : w.open_ok (cstr b file) = true)
    (hstd : fd_get t 1 ≠ none) (fs : Files) (out : List Char) :
    (redirect_child w t b mode command file).files fs out (cstr b file)
      = some (if mode = .append then (fs (cstr b file)).getD [] ++ out else out) := by
  obtain ⟨hops, hfd⟩ := redirect_child_output w t b mode command file hmode hopen hstd
  unfold Child.files
  simp only [hfd, hops, List.foldl_append, List.foldl_cons, List.foldl_nil, files_exec_tail]
  rw [files_store_same]
  cases mode with
  | append => simp [Files.opened, files_store_same]
  | trunc => simp [Files.opened, files_store_same]
  | rdonly => exact absurd rfl hmode

/-- C13 (amended). A statement decided as an output redirection, `.append` for `>>`
and `.trunc` for a single `>`, in a world where `fork` and the `open` of the
target succeed and with descriptor 1 of the shell open. Run twice, the
statement creates the same child twice; that child opens the target with the
flags of its mode, makes it its standard output and closes the spare
descriptor before `execvp`. With `>>` the file then holds what it held, the
output of the first run and the output of the second; with `>` it holds the
output of the second run alone. -/
theorem redirect_output_twice (w : World) (fuel : Nat) (s : Sh) (b : Buf) (command : Nat)
    (b1 : Buf) (mode : OpenMode) (cmd file : Nat)
    (hd : dispatch b command = (b1, .redirect mode cmd file)) (hmode : mode ≠ .rdonly)
    (hopen : w.open_ok (cstr b1 file) = true) (hstd : fd_get s.fdt 1 ≠ none)
    (hfork1 : w.fork s.nfork ≠ 0) (hfork2 : w.fork (s.nfork + 1) ≠ 0) :
    ∃ s1 s2,
      process_command w (fuel + 1) s b command = .ok (s1, b1) ∧
      process_command w (fuel + 1) s1 b command = .ok (s2, b1) ∧
      main_flow s2.log = main_flow s.log ++
        [Event.fork_ok (w.fork s.nfork) (redirect_child w s.fdt b1 mode cmd file),
         .sigttou_ignore, .tcsetpgrp (w.fork s.nfork), .waitpid (w.fork s.nfork),
         .tcsetpgrp_shell, .sigttou_default,
         Event.fork_ok (w.fork (s.nfork + 1)) (redirect_child w s.fdt b1 mode cmd file),
         .sigttou_ignore, .tcsetpgrp (w.fork (s.nfork + 1)), .waitpid (w.fork (s.nfork + 1)),
         .tcsetpgrp_shell, .sigttou_default] ∧
      (redirect_child w s.fdt b1 mode cmd file).ops
        = [ChildOp.setpgid_self, .open_ok (cstr b1 file) mode (lowest_free s.fdt),
            .dup2 (lowest_free s.fdt) 1, .close (lowest_free s.fdt)]
          ++ exec_tail w (split_args b1 cmd) ∧
      fd_get (redirect_child w s.fdt b1 mode cmd file).fdt 1 = some (.file (cstr b1 file)) ∧
      ∀ (fs : Files) (out1 out2 : List Char),
        (redirect_child w s.fdt b1 mode cmd file).files
          ((redirect_child w s.fdt b1 mode cmd file).files fs out1) out2 (cstr b1 file)
          = some (if mode = .append then (fs (cstr b1 file)).getD [] ++ out1 ++ out2
              else out2) := by
  obtain ⟨s1, r1, n1, _, t1, l1⟩ := redirect_run w fuel s b command b1 mode cmd file hd
  obtain ⟨s2, r2, _, _, _, l2⟩ := redirect_run w fuel s1 b command b1 mode cmd file hd
  obtain ⟨hops, hfd⟩ := redirect_child_output w s.fdt b1 mode cmd file hmode hopen hstd
  refine ⟨s1, s2, r1, r2, ?_, hops, hfd, ?_⟩
  · rw [l2, l1, n1, t1, if_neg hfork1, if_neg hfork1, if_neg hfork2, if_neg hfork2]
    simp only [List.append_assoc, List.cons_append, List.nil_append]
  · intro fs out1 out2
    rw [redirect_child_files w s.fdt b1 mode cmd file hmode hopen hstd,
      redirect_child_files w s.fdt b1 mode cmd file hmode hopen hstd]
    by_cases hm : mode = .append
    · simp [hm]
    · simp [hm]

/-- Witness of C13: the statement `echo hi >> log.txt` run twice at program
start, in a world where every call succeeds. -/
theorem redirect_output_twice_witness :
    ∃ s1 s2,
      process_command World.calm (0 + 1) Sh.init "echo hi >> log.txt".toList 0
        = .ok (s1, (dispatch "echo hi >> log.txt".toList 0).1) ∧
      process_command World.calm (0 + 1) s1 "echo hi >> log.txt".toList 0
        = .ok (s2, (dispatch "echo hi >> log.txt".toList 0).1) ∧
      (redirect_child World.calm Sh.init.fdt (dispatch "echo hi >> log.txt".toList 0).1
          .append 0 11).ops
        = [ChildOp.setpgid_self,
            .open_ok (cstr (dispatch "echo hi >> log.txt".toList 0).1 11) .append
              (lowest_free Sh.init.fdt),
            .dup2 (lowest_free Sh.init.fdt) 1, .close (lowest_free Sh.init.fdt)]
          ++ exec_tail World.calm (split_args (dispatch "echo hi >> log.txt".toList 0).1 0) ∧
      ∀ (fs : Files) (out1 out2 : List Char),
        (redirect_child World.calm Sh.init.fdt (dispatch "echo hi >> log.txt".toList 0).1
          .append 0 11).files
          ((redirect_child World.calm Sh.init.fdt (dispatch "echo hi >> log.txt".toList 0).1
            .append 0 11).files fs out1) out2
          (cstr (dispatch "echo hi >> log.txt".toList 0).1 11)
          = some (if OpenMode.append = .append
              then (fs (cstr (dispatch "echo hi >> log.txt".toList 0).1 11)).getD []
                ++ out1 ++ out2
              else out2) :=
  (redirect_output_twice World.calm 0 Sh.init "echo hi >> log.txt".toList 0
    (dispatch "echo hi >> log.txt".toList 0).1 .append 0 11 (by decide) (by decide)
    (by decide) (by decide) (by decide) (by decide)).elim fun s1 h1 =>
    h1.elim fun s2 h2 => ⟨s1, s2, h2.1, h2.2.1, h2.2.2.2.1, h2.2.2.2.2.2⟩

/-- Counterexample to C13 as stated: the statement `echo hi >> log.txt` in
a shell whose descriptor 1 is closed. The call `open` returns descriptor 1,
`dup2(1, 1)` changes nothing and `close(1)` closes the file: the child runs
`echo` without a standard output, and after two runs the file, created
empty, holds none of the output. -/
theorem redirect_with_stdout_closed_appends_nothing :
    returned_log (process_command World.calm 1 Sh.stdout_closed
        "echo hi >> log.txt".toList 0)
      = some [
          .fork_ok 100 ⟨[.setpgid_self, .open_ok "log.txt".toList .append 1, .dup2 1 1,
              .close 1,
              .execvp (some "echo".toList) [some "echo".toList, some "hi".toList, none]],
            [some (.inherited 0), none, some (.inherited 2)]⟩,
          .sigttou_ignore, .tcsetpgrp 100, .waitpid 100,
          .tcsetpgrp_shell, .sigttou_default] ∧
    (redirect_child World.calm Sh.stdout_closed.fdt
        (dispatch "echo hi >> log.txt".toList 0).1 .append 0 11).files
      ((redirect_child World.calm Sh.stdout_closed.fdt
        (dispatch "echo hi >> log.txt".toList 0).1 .append 0 11).files
        (fun _ => none) "hi\n".toList) "hi\n".toList "log.txt".toList
      = some [] := by
  decide

/-! ## The statement split of `main` -/

theorem strtok_r_token_ge (b : Buf) (s : Nat) (delim : List Char) (p : Nat)
    (h : (strtok_r b s delim).token = some p) : s ≤ p := by
  unfold strtok_r at h
  simp only [] at h
  split at h
  · cases h
  · split at h <;> (cases h; omega)

/-- The array `commands` after the loop of lines 313-316: pointers to the
first 99 runs of characters other than `;`, each run ending before the next
one starts. -/
theorem semi_loop_spec (fuel : Nat) :
    ∀ (t : Tok) (cmds : List Nat) (toks : List CStr),
      TokState semi_delim t toks →
      (∀ q ∈ cmds, q + strlen t.buf q ≤ t.save) →
      (∀ q ∈ cmds, ∀ p, t.token = some p → q + strlen t.buf q ≤ p) →
      cmds.Pairwise (fun q q' => q + strlen t.buf q ≤ q') →
      (semi_loop fuel t cmds).2.map (cstr (semi_loop fuel t cmds).1)
          = cmds.map (cstr t.buf) ++ toks.take (min fuel (99 - cmds.length)) ∧
      (semi_loop fuel t cmds).2.Pairwise
        (fun q q' => q + strlen (semi_loop fuel t cmds).1 q ≤ q') := by
  induction fuel with
  | zero => intro t cmds toks _ _ _ hpw; simpa [semi_loop] using hpw
  | succ fuel ih =>
    intro t cmds toks hst hframe htok hpw
    cases toks with
    | nil =>
      have hnone : t.token = none := hst
      simpa [semi_loop, hnone] using hpw
    | cons tk tks =>
      obtain ⟨p, hp, hcs, _, hlen, hrest⟩ := hst
      unfold semi_loop
      rw [hp]
      simp only []
      by_cases hlt : cmds.length < 99
      · rw [if_pos hlt]
        have hst2 : TokState semi_delim (strtok_r t.buf t.save [';'])
            (tokens semi_delim (cstr t.buf t.save)) := (strtok_r_state t.buf t.save [';']).1
        rw [hrest] at hst2
        have hsame : ∀ q, q + strlen t.buf q ≤ t.save →
            cstr (strtok_r t.buf t.save [';']).buf q = cstr t.buf q :=
          fun q hq => frame_after_strtok _ _ _ _ hq
        have hsave : t.save ≤ (strtok_r t.buf t.save [';']).save :=
          (strtok_r_state t.buf t.save [';']).2.choose_spec.2.2
        have hp0 : p + strlen t.buf p ≤ t.save := by unfold strlen; rw [hcs]; exact hlen
        have hframe1 : ∀ q ∈ cmds ++ [p], q + strlen t.buf q ≤ t.save := by
          intro q hq
          rcases List.mem_append.mp hq with h | h
          · exact hframe q h
          · rw [List.mem_singleton.mp h]; exact hp0
        have hlen2 : ∀ q ∈ cmds ++ [p],
            strlen (strtok_r t.buf t.save [';']).buf q = strlen t.buf q := by
          intro q hq
          unfold strlen
          rw [hsame q (hframe1 q hq)]
        have h := ih (strtok_r t.buf t.save [';']) (cmds ++ [p]) tks hst2
          (by
            intro q hq
            rw [hlen2 q hq]
            exact (hframe1 q hq).trans hsave)
          (by
            intro q hq p2 hp2
            rw [hlen2 q hq]
            exact (hframe1 q hq).trans (strtok_r_token_ge _ _ _ _ hp2))
          (by
            rw [List.pairwise_append]
            refine ⟨?_, List.pairwise_singleton _ _, ?_⟩
            · refine hpw.imp_of_mem ?_
              intro q q' hq _ hle
              rw [hlen2 q (List.mem_append_left _ hq)]
              exact hle
            · intro q hq q' hq'
              rw [List.mem_singleton.mp hq', hlen2 q (List.mem_append_left _ hq)]
              exact htok q hq p hp)
        refine ⟨?_, h.2⟩
        rw [h.1]
        have hmap : (cmds ++ [p]).map (cstr (strtok_r t.buf t.save [';']).buf)
            = cmds.map (cstr t.buf) ++ [tk] := by
          rw [List.map_append, List.map_singleton]
          congr 1
          · apply List.map_congr_left
            intro q hq
            exact hsame q (hframe q hq)
          · rw [hsame p hp0, hcs]
        rw [hmap, List.append_assoc, List.singleton_append]
        congr 1
        have e1 : min (fuel + 1) (99 - cmds.length)
            = min fuel (99 - (cmds ++ [p]).length) + 1 := by
          simp only [List.length_append, List.length_singleton]; omega
        rw [e1, List.take_succ_cons]
      · rw [if_neg hlt]
        have : 99 - cmds.length = 0 := by omega
        simpa [this] using hpw

/-- The statements of a line: the buffer and the pointers that
`run_line` hands to `process_command` address the first 99 runs of
characters other than `;` of the line without its newline. -/
theorem run_line_statements (input : Buf) :
    (semi_loop 99 (strtok_r (poke input (strcspn input 0 ['\n'])) 0 [';']) []).2.map
        (cstr (semi_loop 99 (strtok_r (poke input (strcspn input 0 ['\n'])) 0 [';']) []).1)
      = (tokens semi_delim (cstr (poke input (strcspn input 0 ['\n'])) 0)).take 99 ∧
    (semi_loop 99 (strtok_r (poke input (strcspn input 0 ['\n'])) 0 [';']) []).2.Pairwise
      (fun q q' => q + strlen
        (semi_loop 99 (strtok_r (poke input (strcspn input 0 ['\n'])) 0 [';']) []).1 q ≤ q') := by
  have hst : TokState semi_delim (strtok_r (poke input (strcspn input 0 ['\n'])) 0 [';'])
      (tokens semi_delim (cstr (poke input (strcspn input 0 ['\n'])) 0)) :=
    (strtok_r_state _ 0 [';']).1
  have h := semi_loop_spec 99 _ [] _ hst (by simp) (by simp) List.Pairwise.nil
  refine ⟨?_, h.2⟩
  rw [h.1]
  simp

/-! ## The path of a redirection -/

theorem dropWhile_append_head {α : Type} (p : α → Bool) (A : List α) (x : α) (r : List α)
    (hx : p x = false) : (A ++ x :: r).dropWhile p = A.dropWhile p ++ x :: r := by
  induction A with
  | nil => simp [List.dropWhile_cons, hx]
  | cons a A ih =>
    by_cases ha : p a
    · simp only [List.cons_append, List.dropWhile_cons, ha, if_true, ih]
    · simp [List.dropWhile_cons, ha]

theorem dropWhile_append_all {α : Type} (p : α → Bool) (A B : List α)
    (hA : ∀ a ∈ A, p a = true) : (A ++ B).dropWhile p = B.dropWhile p := by
  induction A with
  | nil => rfl
  | cons a A ih =>
    simp only [List.cons_append, List.dropWhile_cons, hA a (List.mem_cons_self _ _), if_true]
    exact ih (fun x hx => hA x (List.mem_cons_of_mem _ hx))

theorem dropWhile_none {α : Type} (p : α → Bool) (A : List α)
    (hA : ∀ a ∈ A, p a = false) : A.dropWhile p = A := by
  cases A with
  | nil => rfl
  | cons a A => simp [List.dropWhile_cons, hA a (List.mem_cons_self _ _)]

theorem strchr_append (A B : CStr) (c : Char) (h : c ∉ A) :
    strchr (A ++ c :: B) c = some A.length := by
  induction A with
  | nil => simp [strchr]
  | cons a A ih =>
    have ha : a ≠ c := fun e => h (by simp [e])
    have hA : c ∉ A := fun e => h (List.mem_cons_of_mem _ e)
    rw [List.cons_append]
    unfold strchr
    rw [if_neg ha, ih hA]
    rfl

theorem strstr_pair_none (A B : CStr) (c : Char) (hA : c ∉ A) (hB : c ∉ B) :
    strstr (A ++ c :: B) [c, c] = none := by
  rw [strstr_eq_none_iff _ _ (by simp)]
  intro hin
  have h1 := hin.sublist.count_le c
  have h2 : List.count c (A ++ c :: B) = 1 := by
    rw [List.count_append, List.count_cons_self, List.count_eq_zero_of_not_mem hA,
      List.count_eq_zero_of_not_mem hB]
  rw [h2] at h1
  simp at h1

theorem operator_char_of_space (c : Char) (h : isspace c = true) : operator_char c = false := by
  unfold isspace at h
  simp only [Bool.or_eq_true, beq_iff_eq] at h
  rcases h with ((((h | h) | h) | h) | h) | h <;> (subst h; decide)

/-- A statement made of a command `C` free of operator characters, one `>`
(`out = true`) or `<` (`out = false`), whitespace `ws` and a path `P` free of
whitespace and of operator characters: the statement is decided as the
redirection of that operator, and the path handed to `open` is `P`. -/
theorem redirect_path (b : Buf) (command : Nat) (C ws P : CStr) (out : Bool)
    (hst : cstr b command = C ++ (if out then '>' else '<') :: (ws ++ P))
    (hC : ∀ c ∈ C, operator_char c = false)
    (hws : ∀ c ∈ ws, isspace c = true)
    (hP : ∀ c ∈ P, isspace c = false ∧ operator_char c = false) :
    ∃ k q, skip_space b command + k < command + strlen b command ∧
      dispatch b command
        = (poke b (skip_space b command + k),
            .redirect (if out then .trunc else .rdonly) (skip_space b command) q) ∧
      cstr (poke b (skip_space b command + k)) q = P := by
  have hop : isspace (if out then '>' else '<') = false := by cases out <;> decide
  have hst0 : cstr b (skip_space b command)
      = C.dropWhile isspace ++ (if out then '>' else '<') :: (ws ++ P) := by
    rw [cstr_skip_space, hst, dropWhile_append_head isspace C _ _ hop]
  have hC' : ∀ c ∈ C.dropWhile isspace, operator_char c = false :=
    fun c hc => hC c ((List.dropWhile_suffix _).subset hc)
  have hrest : ∀ c ∈ ws ++ P, operator_char c = false := by
    intro c hc
    rcases List.mem_append.mp hc with h | h
    · exact operator_char_of_space c (hws c h)
    · exact (hP c h).2
  have hlen := skip_space_strlen b command
  have hk : (C.dropWhile isspace).length + 1 ≤ strlen b (skip_space b command) := by
    unfold strlen
    rw [hst0, List.length_append, List.length_cons]
    omega
  have hmem : ∀ c, operator_char c = true → c ≠ (if out then '>' else '<') →
      c ∉ cstr b (skip_space b command) := by
    intro c hc hne hm
    rw [hst0] at hm
    rcases List.mem_append.mp hm with h | h
    · rw [hC' c h] at hc; cases hc
    · rcases List.mem_cons.mp h with h | h
      · exact hne h
      · rw [hrest c h] at hc; cases hc
  have hbar : '|' ∉ cstr b (skip_space b command) :=
    hmem '|' (by decide) (by cases out <;> decide)
  have hamp : '&' ∉ cstr b (skip_space b command) :=
    hmem '&' (by decide) (by cases out <;> decide)
  have hne : cstr b (skip_space b command) ≠ [] := by rw [hst0]; simp
  have hin : (if out then '>' else '<') ∈ cstr b (skip_space b command) := by
    rw [hst0]; simp
  have hexit : cstr b (skip_space b command) ≠ "exit".toList := by
    intro h; rw [h] at hin; revert hin; cases out <;> decide
  have hhist : cstr b (skip_space b command) ≠ "history".toList := by
    intro h; rw [h] at hin; revert hin; cases out <;> decide
  have hd := dispatch_no_bar b command hbar hne hexit hhist
  have hand : strstr (cstr b (skip_space b command)) "&&".toList = none :=
    strstr_none_of_not_mem _ _ hamp
  have hnotC : ∀ c, operator_char c = true → c ∉ C.dropWhile isspace := by
    intro c hc hm
    rw [hC' c hm] at hc; cases hc
  have hnotR : ∀ c, operator_char c = true → c ∉ ws ++ P := by
    intro c hc hm
    rw [hrest c hm] at hc; cases hc
  obtain ⟨e1, e2⟩ := split_at b (skip_space b command) (C.dropWhile isspace).length 1 hk
    (by omega)
  have hpath : ((cstr b (skip_space b command)).drop
      ((C.dropWhile isspace).length + 1)).dropWhile isspace = P := by
    rw [hst0, List.drop_append_eq_append_drop, List.drop_of_length_le (by omega),
      List.nil_append]
    simp only [List.length_append, Nat.add_sub_cancel_left, List.drop_one, List.tail_cons]
    rw [dropWhile_append_all isspace ws P hws, dropWhile_none isspace P (fun c hc => (hP c hc).1)]
  refine ⟨(C.dropWhile isspace).length, _, by omega, ?_, e2.trans hpath⟩
  rw [hd]
  unfold operator_chain
  cases out with
  | true =>
    have h2 : strstr (cstr b (skip_space b command)) ">>".toList = none := by
      rw [hst0]
      exact strstr_pair_none _ _ '>' (hnotC '>' (by decide)) (hnotR '>' (by decide))
    have h3 : strchr (cstr b (skip_space b command)) '>' = some (C.dropWhile isspace).length := by
      rw [hst0]
      exact strchr_append _ _ '>' (hnotC '>' (by decide))
    simp only [hand, h2, h3, if_true]
  | false =>
    have h0 : '>' ∉ cstr b (skip_space b command) := hmem '>' (by decide) (by decide)
    have h2 : strstr (cstr b (skip_space b command)) ">>".toList = none :=
      strstr_none_of_not_mem _ _ h0
    have h3 : strchr (cstr b (skip_space b command)) '>' = none :=
      (strchr_eq_none_iff _ _).mpr h0
    have h4 : strchr (cstr b (skip_space b command)) '<' = some (C.dropWhile isspace).length := by
      rw [hst0]
      exact strchr_append _ _ '<' (hnotC '<' (by decide))
    simp only [hand, h2, h3, h4, Bool.false_eq_true, if_false]

theorem takeWhile_append_stop {α : Type} (p : α → Bool) (A : List α) (x : α) (r : List α)
    (hA : ∀ a ∈ A, p a = true) (hx : p x = false) : (A ++ x :: r).takeWhile p = A := by
  induction A with
  | nil => simp [List.takeWhile_cons, hx]
  | cons a A ih =>
    simp only [List.cons_append, List.takeWhile_cons, hA a (List.mem_cons_self _ _), if_true]
    rw [ih (fun y hy => hA y (List.mem_cons_of_mem _ hy))]

theorem takeWhile_all {α : Type} (p : α → Bool) (A : List α)
    (hA : ∀ a ∈ A, p a = true) : A.takeWhile p = A := by
  induction A with
  | nil => rfl
  | cons a A ih =>
    simp only [List.takeWhile_cons, hA a (List.mem_cons_self _ _), if_true]
    rw [ih (fun y hy => hA y (List.mem_cons_of_mem _ hy))]

theorem tokens_single (d : Char → Bool) (S : CStr) (hne : S ≠ [])
    (hS : ∀ c ∈ S, d c = false) : tokens d S = [S] := by
  have h1 : S.dropWhile d = S := dropWhile_none d S hS
  have hS' : ∀ c ∈ S, (!d c) = true := fun c hc => by rw [hS c hc]; rfl
  rw [tokens_of_dropWhile_ne_nil d S (by rw [h1]; exact hne), h1,
    takeWhile_all (fun c => !d c) S hS']
  have h2 : S.dropWhile (fun c => !d c) = [] := by
    have := dropWhile_append_all (fun c => !d c) S [] hS'
    simpa using this
  rw [h2]
  simp [tokens_nil]

/-- The tokens of two runs of non-delimiters joined by one delimiter. -/
theorem tokens_two (d : Char → Bool) (S1 S2 : CStr) (sep : Char) (hsep : d sep = true)
    (h1 : S1 ≠ []) (h2 : S2 ≠ [])
    (hS1 : ∀ c ∈ S1, d c = false) (hS2 : ∀ c ∈ S2, d c = false) :
    tokens d (S1 ++ sep :: S2) = [S1, S2] := by
  obtain ⟨x, r, rfl⟩ : ∃ x r, S1 = x :: r := by
    cases S1 with
    | nil => exact absurd rfl h1
    | cons x r => exact ⟨x, r, rfl⟩
  have hx : d x = false := hS1 x (List.mem_cons_self _ _)
  have hS1' : ∀ c ∈ x :: r, (!d c) = true := fun c hc => by rw [hS1 c hc]; rfl
  have hd : (x :: r ++ sep :: S2).dropWhile d = x :: r ++ sep :: S2 := by
    simp [List.dropWhile_cons, hx]
  rw [tokens_of_dropWhile_ne_nil d _ (by rw [hd]; simp), hd,
    takeWhile_append_stop (fun c => !d c) (x :: r) sep S2 hS1' (by simp [hsep]),
    dropWhile_append_all (fun c => !d c) (x :: r) (sep :: S2) hS1']
  simp only [List.dropWhile_cons, hsep, Bool.not_true, Bool.false_eq_true, if_false,
    List.drop_one, List.tail_cons]
  rw [tokens_single d S2 h2 hS2]

theorem semi_of_space (c : Char) (h : isspace c = true) : semi_delim c = false := by
  unfold isspace at h
  simp only [Bool.or_eq_true, beq_iff_eq] at h
  rcases h with ((((h | h) | h) | h) | h) | h <;> (subst h; decide)

theorem add_to_history_frame (s : Sh) (line : CStr) :
    (add_to_history s line).log = s.log ∧ (add_to_history s line).fdt = s.fdt ∧
    (add_to_history s line).nfork = s.nfork ∧ (add_to_history s line).npipe = s.npipe := by
  unfold add_to_history
  split <;> exact ⟨rfl, rfl, rfl, rfl⟩

/-- The first step of the child of a redirection path after `setpgid`: the
call `open` on the string at `file`, with the flags of the mode. -/
theorem redirect_child_open (w : World) (t : FdTable) (b : Buf) (mode : OpenMode)
    (command file : Nat) :
    (redirect_child w t b mode command file).ops.take 2
      = [ChildOp.setpgid_self,
          if w.open_ok (cstr b file) = true
          then ChildOp.open_ok (cstr b file) mode (lowest_free t)
          else ChildOp.open_failed (cstr b file) mode] := by
  unfold redirect_child Child.run
  simp only []
  split <;> rfl

/-- C14 (amended). Let `C` and `D` be commands free of operator characters
and of `;`, `ws1` and `ws2` any whitespace, and `P` a path free of
whitespace, of operator characters and of `;`. The statement made of `C`,
`>`, `ws1` and `P`, with nothing after `P`, is decided as a truncating
output redirection whose `open` gets the path `P`; the statement made of
`D`, `<`, `ws2` and `P` as an input redirection whose `open` gets the same
path `P`. The same holds when both are typed on one line with a `;` right
after the first `P`: `run_line` runs the two statements in order, the first
child opens `P` for writing and the second opens `P` for reading. -/
theorem redirect_round_trip (C D ws1 ws2 P : CStr)
    (hC : ∀ c ∈ C, operator_char c = false ∧ semi_delim c = false)
    (hD : ∀ c ∈ D, operator_char c = false ∧ semi_delim c = false)
    (hws1 : ∀ c ∈ ws1, isspace c = true) (hws2 : ∀ c ∈ ws2, isspace c = true)
    (hP : ∀ c ∈ P, isspace c = false ∧ operator_char c = false ∧ semi_delim c = false) :
    (∀ (b : Buf) (command : Nat), cstr b command = C ++ '>' :: (ws1 ++ P) →
      ∃ b1 c0 q, dispatch b command = (b1, .redirect .trunc c0 q) ∧ cstr b1 q = P ∧
        ∀ (w : World) (t : FdTable), (redirect_child w t b1 .trunc c0 q).ops.take 2
          = [ChildOp.setpgid_self,
              if w.open_ok P = true then ChildOp.open_ok P .trunc (lowest_free t)
              else ChildOp.open_failed P .trunc]) ∧
    (∀ (b : Buf) (command : Nat), cstr b command = D ++ '<' :: (ws2 ++ P) →
      ∃ b1 c0 q, dispatch b command = (b1, .redirect .rdonly c0 q) ∧ cstr b1 q = P ∧
        ∀ (w : World) (t : FdTable), (redirect_child w t b1 .rdonly c0 q).ops.take 2
          = [ChildOp.setpgid_self,
              if w.open_ok P = true then ChildOp.open_ok P .rdonly (lowest_free t)
              else ChildOp.open_failed P .rdonly]) ∧
    (∀ (w : World) (fuel : Nat) (s : Sh) (input : Buf),
      cstr (poke input (strcspn input 0 ['\n'])) 0
        = (C ++ '>' :: (ws1 ++ P)) ++ ';' :: (D ++ '<' :: (ws2 ++ P)) →
      ∃ (s1 s2 : Sh) (b1 : Buf) (c1 q1 : Nat) (b2 : Buf) (c2 q2 : Nat),
        run_line w (fuel + 1) s input = .ok (s2, b2) ∧
        cstr b1 q1 = P ∧ cstr b2 q2 = P ∧
        main_flow s1.log = main_flow s.log ++
          [if w.fork s.nfork = 0 then Event.fork_failed
            else Event.fork_ok (w.fork s.nfork) (redirect_child w s.fdt b1 .trunc c1 q1),
           .sigttou_ignore,
           .tcsetpgrp (if w.fork s.nfork = 0 then -1 else (w.fork s.nfork : Int)),
           .waitpid (if w.fork s.nfork = 0 then -1 else (w.fork s.nfork : Int)),
           .tcsetpgrp_shell, .sigttou_default] ∧
        main_flow s2.log = main_flow s1.log ++
          [if w.fork (s.nfork + 1) = 0 then Event.fork_failed
            else Event.fork_ok (w.fork (s.nfork + 1))
              (redirect_child w s.fdt b2 .rdonly c2 q2),
           .sigttou_ignore,
           .tcsetpgrp (if w.fork (s.nfork + 1) = 0 then -1 else (w.fork (s.nfork + 1) : Int)),
           .waitpid (if w.fork (s.nfork + 1) = 0 then -1 else (w.fork (s.nfork + 1) : Int)),
           .tcsetpgrp_shell, .sigttou_default]) := by
  have hPq : ∀ c ∈ P, isspace c = false ∧ operator_char c = false :=
    fun c hc => ⟨(hP c hc).1, (hP c hc).2.1⟩
  have hout : ∀ (b : Buf) (command : Nat), cstr b command = C ++ '>' :: (ws1 ++ P) →
      ∃ k q, skip_space b command + k < command + strlen b command ∧
        dispatch b command = (poke b (skip_space b command + k),
          .redirect .trunc (skip_space b command) q) ∧
        cstr (poke b (skip_space b command + k)) q = P :=
    fun b command h => redirect_path b command C ws1 P true h (fun c hc => (hC c hc).1) hws1 hPq
  have hin : ∀ (b : Buf) (command : Nat), cstr b command = D ++ '<' :: (ws2 ++ P) →
      ∃ k q, skip_space b command + k < command + strlen b command ∧
        dispatch b command = (poke b (skip_space b command + k),
          .redirect .rdonly (skip_space b command) q) ∧
        cstr (poke b (skip_space b command + k)) q = P :=
    fun b command h => redirect_path b command D ws2 P false h (fun c hc => (hD c hc).1) hws2 hPq
  refine ⟨?_, ?_, ?_⟩
  · intro b command h
    obtain ⟨k, q, _, hd, hq⟩ := hout b command h
    refine ⟨_, _, q, hd, hq, fun w t => ?_⟩
    rw [redirect_child_open, hq]
  · intro b command h
    obtain ⟨k, q, _, hd, hq⟩ := hin b command h
    refine ⟨_, _, q, hd, hq, fun w t => ?_⟩
    rw [redirect_child_open, hq]
  · intro w fuel s input hline
    have hsemi1 : ∀ c ∈ C ++ '>' :: (ws1 ++ P), semi_delim c = false := by
      intro c hc
      rcases List.mem_append.mp hc with h | h
      · exact (hC c h).2
      · rcases List.mem_cons.mp h with h | h
        · rw [h]; decide
        · rcases List.mem_append.mp h with h | h
          · exact semi_of_space c (hws1 c h)
          · exact (hP c h).2.2
    have hsemi2 : ∀ c ∈ D ++ '<' :: (ws2 ++ P), semi_delim c = false := by
      intro c hc
      rcases List.mem_append.mp hc with h | h
      · exact (hD c h).2
      · rcases List.mem_cons.mp h with h | h
        · rw [h]; decide
        · rcases List.mem_append.mp h with h | h
          · exact semi_of_space c (hws2 c h)
          · exact (hP c h).2.2
    obtain ⟨hmap, hpw⟩ := run_line_statements input
    rw [hline, tokens_two semi_delim _ _ ';' (by decide) (by simp) (by simp) hsemi1 hsemi2]
      at hmap
    generalize hr : semi_loop 99 (strtok_r (poke input (strcspn input 0 ['\n'])) 0 [';']) []
      = r at hmap hpw
    obtain ⟨p1, p2, hr2, hs1, hs2⟩ : ∃ p1 p2, r.2 = [p1, p2] ∧
        cstr r.1 p1 = C ++ '>' :: (ws1 ++ P) ∧ cstr r.1 p2 = D ++ '<' :: (ws2 ++ P) := by
      rcases hr2 : r.2 with _ | ⟨p1, _ | ⟨p2, _ | ⟨p3, rest⟩⟩⟩
      · rw [hr2] at hmap; simp at hmap
      · rw [hr2] at hmap; simp at hmap
      · rw [hr2] at hmap
        simp only [List.map_cons, List.map_nil, List.take_succ_cons, List.take_nil,
          List.cons.injEq, and_true] at hmap
        exact ⟨p1, p2, rfl, hmap.1, hmap.2⟩
      · rw [hr2] at hmap; simp at hmap
    rw [hr2] at hpw
    have hsep : p1 + strlen r.1 p1 ≤ p2 := by
      have := List.pairwise_cons.mp hpw
      exact this.1 p2 (List.mem_singleton.mpr rfl)
    obtain ⟨k1, q1, hk1, hd1, hq1⟩ := hout r.1 p1 hs1
    obtain ⟨f1, f2, f3, f4⟩ := add_to_history_frame s
      (cstr (poke input (strcspn input 0 ['\n'])) 0)
    obtain ⟨sA, rA, nA, _, tA, lA⟩ := redirect_run w fuel
      (add_to_history s (cstr (poke input (strcspn input 0 ['\n'])) 0)) r.1 p1 _ _ _ _ hd1
    have hs2' : cstr (poke r.1 (skip_space r.1 p1 + k1)) p2 = D ++ '<' :: (ws2 ++ P) := by
      rw [cstr_poke_lt _ _ _ (by omega), hs2]
    obtain ⟨k2, q2, hk2, hd2, hq2⟩ := hin _ p2 hs2'
    obtain ⟨sB, rB, _, _, _, lB⟩ := redirect_run w fuel sA _ p2 _ _ _ _ hd2
    refine ⟨sA, sB, poke r.1 (skip_space r.1 p1 + k1), skip_space r.1 p1, q1,
      poke (poke r.1 (skip_space r.1 p1 + k1))
        (skip_space (poke r.1 (skip_space r.1 p1 + k1)) p2 + k2),
      skip_space (poke r.1 (skip_space r.1 p1 + k1)) p2, q2, ?_, hq1, hq2, ?_, ?_⟩
    · unfold run_line
      simp only [hr, hr2, run_commands, rA, rB]
    · rw [lA, f1, f2, f3]
    · rw [lB, nA, tA, f2, f3]

/-- Witness of C14 (amended): `echo hi > out.txt` and `cat < out.txt`. -/
theorem redirect_round_trip_witness :
    ∃ b1 c0 q, dispatch "echo hi > out.txt".toList 0 = (b1, .redirect .trunc c0 q) ∧
      cstr b1 q = "out.txt".toList ∧
      ∀ (w : World) (t : FdTable), (redirect_child w t b1 .trunc c0 q).ops.take 2
        = [ChildOp.setpgid_self,
            if w.open_ok "out.txt".toList = true
            then ChildOp.open_ok "out.txt".toList .trunc (lowest_free t)
            else ChildOp.open_failed "out.txt".toList .trunc] :=
  (redirect_round_trip "echo hi ".toList "cat ".toList " ".toList " ".toList "out.txt".toList
    (by decide) (by decide) (by decide) (by decide) (by decide)).1
    "echo hi > out.txt".toList 0 (by decide)

/-- Counterexample to C14 as stated: the line
`echo hi > out.txt ; cat < out.txt`, with a blank on each side of the `;`.
The first statement ends with the blank before the `;`, and its child opens
for writing the path `out.txt` followed by a blank; the child of the second
statement opens `out.txt` for reading. The two paths differ. -/
theorem redirect_path_keeps_trailing_blank :
    returned_log (run_line World.calm 1 Sh.init
        "echo hi > out.txt ; cat < out.txt\n".toList)
      = some [
          .fork_ok 100 ⟨[.setpgid_self, .open_ok "out.txt ".toList .trunc 3, .dup2 3 1,
              .close 3,
              .execvp (some "echo".toList) [some "echo".toList, some "hi".toList, none]],
            [some (.inherited 0), some (.file "out.txt ".toList), some (.inherited 2), none]⟩,
          .sigttou_ignore, .tcsetpgrp 100, .waitpid 100,
          .tcsetpgrp_shell, .sigttou_default,
          .fork_ok 101 ⟨[.setpgid_self, .open_ok "out.txt".toList .rdonly 3, .dup2 3 0,
              .close 3, .execvp (some "cat".toList) [some "cat".toList, none]],
            [some (.file "out.txt".toList), some (.inherited 1), some (.inherited 2), none]⟩,
          .sigttou_ignore, .tcsetpgrp 101, .waitpid 101,
          .tcsetpgrp_shell, .sigttou_default] := by
  decide

end Shell

namespace Fsck

/-! ## Lists as arrays -/

theorem getD_set_eq {α : Type} (l : List α) (i j : Nat) (a d : α) :
    (l.set i a).getD j d = if j = i ∧ i < l.length then a else l.getD j d := by
  simp only [List.getD_eq_getElem?_getD, List.getElem?_set]
  by_cases hji : j = i
  · subst hji
    by_cases hlt : j < l.length
    · simp [hlt]
    · simp [hlt, List.getElem?_eq_none (Nat.le_of_not_lt hlt)]
  · have : i ≠ j := fun h => hji h.symm
    simp [hji, this]

theorem getD_mem {α : Type} (l : List α) (i : Nat) (d : α) (h : i < l.length) :
    l.getD i d ∈ l := by
  rw [List.getD_eq_getElem?_getD, List.getElem?_eq_getElem h]
  exact List.getElem_mem h

theorem ext_getD {α : Type} (l l' : List α) (d : α) (hlen : l'.length = l.length)
    (h : ∀ i, i < l.length → l'.getD i d = l.getD i d) : l' = l := by
  apply List.ext_getElem hlen
  intro i h1 h2
  have := h i h2
  rwa [List.getD_eq_getElem?_getD, List.getD_eq_getElem?_getD,
    List.getElem?_eq_getElem h1, List.getElem?_eq_getElem h2] at this

/-! ## Reads and writes of the inode table -/

@[simp] theorem printf_superblock (fs : Fs) (f : String) (a : List Nat) :
    (fs.printf f a).superblock = fs.superblock := rfl
@[simp] theorem printf_inode_table (fs : Fs) (f : String) (a : List Nat) :
    (fs.printf f a).inode_table = fs.inode_table := rfl
@[simp] theorem printf_inode_bitmap (fs : Fs) (f : String) (a : List Nat) :
    (fs.printf f a).inode_bitmap = fs.inode_bitmap := rfl
@[simp] theorem printf_data_bitmap (fs : Fs) (f : String) (a : List Nat) :
    (fs.printf f a).data_bitmap = fs.data_bitmap := rfl
@[simp] theorem printf_errors (fs : Fs) (f : String) (a : List Nat) :
    (fs.printf f a).errors = fs.errors := rfl
@[simp] theorem printf_inode (fs : Fs) (f : String) (a : List Nat) (i : Nat) :
    (fs.printf f a).inode i = fs.inode i := rfl
@[simp] theorem printf_direct (fs : Fs) (f : String) (a : List Nat) (i j : Nat) :
    (fs.printf f a).direct i j = fs.direct i j := rfl

/-- What decides the reads `inode_table[i].direct[j]` is the table alone. -/
theorem direct_congr (fs fs' : Fs) (h : fs'.inode_table = fs.inode_table) (i j : Nat) :
    fs'.direct i j = fs.direct i j := by
  unfold Fs.direct Fs.inode
  rw [h]

theorem inode_set_direct (fs : Fs) (i j v i' : Nat) :
    (fs.set_direct i j v).inode i' =
      if i' = i ∧ i < fs.inode_table.length then
        { fs.inode i with direct := (fs.inode i).direct.set j v }
      else fs.inode i' := by
  unfold Fs.set_direct Fs.inode
  simp only [getD_set_eq]

theorem direct_set_direct (fs : Fs) (i j v i' j' : Nat) :
    (fs.set_direct i j v).direct i' j' =
      if (i' = i ∧ i < fs.inode_table.length) ∧ (j' = j ∧ j < (fs.inode i).direct.length)
      then v else fs.direct i' j' := by
  unfold Fs.direct
  rw [inode_set_direct]
  by_cases h : i' = i ∧ i < fs.inode_table.length
  · rw [if_pos h]
    simp only [getD_set_eq, h, true_and]
  · rw [if_neg h, if_neg (fun hh => h hh.1)]

theorem SameBut.refl (fs : Fs) : SameBut fs fs :=
  ⟨rfl, rfl, rfl, rfl, fun _ => rfl, fun _ => rfl⟩

theorem SameBut.trans {a b c : Fs} (h1 : SameBut a b) (h2 : SameBut b c) : SameBut a c :=
  ⟨h2.superblock.trans h1.superblock, h2.inode_bitmap.trans h1.inode_bitmap,
   h2.data_bitmap.trans h1.data_bitmap, h2.length.trans h1.length,
   fun i => (h2.fields i).trans (h1.fields i), fun i => (h2.directs i).trans (h1.directs i)⟩

theorem SameBut.printf (fs : Fs) (f : String) (a : List Nat) : SameBut fs (fs.printf f a) :=
  ⟨rfl, rfl, rfl, rfl, fun _ => rfl, fun _ => rfl⟩

theorem SameBut.errors (fs : Fs) (n : Nat) : SameBut fs { fs with errors := n } :=
  ⟨rfl, rfl, rfl, rfl, fun _ => rfl, fun _ => rfl⟩

theorem SameBut.set_direct (fs : Fs) (i j v : Nat) : SameBut fs (fs.set_direct i j v) := by
  refine ⟨rfl, rfl, rfl, ?_, ?_, ?_⟩
  · simp [Fs.set_direct]
  · intro i'
    rw [inode_set_direct]
    split
    · next h => rw [h.1]
    · rfl
  · intro i'
    rw [inode_set_direct]
    split
    · next h => rw [h.1]; simp
    · rfl

/-- A fold whose steps each keep a relation to the start keeps it. -/
theorem foldl_rel {σ α : Type} (R : σ → σ → Prop) (hrefl : ∀ s, R s s)
    (htrans : ∀ a b c, R a b → R b c → R a c) (f : σ → α → σ)
    (hf : ∀ s x, R s (f s x)) (l : List α) (s : σ) : R s (l.foldl f s) := by
  induction l generalizing s with
  | nil => exact hrefl s
  | cons x xs ih => exact htrans _ _ _ (hf s x) (ih (f s x))

end Fsck

namespace Fsck

/-! ## `check_bad_blocks` -/

/-- A direct pointer that reads as non-zero is inside the table. -/
theorem direct_ne_zero (fs : Fs) (i j : Nat) (h : fs.direct i j ≠ 0) :
    i < fs.inode_table.length ∧ j < (fs.inode i).direct.length := by
  constructor
  · by_contra hlt
    apply h
    unfold Fs.direct Fs.inode
    rw [List.getD_eq_default _ _ (Nat.le_of_not_lt hlt)]
    rfl
  · by_contra hlt
    apply h
    unfold Fs.direct
    rw [List.getD_eq_default _ _ (Nat.le_of_not_lt hlt)]

theorem bad_block_step_same (i : Nat) (fs : Fs) (j : Nat) :
    SameBut fs (bad_block_step true i fs j) := by
  unfold bad_block_step
  simp only []
  split
  · simp only [if_true]
    exact ((SameBut.printf _ _ _).trans (SameBut.set_direct _ _ _ _)).trans
      ((SameBut.printf _ _ _).trans (SameBut.errors _ _))
  · exact SameBut.refl fs

theorem bad_block_step_direct (i : Nat) (fs : Fs) (j i' j' : Nat) :
    (bad_block_step true i fs j).direct i' j' =
      if i' = i ∧ j' = j then bad_block_fix (fs.direct i j) else fs.direct i' j' := by
  unfold bad_block_step bad_block_fix
  simp only []
  by_cases hc : fs.direct i j ≠ 0 ∧
      (fs.direct i j < DATA_BLOCKS_START ∨ fs.direct i j ≥ NUM_BLOCKS)
  · rw [if_pos hc, if_pos hc]
    simp only [if_true]
    have hb := direct_ne_zero fs i j hc.1
    have : ∀ x : Fs, ({ x with errors := x.errors + 1 } : Fs).direct i' j' = x.direct i' j' :=
      fun _ => rfl
    rw [this, printf_direct, direct_set_direct]
    simp only [printf_inode_table, printf_inode, printf_direct, hb.1, hb.2, and_true]
  · rw [if_neg hc, if_neg hc]
    by_cases h : i' = i ∧ j' = j
    · rw [if_pos h, h.1, h.2]
    · rw [if_neg h]

/-- A loop over `j < n` whose step `j` rewrites slot `j` of inode `i` by `g`
rewrites the slots below `n`. -/
theorem foldl_slots (f : Fs → Nat → Fs) (g : Nat → Nat) (i : Nat)
    (hf : ∀ fs j i' j', (f fs j).direct i' j' =
      if i' = i ∧ j' = j then g (fs.direct i j) else fs.direct i' j')
    (n : Nat) (fs : Fs) (i' j' : Nat) :
    ((List.range n).foldl f fs).direct i' j' =
      if i' = i ∧ j' < n then g (fs.direct i j') else fs.direct i' j' := by
  induction n generalizing i' j' with
  | zero => simp
  | succ n ih =>
    rw [List.range_succ, List.foldl_append, List.foldl_cons, List.foldl_nil, hf, ih, ih]
    by_cases h1 : i' = i
    · subst h1
      by_cases h2 : j' = n
      · subst h2; simp
      · have : j' < n + 1 ↔ j' < n := by omega
        simp [h2, this]
    · simp [h1]

/-- A loop over `i < n` whose step `i` rewrites the first `m` slots of inode
`i` by `g` rewrites the first `m` slots of the inodes below `n`. -/
theorem foldl_inodes (F : Fs → Nat → Fs) (g : Nat → Nat) (m : Nat)
    (hF : ∀ fs i i' j', (F fs i).direct i' j' =
      if i' = i ∧ j' < m then g (fs.direct i j') else fs.direct i' j')
    (n : Nat) (fs : Fs) (i' j' : Nat) :
    ((List.range n).foldl F fs).direct i' j' =
      if i' < n ∧ j' < m then g (fs.direct i' j') else fs.direct i' j' := by
  induction n generalizing i' j' with
  | zero => simp
  | succ n ih =>
    rw [List.range_succ, List.foldl_append, List.foldl_cons, List.foldl_nil, hF, ih, ih]
    by_cases h1 : i' = n
    · subst h1; simp
    · have : i' < n + 1 ↔ i' < n := by omega
      simp [h1, this]

theorem check_bad_blocks_same (fs : Fs) : SameBut fs (check_bad_blocks true fs) := by
  unfold check_bad_blocks
  simp only []
  have h1 : SameBut fs ((List.range NUM_INODES).foldl
      (fun fs i => (List.range 4).foldl (bad_block_step true i) fs)
      { fs.printf "Checking for bad blocks...\n" [] with errors := 0 }) := by
    have h0 : SameBut fs { fs.printf "Checking for bad blocks...\n" [] with errors := 0 } :=
      (SameBut.printf fs _ _).trans (SameBut.errors _ 0)
    refine h0.trans (foldl_rel SameBut SameBut.refl (fun _ _ _ => SameBut.trans) _ ?_ _ _)
    intro s i
    exact foldl_rel SameBut SameBut.refl (fun _ _ _ => SameBut.trans) _
      (bad_block_step_same i) _ _
  split
  · exact h1.trans (SameBut.printf _ _ _)
  · exact h1

theorem check_bad_blocks_direct (fs : Fs) (i j : Nat) :
    (check_bad_blocks true fs).direct i j =
      if i < NUM_INODES ∧ j < 4 then bad_block_fix (fs.direct i j) else fs.direct i j := by
  have h1 : ((List.range NUM_INODES).foldl
      (fun fs i => (List.range 4).foldl (bad_block_step true i) fs)
      { fs.printf "Checking for bad blocks...\n" [] with errors := 0 }).direct i j =
      if i < NUM_INODES ∧ j < 4 then bad_block_fix (fs.direct i j) else fs.direct i j := by
    rw [foldl_inodes _ bad_block_fix 4]
    · rfl
    · intro s k i' j'
      exact foldl_slots _ bad_block_fix k (bad_block_step_direct k) 4 s i' j'
  unfold check_bad_blocks
  simp only []
  split
  · rw [printf_direct]; exact h1
  · exact h1

/-- From agreement on every field but `direct`, an inode is the other one
with its own direct pointers. -/
theorem inode_eq_of_fields (a b : Inode)
    (h : { a with direct := [] } = { b with direct := [] }) :
    a = { b with direct := a.direct } := by
  cases a; cases b
  simp only [Inode.mk.injEq] at h ⊢
  simp only [h, and_self]

/-- A table that agrees with another in all but the values of the direct
pointers, and whose pointers are those of the other rewritten by `g`, is the
other one mapped. -/
theorem table_eq_map (fs fs' : Fs) (g : Nat → Nat) (hs : SameBut fs fs')
    (hlen : fs.inode_table.length = NUM_INODES)
    (hd : ∀ ino ∈ fs.inode_table, ino.direct.length = 4)
    (h : ∀ i j, i < NUM_INODES → j < 4 → fs'.direct i j = g (fs.direct i j)) :
    fs'.inode_table =
      fs.inode_table.map fun ino => { ino with direct := ino.direct.map g } := by
  apply ext_getD _ _ Inode.zero
  · simp [hs.length]
  · intro i hi
    rw [List.length_map] at hi
    have hget : (fs.inode_table.map fun ino =>
        ({ ino with direct := ino.direct.map g } : Inode)).getD i Inode.zero =
        { fs.inode i with direct := (fs.inode i).direct.map g } := by
      unfold Fs.inode
      simp only [List.getD_eq_getElem?_getD, List.getElem?_map, List.getElem?_eq_getElem hi,
        Option.map_some', Option.getD_some]
    rw [hget]
    change fs'.inode i = _
    rw [inode_eq_of_fields _ _ (hs.fields i)]
    congr 1
    have hdl : (fs.inode i).direct.length = 4 := hd _ (getD_mem _ _ _ hi)
    apply ext_getD _ _ 0
    · rw [hs.directs, List.length_map]
    · intro j hj
      rw [List.length_map, hdl] at hj
      have := h i j (hlen ▸ hi) hj
      unfold Fs.direct at this
      rw [this]
      simp only [List.getD_eq_getElem?_getD, List.getElem?_map,
        List.getElem?_eq_getElem (hdl ▸ hj), Option.map_some', Option.getD_some]

end Fsck

namespace Fsck

/-! ## Bits of a bitmap byte -/

theorem bit_of_eq (x k : Nat) : bit_of x k = if x.testBit (7 - k) then 1 else 0 := by
  unfold bit_of
  rw [Nat.and_one_is_mod, Nat.shiftRight_eq_div_pow, Nat.testBit_to_div_mod]
  by_cases h : x / 2 ^ (7 - k) % 2 = 1
  · simp [h]
  · have : x / 2 ^ (7 - k) % 2 = 0 := by omega
    simp [this]

theorem testBit_clear (x m m' : Nat) (hm' : m' < 8) :
    (x &&& (255 ^^^ (1 <<< m))).testBit m' = (x.testBit m' && decide (m' ≠ m)) := by
  rw [Nat.testBit_and, Nat.testBit_xor, Nat.one_shiftLeft, Nat.testBit_two_pow]
  have h255 : Nat.testBit 255 m' = true := by
    have : (255 : Nat) = 2 ^ 8 - 1 := by norm_num
    rw [this, Nat.testBit_two_pow_sub_one]
    simp [hm']
  rw [h255]
  by_cases h : m = m'
  · subst h; simp
  · have h' : m' ≠ m := fun e => h e.symm
    simp [h, h']

theorem testBit_set (x m m' : Nat) (hm : m < 8) (hm' : m' < 8) :
    ((x ||| (1 <<< m)) % 256).testBit m' = (x.testBit m' || decide (m' = m)) := by
  have : (256 : Nat) = 2 ^ 8 := by norm_num
  rw [this, Nat.testBit_mod_two_pow, Nat.testBit_or, Nat.one_shiftLeft, Nat.testBit_two_pow]
  by_cases h : m = m'
  · subst h; simp [hm]
  · have h' : m' ≠ m := fun e => h e.symm
    simp [h, h', hm']

theorem bit_of_clear_bit (x k k' : Nat) (hk : k < 8) (hk' : k' < 8) :
    bit_of (clear_bit x k) k' = if k' = k then 0 else bit_of x k' := by
  rw [bit_of_eq, bit_of_eq]
  unfold clear_bit
  rw [testBit_clear x (7 - k) (7 - k') (by omega)]
  by_cases h : k' = k
  · subst h; simp
  · have : 7 - k' ≠ 7 - k := by omega
    simp [h, this]

theorem bit_of_set_bit (x k k' : Nat) (hk : k < 8) (hk' : k' < 8) :
    bit_of (set_bit x k) k' = if k' = k then 1 else bit_of x k' := by
  rw [bit_of_eq, bit_of_eq]
  unfold set_bit
  rw [testBit_set x (7 - k) (7 - k') (by omega) (by omega)]
  by_cases h : k' = k
  · subst h; simp
  · have : 7 - k' ≠ 7 - k := by omega
    simp [h, this]

theorem bit_of_le_one (x k : Nat) : bit_of x k = 0 ∨ bit_of x k = 1 := by
  rw [bit_of_eq]
  split <;> simp

end Fsck

namespace Fsck

/-! ## `check_superblock` and `check_inode_bitmap` leave the inode table and the data bitmap alone -/

theorem check_superblock_frame (fix : Bool) (fs : Fs) :
    (check_superblock fix fs).inode_table = fs.inode_table ∧
    (check_superblock fix fs).data_bitmap = fs.data_bitmap ∧
    (check_superblock fix fs).inode_bitmap = fs.inode_bitmap := by
  unfold check_superblock
  simp only []
  refine ⟨?_, ?_, ?_⟩ <;> (repeat' split) <;> rfl

theorem inode_bitmap_step_frame (fix : Bool) (fs : Fs) (i : Nat) :
    (inode_bitmap_step fix fs i).inode_table = fs.inode_table ∧
    (inode_bitmap_step fix fs i).data_bitmap = fs.data_bitmap ∧
    (inode_bitmap_step fix fs i).superblock = fs.superblock := by
  unfold inode_bitmap_step
  simp only []
  refine ⟨?_, ?_, ?_⟩ <;> (repeat' split) <;> rfl

theorem check_inode_bitmap_frame (fix : Bool) (fs : Fs) :
    (check_inode_bitmap fix fs).inode_table = fs.inode_table ∧
    (check_inode_bitmap fix fs).data_bitmap = fs.data_bitmap ∧
    (check_inode_bitmap fix fs).superblock = fs.superblock := by
  have h := foldl_rel
    (fun a b : Fs => b.inode_table = a.inode_table ∧ b.data_bitmap = a.data_bitmap ∧
      b.superblock = a.superblock)
    (fun _ => ⟨rfl, rfl, rfl⟩)
    (fun a b c h1 h2 => ⟨h2.1.trans h1.1, h2.2.1.trans h1.2.1, h2.2.2.trans h1.2.2⟩)
    (inode_bitmap_step fix) (inode_bitmap_step_frame fix) (List.range NUM_INODES)
    { fs.printf "Checking Inode Bitmap...\n" [] with errors := 0 }
  unfold check_inode_bitmap
  simp only []
  split
  · exact h
  · exact h

/-! ## `check_data_bitmap` -/

theorem referenced_iff (fs : Fs) (block : Nat) :
    referenced fs block = true ↔
      ∃ i j, i < NUM_INODES ∧ j < 4 ∧ fs.direct i j = block := by
  unfold referenced
  simp only [List.any_eq_true, List.mem_range, beq_iff_eq]
  constructor
  · rintro ⟨i, hi, j, hj, h⟩
    exact ⟨i, j, hi, hj, h⟩
  · rintro ⟨i, j, hi, hj, h⟩
    exact ⟨i, hi, j, hj, h⟩

theorem referenced_congr (fs fs' : Fs) (h : fs'.inode_table = fs.inode_table) (block : Nat) :
    referenced fs' block = referenced fs block := by
  unfold referenced
  simp only [direct_congr fs fs' h]

theorem data_bitmap_step_table (fix : Bool) (fs : Fs) (block : Nat) :
    (data_bitmap_step fix fs block).inode_table = fs.inode_table ∧
    (data_bitmap_step fix fs block).data_bitmap.length = fs.data_bitmap.length ∧
    (data_bitmap_step fix fs block).superblock = fs.superblock ∧
    (data_bitmap_step fix fs block).inode_bitmap = fs.inode_bitmap := by
  unfold data_bitmap_step
  simp only []
  refine ⟨?_, ?_, ?_, ?_⟩ <;> (repeat' split) <;>
    first | rfl | simp only [printf_data_bitmap, List.length_set]

/-- The bit that `data_used` reads for `b` after the byte of `block` was
rewritten. -/
theorem data_used_set (fs : Fs) (block b : Nat) (f : Nat → Nat → Nat) (v : Nat)
    (hlen : fs.data_bitmap.length = 7)
    (hblock : DATA_BLOCKS_START ≤ block ∧ block < NUM_BLOCKS)
    (hb : DATA_BLOCKS_START ≤ b ∧ b < NUM_BLOCKS)
    (hf : ∀ x k k', k < 8 → k' < 8 → bit_of (f x k) k' = if k' = k then v else bit_of x k')
    (fs' : Fs)
    (hfs : fs'.data_bitmap = fs.data_bitmap.set ((block - DATA_BLOCKS_START) / 8)
      (f (fs.data_bitmap.getD ((block - DATA_BLOCKS_START) / 8) 0)
        ((block - DATA_BLOCKS_START) % 8))) :
    data_used fs' b = if b = block then (v != 0) else data_used fs b := by
  unfold data_used
  rw [hfs, getD_set_eq]
  have h8 : DATA_BLOCKS_START = 8 := rfl
  have h64 : NUM_BLOCKS = 64 := rfl
  rw [h8, h64] at hblock hb
  rw [h8]
  have hlt : (block - 8) / 8 < fs.data_bitmap.length := by rw [hlen]; omega
  by_cases hbyte : (b - 8) / 8 = (block - 8) / 8
  · rw [if_pos ⟨hbyte, hlt⟩, hf _ _ _ (Nat.mod_lt _ (by norm_num)) (Nat.mod_lt _ (by norm_num))]
    by_cases hbit : (b - 8) % 8 = (block - 8) % 8
    · have : b = block := by omega
      rw [if_pos hbit, if_pos this]
    · have : b ≠ block := fun e => hbit (by rw [e])
      rw [if_neg hbit, if_neg this, hbyte]
  · have : b ≠ block := fun e => hbyte (by rw [e])
    rw [if_neg (fun h => hbyte h.1), if_neg this]

theorem data_bitmap_step_used (fs : Fs) (block b : Nat)
    (hlen : fs.data_bitmap.length = 7)
    (hblock : DATA_BLOCKS_START ≤ block ∧ block < NUM_BLOCKS)
    (hb : DATA_BLOCKS_START ≤ b ∧ b < NUM_BLOCKS) :
    data_used (data_bitmap_step true fs block) b =
      if b = block then referenced fs block else data_used fs b := by
  unfold data_bitmap_step
  simp only []
  have hu : data_used fs block =
      (bit_of (fs.data_bitmap.getD ((block - DATA_BLOCKS_START) / 8) 0)
        ((block - DATA_BLOCKS_START) % 8) != 0) := rfl
  split
  · next h =>
    simp only [if_true]
    rw [data_used_set fs block b clear_bit 0 hlen hblock hb bit_of_clear_bit _ rfl]
    have : referenced fs block = false := by simpa using h.2
    rw [this]; rfl
  · next h =>
    split
    · next h2 =>
      simp only [if_true]
      rw [data_used_set fs block b set_bit 1 hlen hblock hb bit_of_set_bit _ rfl]
      rw [h2.2]; rfl
    · next h2 =>
      by_cases hbb : b = block
      · rw [if_pos hbb, hbb, hu]
        rcases bit_of_le_one (fs.data_bitmap.getD ((block - DATA_BLOCKS_START) / 8) 0)
          ((block - DATA_BLOCKS_START) % 8) with h0 | h1
        · rw [h0] at h h2 ⊢
          cases hr : referenced fs block
          · rfl
          · exact absurd ⟨rfl, hr⟩ h2
        · rw [h1] at h h2 ⊢
          cases hr : referenced fs block
          · exact absurd ⟨by norm_num, by simp [hr]⟩ h
          · rfl
      · rw [if_neg hbb]

end Fsck

namespace Fsck

theorem data_bitmap_loop (fs : Fs) (hlen : fs.data_bitmap.length = 7) (k : Nat)
    (hk : DATA_BLOCKS_START + k ≤ NUM_BLOCKS) :
    ((List.range' DATA_BLOCKS_START k).foldl (data_bitmap_step true) fs).inode_table
        = fs.inode_table ∧
    ((List.range' DATA_BLOCKS_START k).foldl (data_bitmap_step true) fs).data_bitmap.length
        = 7 ∧
    ∀ b, DATA_BLOCKS_START ≤ b ∧ b < NUM_BLOCKS →
      data_used ((List.range' DATA_BLOCKS_START k).foldl (data_bitmap_step true) fs) b =
        if b < DATA_BLOCKS_START + k then referenced fs b else data_used fs b := by
  induction k with
  | zero =>
    refine ⟨rfl, hlen, ?_⟩
    intro b hb
    have : ¬ b < DATA_BLOCKS_START + 0 := by omega
    rw [if_neg this]; rfl
  | succ k ih =>
    obtain ⟨ht, hl, hu⟩ := ih (by omega)
    rw [List.range'_concat, List.foldl_append, List.foldl_cons, List.foldl_nil, Nat.one_mul]
    have hst := data_bitmap_step_table true
      ((List.range' DATA_BLOCKS_START k).foldl (data_bitmap_step true) fs)
      (DATA_BLOCKS_START + k)
    refine ⟨hst.1.trans ht, hst.2.1.trans hl, ?_⟩
    intro b hb
    rw [data_bitmap_step_used _ _ _ hl ⟨by omega, by omega⟩ hb, hu b hb,
      referenced_congr _ _ ht]
    by_cases h1 : b = DATA_BLOCKS_START + k
    · rw [if_pos h1, if_pos (by omega), h1]
    · rw [if_neg h1]
      by_cases h2 : b < DATA_BLOCKS_START + k
      · rw [if_pos h2, if_pos (by omega)]
      · rw [if_neg h2, if_neg (by omega)]

theorem check_data_bitmap_spec (fs : Fs) (hlen : fs.data_bitmap.length = 7) :
    (check_data_bitmap true fs).inode_table = fs.inode_table ∧
    (check_data_bitmap true fs).data_bitmap.length = 7 ∧
    ∀ b, DATA_BLOCKS_START ≤ b ∧ b < NUM_BLOCKS →
      data_used (check_data_bitmap true fs) b = referenced fs b := by
  have h := data_bitmap_loop { fs.printf "Checking Data Bitmap...\n" [] with errors := 0 }
    hlen (NUM_BLOCKS - DATA_BLOCKS_START) (by decide)
  have hmain :
      ((List.range' DATA_BLOCKS_START (NUM_BLOCKS - DATA_BLOCKS_START)).foldl
        (data_bitmap_step true)
        { fs.printf "Checking Data Bitmap...\n" [] with errors := 0 }).inode_table
        = fs.inode_table ∧
      ((List.range' DATA_BLOCKS_START (NUM_BLOCKS - DATA_BLOCKS_START)).foldl
        (data_bitmap_step true)
        { fs.printf "Checking Data Bitmap...\n" [] with errors := 0 }).data_bitmap.length
        = 7 ∧
      ∀ b, DATA_BLOCKS_START ≤ b ∧ b < NUM_BLOCKS →
        data_used ((List.range' DATA_BLOCKS_START (NUM_BLOCKS - DATA_BLOCKS_START)).foldl
          (data_bitmap_step true)
          { fs.printf "Checking Data Bitmap...\n" [] with errors := 0 }) b
          = referenced fs b := by
    refine ⟨h.1, h.2.1, ?_⟩
    intro b hb
    rw [h.2.2 b hb, if_pos (by
      have h8 : DATA_BLOCKS_START = 8 := rfl
      have h64 : NUM_BLOCKS = 64 := rfl
      omega)]
    rfl
  unfold check_data_bitmap
  simp only []
  split
  · exact hmain
  · exact hmain

end Fsck

namespace Fsck

/-! ## `check_duplicate_blocks` -/

theorem duplicate_step_skip (i : Nat) (st : DupState) (j : Nat)
    (h : ¬ (DATA_BLOCKS_START ≤ st.fs.direct i j ∧ st.fs.direct i j < NUM_BLOCKS)) :
    duplicate_step true i st j = st := by
  unfold duplicate_step
  simp only [h, if_false]

theorem duplicate_step_first (i : Nat) (st : DupState) (j : Nat)
    (h : DATA_BLOCKS_START ≤ st.fs.direct i j ∧ st.fs.direct i j < NUM_BLOCKS)
    (h0 : st.block_ref.getD (st.fs.direct i j) 0 = 0) :
    duplicate_step true i st j =
      { st with block_ref := st.block_ref.set (st.fs.direct i j) ((0 + 1) % 256) } := by
  unfold duplicate_step
  simp only [h, h0, if_true, and_self, ne_eq, not_true_eq_false, if_false]

theorem duplicate_step_again (i : Nat) (st : DupState) (j : Nat)
    (h : DATA_BLOCKS_START ≤ st.fs.direct i j ∧ st.fs.direct i j < NUM_BLOCKS)
    (h0 : st.block_ref.getD (st.fs.direct i j) 0 ≠ 0) :
    (duplicate_step true i st j).block_ref =
        st.block_ref.set (st.fs.direct i j)
          ((st.block_ref.getD (st.fs.direct i j) 0 + 1) % 256) ∧
    SameBut st.fs (duplicate_step true i st j).fs ∧
    ∀ i' j', (duplicate_step true i st j).fs.direct i' j' =
      if i' = i ∧ j' = j then 0 else st.fs.direct i' j' := by
  have hb := direct_ne_zero st.fs i j (by
    have h8 : DATA_BLOCKS_START = 8 := rfl
    omega)
  unfold duplicate_step
  simp only [h, h0, if_true, and_self, ne_eq, not_false_eq_true]
  refine ⟨trivial, ?_, ?_⟩
  · exact ((SameBut.printf _ _ _).trans (SameBut.set_direct _ _ _ _)).trans
      ((SameBut.printf _ _ _).trans (SameBut.errors _ _))
  · intro i' j'
    have : ∀ x : Fs, ({ x with errors := x.errors + 1 } : Fs).direct i' j' = x.direct i' j' :=
      fun _ => rfl
    rw [this, printf_direct, direct_set_direct]
    simp only [printf_inode_table, printf_inode, printf_direct, hb.1, hb.2, and_true]

/-- Two slots with the same number in scan order are the same slot. -/
theorem slot_eq {i j i' j' : Nat} (hj : j < 4) (hj' : j' < 4)
    (h : 4 * i' + j' = 4 * i + j) : i' = i ∧ j' = j := by
  omega

theorem duplicate_step_inv (orig : Fs) (st : DupState) (i j : Nat) (hj : j < 4)
    (inv : DupInv orig st (4 * i + j)) :
    DupInv orig (duplicate_step true i st j) (4 * i + j + 1) := by
  have hblock : st.fs.direct i j = orig.direct i j := inv.ahead i j hj (Nat.le_refl _)
  have hfresh : ∀ b, (∀ i' j', j' < 4 → 4 * i' + j' < 4 * i + j + 1 → orig.direct i' j' ≠ b) →
      b ≠ st.fs.direct i j ∧ st.block_ref.getD b 0 = 0 := by
    intro b hb
    refine ⟨fun e => hb i j hj (by omega) (by rw [e, hblock]), ?_⟩
    exact inv.fresh b (fun i' j' hj' hlt => hb i' j' hj' (by omega))
  by_cases hr : DATA_BLOCKS_START ≤ st.fs.direct i j ∧ st.fs.direct i j < NUM_BLOCKS
  · by_cases h0 : st.block_ref.getD (st.fs.direct i j) 0 = 0
    · rw [duplicate_step_first i st j hr h0]
      refine ⟨inv.same, ?_, inv.kept_or_zero, ?_, ?_⟩
      · intro i' j' hj' hle
        exact inv.ahead i' j' hj' (by omega)
      · intro b hb
        obtain ⟨hne, hz⟩ := hfresh b hb
        show (st.block_ref.set _ _).getD b 0 = 0
        rw [getD_set_eq, if_neg (fun h => hne h.1)]
        exact hz
      · intro i' j' hj' hlt hfirst
        by_cases hlt' : 4 * i' + j' < 4 * i + j
        · exact inv.first i' j' hj' hlt' hfirst
        · obtain ⟨rfl, rfl⟩ := slot_eq hj hj' (by omega : 4 * i' + j' = 4 * i + j)
          exact hblock
    · obtain ⟨hbr, hsame, hdir⟩ := duplicate_step_again i st j hr h0
      refine ⟨inv.same.trans hsame, ?_, ?_, ?_, ?_⟩
      · intro i' j' hj' hle
        rw [hdir, if_neg (by rintro ⟨rfl, rfl⟩; omega)]
        exact inv.ahead i' j' hj' (by omega)
      · intro i' j'
        rw [hdir]
        by_cases h : i' = i ∧ j' = j
        · rw [if_pos h]; exact Or.inr rfl
        · rw [if_neg h]; exact inv.kept_or_zero i' j'
      · intro b hb
        obtain ⟨hne, hz⟩ := hfresh b hb
        rw [hbr, getD_set_eq, if_neg (fun h => hne h.1)]
        exact hz
      · intro i' j' hj' hlt hfirst
        by_cases hlt' : 4 * i' + j' < 4 * i + j
        · rw [hdir, if_neg (by rintro ⟨rfl, rfl⟩; omega)]
          exact inv.first i' j' hj' hlt' hfirst
        · obtain ⟨rfl, rfl⟩ := slot_eq hj hj' (by omega : 4 * i' + j' = 4 * i + j)
          exfalso
          apply h0
          rw [hblock]
          exact inv.fresh _ hfirst
  · rw [duplicate_step_skip i st j hr]
    refine ⟨inv.same, ?_, inv.kept_or_zero, ?_, ?_⟩
    · intro i' j' hj' hle
      exact inv.ahead i' j' hj' (by omega)
    · intro b hb
      exact (hfresh b hb).2
    · intro i' j' hj' hlt hfirst
      by_cases hlt' : 4 * i' + j' < 4 * i + j
      · exact inv.first i' j' hj' hlt' hfirst
      · obtain ⟨rfl, rfl⟩ := slot_eq hj hj' (by omega : 4 * i' + j' = 4 * i + j)
        exact hblock

theorem duplicate_inner_inv (orig : Fs) (i : Nat) (k : Nat) (hk : k ≤ 4) (st : DupState)
    (inv : DupInv orig st (4 * i)) :
    DupInv orig ((List.range k).foldl (duplicate_step true i) st) (4 * i + k) := by
  induction k with
  | zero => exact inv
  | succ k ih =>
    rw [List.range_succ, List.foldl_append, List.foldl_cons, List.foldl_nil]
    exact duplicate_step_inv orig _ i k (by omega) (ih (by omega))

theorem duplicate_outer_inv (orig : Fs) (n : Nat) (st : DupState) (inv : DupInv orig st 0) :
    DupInv orig ((List.range n).foldl
      (fun st i => (List.range 4).foldl (duplicate_step true i) st) st) (4 * n) := by
  induction n with
  | zero => exact inv
  | succ n ih =>
    rw [@List.range_succ n, List.foldl_append, List.foldl_cons, List.foldl_nil]
    exact duplicate_inner_inv orig n 4 (Nat.le_refl _) _ ih

theorem check_duplicate_blocks_inv (fs : Fs) :
    SameBut fs (check_duplicate_blocks true fs) ∧
    (∀ i j, (check_duplicate_blocks true fs).direct i j = fs.direct i j ∨
      (check_duplicate_blocks true fs).direct i j = 0) ∧
    (∀ i j, i < NUM_INODES → j < 4 →
      (∀ i' j', j' < 4 → 4 * i' + j' < 4 * i + j → fs.direct i' j' ≠ fs.direct i j) →
      (check_duplicate_blocks true fs).direct i j = fs.direct i j) := by
  have inv0 : DupInv fs
      (DupState.mk { fs.printf "Checking for duplicate blocks...\n" [] with errors := 0 }
        (List.replicate NUM_BLOCKS 0)) 0 := by
    refine ⟨(SameBut.printf fs _ _).trans (SameBut.errors _ 0), fun _ _ _ _ => rfl,
      fun _ _ => Or.inl rfl, ?_, ?_⟩
    · intro b _
      show (List.replicate NUM_BLOCKS 0).getD b 0 = 0
      rw [List.getD_eq_getElem?_getD, List.getElem?_replicate]
      split <;> rfl
    · intro i j _ hlt
      omega
  have inv := duplicate_outer_inv fs NUM_INODES _ inv0
  have hmain : ∀ x : Fs, SameBut fs x ∧
      (∀ i j, x.direct i j = fs.direct i j ∨ x.direct i j = 0) ∧
      (∀ i j, i < NUM_INODES → j < 4 →
        (∀ i' j', j' < 4 → 4 * i' + j' < 4 * i + j → fs.direct i' j' ≠ fs.direct i j) →
        x.direct i j = fs.direct i j) →
      SameBut fs (x.printf "Duplicate block check passed.\n" []) ∧
      (∀ i j, (x.printf "Duplicate block check passed.\n" []).direct i j = fs.direct i j ∨
        (x.printf "Duplicate block check passed.\n" []).direct i j = 0) ∧
      (∀ i j, i < NUM_INODES → j < 4 →
        (∀ i' j', j' < 4 → 4 * i' + j' < 4 * i + j → fs.direct i' j' ≠ fs.direct i j) →
        (x.printf "Duplicate block check passed.\n" []).direct i j = fs.direct i j) :=
    fun x h => ⟨h.1.trans (SameBut.printf _ _ _), h.2.1, h.2.2⟩
  have hfold : SameBut fs ((List.range NUM_INODES).foldl
        (fun st i => (List.range 4).foldl (duplicate_step true i) st)
        (DupState.mk { fs.printf "Checking for duplicate blocks...\n" [] with errors := 0 }
          (List.replicate NUM_BLOCKS 0))).fs ∧
      (∀ i j, ((List.range NUM_INODES).foldl
        (fun st i => (List.range 4).foldl (duplicate_step true i) st)
        (DupState.mk { fs.printf "Checking for duplicate blocks...\n" [] with errors := 0 }
          (List.replicate NUM_BLOCKS 0))).fs.direct i j = fs.direct i j ∨
        ((List.range NUM_INODES).foldl
        (fun st i => (List.range 4).foldl (duplicate_step true i) st)
        (DupState.mk { fs.printf "Checking for duplicate blocks...\n" [] with errors := 0 }
          (List.replicate NUM_BLOCKS 0))).fs.direct i j = 0) ∧
      (∀ i j, i < NUM_INODES → j < 4 →
        (∀ i' j', j' < 4 → 4 * i' + j' < 4 * i + j → fs.direct i' j' ≠ fs.direct i j) →
        ((List.range NUM_INODES).foldl
        (fun st i => (List.range 4).foldl (duplicate_step true i) st)
        (DupState.mk { fs.printf "Checking for duplicate blocks...\n" [] with errors := 0 }
          (List.replicate NUM_BLOCKS 0))).fs.direct i j = fs.direct i j) := by
    refine ⟨inv.same, inv.kept_or_zero, ?_⟩
    intro i j hi hj hfirst
    exact inv.first i j hj (by omega) hfirst
  unfold check_duplicate_blocks
  simp only []
  split
  · exact hmain _ hfold
  · exact hfold

end Fsck

namespace Fsck

/-! ## The set of referenced blocks under the two pointer repairs -/

theorem bad_block_fix_eq_iff (v b : Nat) (hb : DATA_BLOCKS_START ≤ b ∧ b < NUM_BLOCKS) :
    bad_block_fix v = b ↔ v = b := by
  have h8 : DATA_BLOCKS_START = 8 := rfl
  have h64 : NUM_BLOCKS = 64 := rfl
  unfold bad_block_fix
  split
  · next h => constructor <;> intro e <;> omega
  · exact Iff.rfl

theorem bool_eq_of_iff {a b : Bool} (h : a = true ↔ b = true) : a = b := by
  cases a <;> cases b <;> simp at h ⊢

theorem check_bad_blocks_referenced (fs : Fs) (b : Nat)
    (hb : DATA_BLOCKS_START ≤ b ∧ b < NUM_BLOCKS) :
    referenced (check_bad_blocks true fs) b = referenced fs b := by
  apply bool_eq_of_iff
  rw [referenced_iff, referenced_iff]
  constructor
  · rintro ⟨i, j, hi, hj, h⟩
    rw [check_bad_blocks_direct, if_pos ⟨hi, hj⟩, bad_block_fix_eq_iff _ _ hb] at h
    exact ⟨i, j, hi, hj, h⟩
  · rintro ⟨i, j, hi, hj, h⟩
    refine ⟨i, j, hi, hj, ?_⟩
    rw [check_bad_blocks_direct, if_pos ⟨hi, hj⟩, bad_block_fix_eq_iff _ _ hb]
    exact h

/-- Among the slots that name `b` there is a first one in scan order. -/
theorem first_slot (fs : Fs) (b : Nat)
    (h : ∃ i j, i < NUM_INODES ∧ j < 4 ∧ fs.direct i j = b) :
    ∃ i j, i < NUM_INODES ∧ j < 4 ∧ fs.direct i j = b ∧
      ∀ i' j', j' < 4 → 4 * i' + j' < 4 * i + j → fs.direct i' j' ≠ b := by
  classical
  have hex : ∃ n, ∃ i j, i < NUM_INODES ∧ j < 4 ∧ fs.direct i j = b ∧ 4 * i + j = n := by
    obtain ⟨i, j, hi, hj, hv⟩ := h
    exact ⟨4 * i + j, i, j, hi, hj, hv, rfl⟩
  obtain ⟨i, j, hi, hj, hv, hn⟩ := Nat.find_spec hex
  refine ⟨i, j, hi, hj, hv, ?_⟩
  intro i' j' hj' hlt hv'
  have hmin := Nat.find_min hex (m := 4 * i' + j') (by omega)
  apply hmin
  exact ⟨i', j', by omega, hj', hv', rfl⟩

theorem check_duplicate_blocks_referenced (fs : Fs) (b : Nat)
    (hb : DATA_BLOCKS_START ≤ b ∧ b < NUM_BLOCKS) :
    referenced (check_duplicate_blocks true fs) b = referenced fs b := by
  have h8 : DATA_BLOCKS_START = 8 := rfl
  obtain ⟨_, hkz, hfirst⟩ := check_duplicate_blocks_inv fs
  apply bool_eq_of_iff
  rw [referenced_iff, referenced_iff]
  constructor
  · rintro ⟨i, j, hi, hj, h⟩
    rcases hkz i j with hk | hz
    · exact ⟨i, j, hi, hj, hk ▸ h⟩
    · omega
  · intro h
    obtain ⟨i, j, hi, hj, hv, hmin⟩ := first_slot fs b h
    refine ⟨i, j, hi, hj, ?_⟩
    rw [hfirst i j hi hj (by rw [hv]; exact hmin)]
    exact hv

theorem data_used_congr (fs fs' : Fs) (h : fs'.data_bitmap = fs.data_bitmap) (b : Nat) :
    data_used fs' b = data_used fs b := by
  unfold data_used
  rw [h]

end Fsck

namespace Fsck

/-! ## The claims about the checker -/

/-- C17: the counters of `check_duplicate_blocks` are 8 bits wide, so the
test `block_ref[block]++` reads 0 again at the 257th reference to a block.
On a table whose 320 direct pointers all name block 8, the check with fix
keeps block 8 in slot 0 of inode 0, the first reference, and also in slot 0
of inode 64, the 257th: a data block still appears in two slots. -/
theorem check_duplicate_blocks_counter_wraps :
    (check_duplicate_blocks true (Fs.uniform (Inode.pointing 8))).direct 0 0 = 8 ∧
    (check_duplicate_blocks true (Fs.uniform (Inode.pointing 8))).direct 64 0 = 8 := by
  decide!

/-- C18: after the five checks of `main`, for a data bitmap of the declared
seven bytes, the bitmap marks a block `b` of [8, 64) as used exactly when
some direct pointer of some inode equals `b`. The duplicate-block and the
bad-block repair leave the data bitmap as it is and keep, for every such
`b`, whether `b` is referenced. -/
theorem main_checks_bitmap_matches_references (fs : Fs)
    (hlen : fs.data_bitmap.length = (NUM_BLOCKS - DATA_BLOCKS_START) / 8)
    (b : Nat) (h8 : DATA_BLOCKS_START ≤ b) (h64 : b < NUM_BLOCKS) :
    (data_used (main_checks fs) b = true ↔
      ∃ i j, i < NUM_INODES ∧ j < 4 ∧ (main_checks fs).direct i j = b) ∧
    (∀ x : Fs, (check_duplicate_blocks true x).data_bitmap = x.data_bitmap ∧
      referenced (check_duplicate_blocks true x) b = referenced x b) ∧
    (∀ x : Fs, (check_bad_blocks true x).data_bitmap = x.data_bitmap ∧
      referenced (check_bad_blocks true x) b = referenced x b) := by
  have hdup : ∀ x : Fs, (check_duplicate_blocks true x).data_bitmap = x.data_bitmap ∧
      referenced (check_duplicate_blocks true x) b = referenced x b :=
    fun x => ⟨(check_duplicate_blocks_inv x).1.data_bitmap,
      check_duplicate_blocks_referenced x b ⟨h8, h64⟩⟩
  have hbad : ∀ x : Fs, (check_bad_blocks true x).data_bitmap = x.data_bitmap ∧
      referenced (check_bad_blocks true x) b = referenced x b :=
    fun x => ⟨(check_bad_blocks_same x).data_bitmap,
      check_bad_blocks_referenced x b ⟨h8, h64⟩⟩
  refine ⟨?_, hdup, hbad⟩
  rw [← referenced_iff]
  unfold main_checks
  have hs := check_superblock_frame true fs
  have hi := check_inode_bitmap_frame true (check_superblock true fs)
  have hl : (check_inode_bitmap true (check_superblock true fs)).data_bitmap.length = 7 := by
    rw [hi.2.1, hs.2.1, hlen]; rfl
  have hd := check_data_bitmap_spec _ hl
  rw [data_used_congr _ _ (hbad _).1, data_used_congr _ _ (hdup _).1, hd.2.2 b ⟨h8, h64⟩,
    (hbad _).2, (hdup _).2, referenced_congr _ _ hd.1]

/-- Witness of C18: a state in which every inode names block 9 twice and
the bad blocks 7 and 64 once each, with no bit set in the data bitmap; the
block tested is 9. -/
theorem main_checks_bitmap_matches_references_witness :
    (data_used (main_checks (Fs.uniform { Inode.zero with direct := [9, 7, 9, 64] })) 9 = true ↔
      ∃ i j, i < NUM_INODES ∧ j < 4 ∧
        (main_checks (Fs.uniform { Inode.zero with direct := [9, 7, 9, 64] })).direct i j = 9) ∧
    (∀ x : Fs, (check_duplicate_blocks true x).data_bitmap = x.data_bitmap ∧
      referenced (check_duplicate_blocks true x) 9 = referenced x 9) ∧
    (∀ x : Fs, (check_bad_blocks true x).data_bitmap = x.data_bitmap ∧
      referenced (check_bad_blocks true x) 9 = referenced x 9) :=
  main_checks_bitmap_matches_references
    (Fs.uniform { Inode.zero with direct := [9, 7, 9, 64] }) (by decide) 9 (by decide) (by decide)

/-- C19: on a table of 80 inodes with four direct pointers each,
`check_bad_blocks` with fix leaves the superblock and both bitmaps as they
are and changes the inode table only in the direct pointers, each of which
is rewritten by `bad_block_fix`: a pointer that is 0 or in [8, 64) keeps its
value, any other becomes 0, so afterwards every pointer is 0 or in
[8, 64). -/
theorem check_bad_blocks_spec (fs : Fs) (hlen : fs.inode_table.length = NUM_INODES)
    (hd : ∀ ino ∈ fs.inode_table, ino.direct.length = 4) :
    (check_bad_blocks true fs).superblock = fs.superblock ∧
    (check_bad_blocks true fs).inode_bitmap = fs.inode_bitmap ∧
    (check_bad_blocks true fs).data_bitmap = fs.data_bitmap ∧
    (check_bad_blocks true fs).inode_table =
      fs.inode_table.map (fun ino => { ino with direct := ino.direct.map bad_block_fix }) ∧
    ∀ i j, i < NUM_INODES → j < 4 →
      ((check_bad_blocks true fs).direct i j = 0 ∨
        (8 ≤ (check_bad_blocks true fs).direct i j ∧
          (check_bad_blocks true fs).direct i j < 64)) ∧
      ((fs.direct i j = 0 ∨ (8 ≤ fs.direct i j ∧ fs.direct i j < 64)) →
        (check_bad_blocks true fs).direct i j = fs.direct i j) ∧
      (¬ (fs.direct i j = 0 ∨ (8 ≤ fs.direct i j ∧ fs.direct i j < 64)) →
        (check_bad_blocks true fs).direct i j = 0) := by
  have hs := check_bad_blocks_same fs
  have h8 : DATA_BLOCKS_START = 8 := rfl
  have h64 : NUM_BLOCKS = 64 := rfl
  refine ⟨hs.superblock, hs.inode_bitmap, hs.data_bitmap, ?_, ?_⟩
  · apply table_eq_map fs _ bad_block_fix hs hlen hd
    intro i j hi hj
    rw [check_bad_blocks_direct, if_pos ⟨hi, hj⟩]
  · intro i j hi hj
    rw [check_bad_blocks_direct, if_pos ⟨hi, hj⟩]
    unfold bad_block_fix
    split
    · next h => exact ⟨Or.inl rfl, fun h' => by omega, fun _ => rfl⟩
    · next h => exact ⟨by omega, fun _ => rfl, fun h' => by omega⟩

/-- Witness of C19: a table whose inodes all hold the direct pointers 0, 7,
8 and 64; the check leaves 0, 0, 8 and 0. -/
theorem check_bad_blocks_spec_witness :
    (check_bad_blocks true (Fs.uniform { Inode.zero with direct := [0, 7, 8, 64] })).inode_table
      = List.replicate 80 { Inode.zero with direct := [0, 0, 8, 0] } :=
  ((check_bad_blocks_spec (Fs.uniform { Inode.zero with direct := [0, 7, 8, 64] })
    (by decide) (by decide)).2.2.2.1).trans (by decide)

end Fsck
